import Mathlib

/-!
# CPU job scheduler queue (`project3.cpp`): embedding and verification

The program keeps CPU jobs in a `NovelQueue`: a singly linked list of `Queue` nodes
(reached from `front` through `next`) together with an array `NodePointers` of pointers to
the same nodes.

## Embedding

* The free store is explicit.  `Memory.jobs` holds the `CPUJob` objects and `Memory.nodes`
  the `Queue` nodes; a pointer is `Option Nat` (`none` is `nullptr`, `some a` is address `a`).
  `new` appends a cell, so a fresh address is never equal to an older one, and `delete`
  turns the cell into `none`.
* Every operation returns an `Option`.  The result is `none` when the C++ execution has no
  defined result: a null, dangling or unallocated pointer is dereferenced, an array is read
  or written outside its allocation, or a loop never ends.
* `int` values are mathematical integers (`Int`); the development does not treat
  arithmetic overflow.
* `for` loops that count upwards are written with `forUp`; loops with an early exit and the
  pointer chasing loops are recursive functions of their own.  Text written to `cout` is not
  part of the state; `display` and `listJobs` return the sequence of records they print.
-/

namespace JobScheduler

/-! ## Data model -/

/-- The class `CPUJob` (lines 20-35). -/
structure CPUJob where
  jobID : Int
  priority : Int
  job_type : Int
  cpu_time_consumed : Int
  memory_consumed : Int
  deriving DecidableEq, Repr

/-- The class `Queue<DT>` with `DT = CPUJob*` (lines 37-44): one node of the linked list. -/
structure Queue where
  JobPointer : Option Nat
  next : Option Nat
  size : Int
  deriving DecidableEq, Repr

/-- The free store: `CPUJob` objects and `Queue` nodes, addressed by position. -/
structure Memory where
  jobs : List CPUJob
  nodes : List (Option Queue)
  deriving DecidableEq, Repr

/-- The class `NovelQueue<DT>` (lines 100-110).  `NodePointers` is the allocated array,
one list entry per slot. -/
structure NovelQueue where
  front : Option Nat
  NodePointers : List (Option Nat)
  size : Int
  capacity : Int
  deriving DecidableEq, Repr

/-- The constructor `NovelQueue()` (lines 108-110). -/
def NovelQueue.new : NovelQueue :=
  { front := none, NodePointers := List.replicate 10 none, size := 0, capacity := 10 }

/-! ## Memory access -/

/-- Dereference a `CPUJob*`. -/
def Memory.job (m : Memory) (p : Option Nat) : Option CPUJob :=
  p.bind fun a => m.jobs[a]?

/-- Dereference a `Queue<DT>*`. -/
def Memory.node (m : Memory) (p : Option Nat) : Option Queue :=
  p.bind fun a => (m.nodes[a]?).join

/-- The expression `new Queue<DT>()` followed by the initialisation of the node. -/
def Memory.newNode (m : Memory) (n : Queue) : Memory × Nat :=
  ({ m with nodes := m.nodes ++ [some n] }, m.nodes.length)

/-- The statement `delete p` for a node pointer. -/
def Memory.deleteNode (m : Memory) (p : Option Nat) : Option Memory :=
  match p, m.node p with
  | some a, some _ => some { m with nodes := m.nodes.set a none }
  | _, _ => none

/-- The assignment `p->next = v`. -/
def Memory.setNext (m : Memory) (p : Option Nat) (v : Option Nat) : Option Memory :=
  match p, m.node p with
  | some a, some n => some { m with nodes := m.nodes.set a (some { n with next := v }) }
  | _, _ => none

/-- Overwrite the `CPUJob` that `p` points to. -/
def Memory.setJob (m : Memory) (p : Option Nat) (j : CPUJob) : Option Memory :=
  match p, m.job p with
  | some a, some _ => some { m with jobs := m.jobs.set a j }
  | _, _ => none

/-- The assignment `arr[i] = v`, defined inside the allocation only. -/
def store (arr : List (Option Nat)) (i : Nat) (v : Option Nat) : Option (List (Option Nat)) :=
  if i < arr.length then some (arr.set i v) else none

/-- Read `arr[i]` for an `int` index. -/
def readAt (arr : List (Option Nat)) (i : Int) : Option (Option Nat) :=
  if i < 0 then none else arr[i.toNat]?

/-- The assignment `arr[i] = v` for an `int` index. -/
def writeAt (arr : List (Option Nat)) (i : Int) (v : Option Nat) : Option (List (Option Nat)) :=
  if i < 0 then none else store arr i.toNat v

/-- The record `p->JobPointer` points to, for a node pointer `p`. -/
def Memory.record (m : Memory) (p : Option Nat) : Option CPUJob :=
  (m.node p).bind fun n => m.job n.JobPointer

/-- The record `arr[i]->JobPointer` points to. -/
def jobAt (m : Memory) (arr : List (Option Nat)) (i : Nat) : Option CPUJob :=
  (arr[i]?).bind m.record

/-- The loop `for (i = lo; i < lo + n; ++i) body`. -/
def forUp {σ : Type} (body : Nat → σ → Option σ) : Nat → Nat → σ → Option σ
  | _, 0, s => some s
  | i, n + 1, s => (body i s).bind (forUp body (i + 1) n)

/-- The call `std::swap(arr[i], arr[j])`. -/
def swapAt (arr : List (Option Nat)) (i j : Nat) : Option (List (Option Nat)) := do
  let x ← arr[i]?
  let y ← arr[j]?
  let arr ← store arr i y
  store arr j x

/-! ## `NovelQueue` operations -/

/-- The method `resize` (lines 321-329). -/
def resize (q : NovelQueue) (newCapacity : Int) : Option NovelQueue :=
  if newCapacity < 0 then none
  else do
    let arr ← forUp (fun i new => do
        let v ← q.NodePointers[i]?
        store new i v) 0 q.size.toNat (List.replicate newCapacity.toNat none)
    pure { q with NodePointers := arr, capacity := newCapacity }

/-- The duplicate check of `enqueue` (lines 121-127), started at index `i` with `n`
iterations left: `some true` when an entry with the id of `newJob` is met. -/
def hasDuplicate (m : Memory) (arr : List (Option Nat)) (newJob : Option Nat) :
    Nat → Nat → Option Bool
  | _, 0 => some false
  | i, n + 1 => do
    let j ← jobAt m arr i
    let nj ← m.job newJob
    if j.jobID = nj.jobID then some true else hasDuplicate m arr newJob (i + 1) n

/-- The loop `while (temp->next != nullptr) temp = temp->next;` (lines 142-145).  It ends
within `fuel` steps or not at all when `fuel` is the number of node cells. -/
def findTail (m : Memory) : Nat → Option Nat → Option (Option Nat)
  | 0, _ => none
  | fuel + 1, temp =>
    match m.node temp with
    | none => none
    | some n => if n.next = none then some temp else findTail m fuel n.next

/-- The statements "Add to the queue" of `enqueue` (lines 139-147). -/
def linkAtTail (m : Memory) (front : Option Nat) (newNode : Option Nat) :
    Option (Memory × Option Nat) :=
  if front = none then some (m, newNode)
  else do
    let temp ← findTail m m.nodes.length front
    let m ← m.setNext temp newNode
    pure (m, front)

/-- The loop "Sort by job ID if necessary" of `enqueue` (lines 153-155), entered with
index `i`. -/
def sortByID (m : Memory) : Nat → List (Option Nat) → Option (List (Option Nat))
  | 0, arr => some arr
  | i + 1, arr => do
    let a ← jobAt m arr (i + 1)
    let b ← jobAt m arr i
    if a.jobID < b.jobID then
      let arr ← swapAt arr (i + 1) i
      sortByID m i arr
    else some arr

/-- The method `enqueue` (lines 119-156). -/
def enqueue (m : Memory) (q : NovelQueue) (newJob : Option Nat) :
    Option (Memory × NovelQueue) := do
  let dup ← hasDuplicate m q.NodePointers newJob 0 q.size.toNat
  if dup then pure (m, q)
  else
    let q ← if q.size = q.capacity then resize q (q.capacity * 2) else pure q
    let (m, a) := m.newNode { JobPointer := newJob, next := none, size := 0 }
    let (m, front) ← linkAtTail m q.front (some a)
    let arr ← writeAt q.NodePointers q.size (some a)
    let size := q.size + 1
    let arr ← sortByID m (size - 1).toNat arr
    pure (m, { q with front := front, NodePointers := arr, size := size })

/-- The method `dequeue` (lines 158-177); the third component is the returned `DT`. -/
def dequeue (m : Memory) (q : NovelQueue) : Option (Memory × NovelQueue × Option Nat) :=
  if q.front = none then some (m, q, none)
  else do
    let temp ← m.node q.front
    let m1 ← m.deleteNode q.front
    let arr ← forUp (fun i arr => do
        let v ← arr[i + 1]?
        store arr i v) 0 (q.size - 1).toNat q.NodePointers
    let q := { q with front := temp.next, NodePointers := arr, size := q.size - 1 }
    let q ← if q.size > 0 ∧ q.size ≤ Int.tdiv q.capacity 2 then
        resize q (Int.tdiv q.capacity 2) else pure q
    pure (m1, q, temp.JobPointer)

/-- The method `modify` (lines 179-188). -/
def modify (m : Memory) (q : NovelQueue) (jobID new_priority new_job_type
    new_cpu_time_consumed new_memory_consumed : Int) : Option (Memory × NovelQueue) := do
  let m ← forUp (fun i m => do
      let p ← q.NodePointers[i]?
      let n ← m.node p
      let j ← m.job n.JobPointer
      if j.jobID = jobID then
        m.setJob n.JobPointer
          { j with
            priority := new_priority
            job_type := new_job_type
            cpu_time_consumed := new_cpu_time_consumed
            memory_consumed := new_memory_consumed }
      else some m) 0 q.size.toNat m
  pure (m, q)

/-- The search loop of `promote` (lines 191-197), started at index `i` with `n` iterations
left: the index of the first entry with the id, or `-1`. -/
def findIndex (m : Memory) (arr : List (Option Nat)) (jobID : Int) : Nat → Nat → Option Int
  | _, 0 => some (-1)
  | i, n + 1 => do
    let j ← jobAt m arr i
    if j.jobID = jobID then some (i : Int) else findIndex m arr jobID (i + 1) n

/-- The loop `for (j = jobIndex; j > newIndex; --j) NodePointers[j] = NodePointers[j - 1];`
(lines 201-203), entered at `j` with `n` iterations left. -/
def shiftRight : Nat → Nat → List (Option Nat) → Option (List (Option Nat))
  | _, 0, arr => some arr
  | j, n + 1, arr => do
    let v ← readAt arr ((j : Int) - 1)
    let arr ← store arr j v
    shiftRight (j - 1) n arr

/-- The method `promote` (lines 190-215). -/
def promote (m : Memory) (q : NovelQueue) (jobID positions : Int) :
    Option (Memory × NovelQueue) := do
  let jobIndex ← findIndex m q.NodePointers jobID 0 q.size.toNat
  let newIndex : Int := max 0 (jobIndex - positions)
  let nodeToPromote ← readAt q.NodePointers jobIndex
  let arr ← shiftRight jobIndex.toNat (jobIndex - newIndex).toNat q.NodePointers
  let arr ← writeAt arr newIndex nodeToPromote
  let front ← if newIndex = 0 then readAt arr 0 else pure q.front
  let m ← forUp (fun i m => do
      let p ← arr[i]?
      let v ← arr[i + 1]?
      m.setNext p v) 0 (q.size - 1).toNat m
  let last ← readAt arr (q.size - 1)
  let m ← m.setNext last none
  pure (m, { q with front := front, NodePointers := arr })

/-- The traversal of `display` (lines 303-312): the records printed from `temp` on.  It
ends within `fuel` steps or not at all when `fuel` is the number of node cells. -/
def displayFrom (m : Memory) : Nat → Option Nat → Option (List CPUJob)
  | _, none => some []
  | 0, some _ => none
  | fuel + 1, some a =>
    match m.node (some a) with
    | none => none
    | some n =>
      if n.JobPointer = none then displayFrom m fuel n.next
      else do
        let j ← m.job n.JobPointer
        let rest ← displayFrom m fuel n.next
        pure (j :: rest)

/-- The method `display` (lines 303-312): the records in linked order. -/
def display (m : Memory) (q : NovelQueue) : Option (List CPUJob) :=
  displayFrom m m.nodes.length q.front

/-- The method `listJobs` (lines 314-319): the records in array order. -/
def listJobs (m : Memory) (q : NovelQueue) : Option (List CPUJob) :=
  forUp (fun i out => do
    let j ← jobAt m q.NodePointers i
    pure (out ++ [j])) 0 q.size.toNat []

/-- The method `count` (lines 331-333). -/
def count (q : NovelQueue) : Int := q.size

/-- The assignment of field `field_index` in `change` (the `switch`, lines 223-244):
`none` stands for the `default` branch. -/
def setField (j : CPUJob) (field_index new_value : Int) : Option CPUJob :=
  if field_index = 1 then some { j with priority := new_value }
  else if field_index = 2 then some { j with job_type := new_value }
  else if field_index = 3 then some { j with cpu_time_consumed := new_value }
  else if field_index = 4 then some { j with memory_consumed := new_value }
  else none

/-- The loop of `change` (lines 220-254), started at index `i` with `n` iterations left. -/
def changeFrom (m : Memory) (q : NovelQueue) (jobID field_index new_value : Int) :
    Nat → Nat → Option Memory
  | _, 0 => some m
  | i, n + 1 => do
    let p ← q.NodePointers[i]?
    let nd ← m.node p
    let j ← m.job nd.JobPointer
    if j.jobID = jobID then
      match setField j field_index new_value with
      | none => some m
      | some j' => do
        let m ← m.setJob nd.JobPointer j'
        let _ ← display m q
        pure m
    else changeFrom m q jobID field_index new_value (i + 1) n

/-- The method `change` (lines 217-260). -/
def change (m : Memory) (q : NovelQueue) (jobID field_index new_value : Int) :
    Option (Memory × NovelQueue) := do
  let m ← changeFrom m q jobID field_index new_value 0 q.size.toNat
  pure (m, q)

/-- The comparison of `reorder` (lines 269-283): the value of `needSwap` at index `j`. -/
def needSwap (m : Memory) (arr : List (Option Nat)) (attribute_index : Int) (j : Nat) :
    Option Bool := do
  if attribute_index = 1 then
    let a ← jobAt m arr j
    let b ← jobAt m arr (j + 1)
    pure (decide (a.jobID > b.jobID))
  else if attribute_index = 2 then
    let a ← jobAt m arr j
    let b ← jobAt m arr (j + 1)
    pure (decide (a.priority > b.priority))
  else if attribute_index = 3 then
    let a ← jobAt m arr j
    let b ← jobAt m arr (j + 1)
    pure (decide (a.cpu_time_consumed > b.cpu_time_consumed))
  else pure false

/-- The sorting loops of `reorder` (lines 267-288). -/
def sortArray (m : Memory) (attribute_index : Int) (size : Int) (arr : List (Option Nat)) :
    Option (List (Option Nat)) :=
  forUp (fun i arr =>
    forUp (fun j arr => do
      let sw ← needSwap m arr attribute_index j
      if sw then swapAt arr j (j + 1) else some arr) 0 (size - i - 1).toNat arr)
    0 (size - 1).toNat arr

/-- The loop `while (size > 0) this->dequeue();` of `reorder` (lines 296-298), with `n`
the value of `size`.  A `dequeue` that finds `front` null changes nothing, so the loop
never ends: the result is `none`. -/
def drain : Nat → Memory → NovelQueue → Option (Memory × NovelQueue)
  | 0, m, q => some (m, q)
  | n + 1, m, q =>
    if q.front = none then none
    else do
      let (m, q, _) ← dequeue m q
      drain n m q

/-- The method `reorder` (lines 263-301): the memory, the queue it was called on and the
queue it returns. -/
def reorder (m : Memory) (q : NovelQueue) (attribute_index : Int) :
    Option (Memory × NovelQueue × NovelQueue) := do
  let arr ← sortArray m attribute_index q.size q.NodePointers
  let q := { q with NodePointers := arr }
  let (m, reorderedQueue) ← forUp (fun i (s : Memory × NovelQueue) => do
      let p ← arr[i]?
      if p = none then some s
      else do
        let n ← s.1.node p
        enqueue s.1 s.2 n.JobPointer) 0 q.size.toNat (m, NovelQueue.new)
  let (m, q) ← drain q.size.toNat m q
  pure (m, q, reorderedQueue)

/-! ## Specification vocabulary -/

/-- The nodes met from `p` by following `next` up to the null pointer are exactly `l`. -/
def Chain (m : Memory) : Option Nat → List (Option Nat) → Prop
  | p, [] => p = none
  | p, x :: l => p = x ∧ ∃ n, m.node x = some n ∧ Chain m n.next l

/-- The records of the nodes `l`, in order. -/
def Memory.records (m : Memory) (l : List (Option Nat)) : List CPUJob :=
  l.filterMap m.record

/-- The ids of the records of the nodes `l`, in order. -/
def Memory.ids (m : Memory) (l : List (Option Nat)) : List Int :=
  (m.records l).map CPUJob.jobID

/-- The queue `q` is well formed in the memory `m`: the linked list from `front` consists of
the nodes `L`, the first `size` entries of the array are `A`, the array and the list hold the
same nodes, and every node has a record. -/
structure Represents (m : Memory) (q : NovelQueue) (L A : List (Option Nat)) : Prop where
  chain : Chain m q.front L
  array : ∃ tail, q.NodePointers = A ++ tail
  size : q.size = A.length
  perm : A.Perm L
  records : ∀ x ∈ A, m.record x ≠ none

/-- The invariant of the queues built with `enqueue` and `dequeue`: the linked list consists
of the nodes `L` and the first `size` entries of the array are `A`; the array has as many
entries as the list has nodes, no entry twice, and every entry is a node of the list or a
node that has been deleted; the records of the list have pairwise distinct ids. -/
structure QueueInv (m : Memory) (q : NovelQueue) (L A : List (Option Nat)) : Prop where
  chain : Chain m q.front L
  array : ∃ tail, q.NodePointers = A ++ tail
  size : q.size = A.length
  length : A.length = L.length
  nodup : A.Nodup
  own : ∀ x ∈ A, x ∈ L ∨ m.node x = none
  bound : ∀ x ∈ A, x ≠ none ∧ ∀ a, x = some a → a < m.nodes.length
  records : ∀ x ∈ L, m.record x ≠ none
  ids : (m.ids L).Nodup
  capacity : q.capacity = q.NodePointers.length
  positive : 1 ≤ q.capacity

/-- One call of a method of `NovelQueue`. -/
inductive Op where
  | enqueue (newJob : Option Nat)
  | dequeue
  | modify (jobID new_priority new_job_type new_cpu_time_consumed new_memory_consumed : Int)
  | promote (jobID positions : Int)
  | change (jobID field_index new_value : Int)
  deriving DecidableEq, Repr

/-- The calls `enqueue` and `dequeue`. -/
def Op.isEnqueueOrDequeue : Op → Bool
  | .enqueue _ => true
  | .dequeue => true
  | _ => false

/-- The call `op` on the queue `q`. -/
def step (m : Memory) (q : NovelQueue) : Op → Option (Memory × NovelQueue)
  | .enqueue newJob => enqueue m q newJob
  | .dequeue => (dequeue m q).map fun r => (r.1, r.2.1)
  | .modify jobID p t c mem => modify m q jobID p t c mem
  | .promote jobID positions => promote m q jobID positions
  | .change jobID field_index new_value => change m q jobID field_index new_value

/-- A sequence of calls, from left to right. -/
def run (m : Memory) (q : NovelQueue) : List Op → Option (Memory × NovelQueue)
  | [] => some (m, q)
  | op :: ops => (step m q op).bind fun s => run s.1 s.2 ops

/-- The queue discipline of the specification, on records: `enqueue` appends a record
whose id is not in the queue and rejects any other, `dequeue` removes the first record.
`job` looks a job pointer up. -/
def fifoModel (job : Option Nat → Option CPUJob) : List CPUJob → List Op → List CPUJob
  | ds, [] => ds
  | ds, Op.enqueue newJob :: ops =>
    match job newJob with
    | some j =>
      if j.jobID ∈ ds.map CPUJob.jobID then fifoModel job ds ops
      else fifoModel job (ds ++ [j]) ops
    | none => fifoModel job ds ops
  | ds, Op.dequeue :: ops => fifoModel job ds.tail ops
  | ds, _ :: ops => fifoModel job ds ops

/-- The attribute `reorder` compares for `attribute_index` (lines 271-283): 1 is `jobID`,
2 is `priority`, 3 is `cpu_time_consumed`; for any other index no comparison is made, which
is the same as comparing a constant. -/
def CPUJob.attr (attribute_index : Int) (j : CPUJob) : Int :=
  if attribute_index = 1 then j.jobID
  else if attribute_index = 2 then j.priority
  else if attribute_index = 3 then j.cpu_time_consumed
  else 0

/-- The attribute of the record of the node `p` (0 when `p` has no record). -/
def Memory.key (m : Memory) (attribute_index : Int) (p : Option Nat) : Int :=
  ((m.record p).map (CPUJob.attr attribute_index)).getD 0

/-- A sequence of `enqueue` calls. -/
def enqueueAll (m : Memory) (q : NovelQueue) : List (Option Nat) → Option (Memory × NovelQueue)
  | [] => some (m, q)
  | p :: ps => (enqueue m q p).bind fun s => enqueueAll s.1 s.2 ps

/-! ## Memory lemmas -/

theorem node_none (m : Memory) : m.node none = none := rfl

theorem node_lt {m : Memory} {p : Option Nat} {n : Queue} (h : m.node p = some n) :
    ∃ a, p = some a ∧ a < m.nodes.length := by
  cases p with
  | none => simp [Memory.node] at h
  | some a =>
    refine ⟨a, rfl, ?_⟩
    by_contra hlt
    simp [Memory.node, List.getElem?_eq_none (Nat.le_of_not_lt hlt)] at h

theorem record_node {m : Memory} {p : Option Nat} {j : CPUJob} (h : m.record p = some j) :
    ∃ n, m.node p = some n ∧ m.job n.JobPointer = some j := by
  unfold Memory.record at h
  cases hn : m.node p with
  | none => simp [hn] at h
  | some n => exact ⟨n, rfl, by simpa [hn] using h⟩

theorem node_newNode_of_lt (m : Memory) (n : Queue) {a : Nat} (h : a < m.nodes.length) :
    (m.newNode n).1.node (some a) = m.node (some a) := by
  simp [Memory.node, Memory.newNode, List.getElem?_append_left h]

theorem node_newNode_old (m : Memory) (n : Queue) {p : Option Nat} {k : Queue}
    (h : m.node p = some k) : (m.newNode n).1.node p = some k := by
  obtain ⟨a, rfl, ha⟩ := node_lt h
  rw [node_newNode_of_lt m n ha, h]

theorem node_newNode_new (m : Memory) (n : Queue) :
    (m.newNode n).1.node (some m.nodes.length) = some n := by
  simp [Memory.node, Memory.newNode]

theorem record_newNode_old (m : Memory) (n : Queue) {p : Option Nat} {j : CPUJob}
    (h : m.record p = some j) : (m.newNode n).1.record p = some j := by
  obtain ⟨k, hk, hj⟩ := record_node h
  simp [Memory.record, node_newNode_old m n hk]
  exact hj

theorem setNext_eq {m : Memory} {a : Nat} {n : Queue} (h : m.node (some a) = some n)
    (v : Option Nat) :
    m.setNext (some a) v = some { m with nodes := m.nodes.set a (some { n with next := v }) } := by
  simp [Memory.setNext, h]

theorem node_set_self {m : Memory} {a : Nat} (ha : a < m.nodes.length) (c : Option Queue) :
    ({ m with nodes := m.nodes.set a c } : Memory).node (some a) = c := by
  simp [Memory.node, ha]

theorem node_set_ne {m : Memory} {a : Nat} (c : Option Queue) {p : Option Nat}
    (h : p ≠ some a) : ({ m with nodes := m.nodes.set a c } : Memory).node p = m.node p := by
  cases p with
  | none => rfl
  | some b =>
    have : a ≠ b := fun e => h (by rw [e])
    simp [Memory.node, List.getElem?_set_ne this]

/-! ## Chains -/

theorem Chain.congr {m m' : Memory} : ∀ {l : List (Option Nat)} {p : Option Nat},
    (∀ x ∈ l, m'.node x = m.node x) → Chain m p l → Chain m' p l
  | [], _, _, h => h
  | x :: l, p, hfr, ⟨hp, n, hn, hc⟩ =>
    ⟨hp, n, by rw [hfr x (List.mem_cons_self _ _)]; exact hn,
      Chain.congr (fun y hy => hfr y (List.mem_cons_of_mem _ hy)) hc⟩

theorem Chain.unique {m : Memory} : ∀ {l₁ l₂ : List (Option Nat)} {p : Option Nat},
    Chain m p l₁ → Chain m p l₂ → l₁ = l₂
  | [], [], _, _, _ => rfl
  | [], y :: l₂, p, h₁, ⟨h₂, n, hn, _⟩ => by
    simp only [Chain] at h₁
    subst h₁; subst h₂
    simp [node_none] at hn
  | x :: l₁, [], p, ⟨h₁, n, hn, _⟩, h₂ => by
    simp only [Chain] at h₂
    subst h₂; subst h₁
    simp [node_none] at hn
  | x :: l₁, y :: l₂, p, ⟨h₁, n₁, hn₁, hc₁⟩, ⟨h₂, n₂, hn₂, hc₂⟩ => by
    subst h₁; subst h₂
    rw [hn₁] at hn₂
    cases hn₂
    rw [Chain.unique hc₁ hc₂]

theorem Chain.suffix_of_mem {m : Memory} : ∀ {l : List (Option Nat)} {p : Option Nat}
    {x : Option Nat}, Chain m p l → x ∈ l → ∃ l₁ l₂, l = l₁ ++ x :: l₂ ∧ Chain m x (x :: l₂)
  | y :: l, p, x, ⟨hp, n, hn, hc⟩, hx => by
    rcases List.mem_cons.1 hx with rfl | hx
    · exact ⟨[], l, rfl, rfl, n, hn, hc⟩
    · obtain ⟨l₁, l₂, hl, h⟩ := Chain.suffix_of_mem hc hx
      exact ⟨y :: l₁, l₂, by rw [hl]; rfl, h⟩

theorem Chain.nodup {m : Memory} : ∀ {l : List (Option Nat)} {p : Option Nat},
    Chain m p l → l.Nodup
  | [], _, _ => List.nodup_nil
  | x :: l, p, h => by
    obtain ⟨hp, n, hn, hc⟩ := h
    refine List.nodup_cons.2 ⟨fun hx => ?_, Chain.nodup hc⟩
    obtain ⟨l₁, l₂, hl, h₂⟩ := Chain.suffix_of_mem hc hx
    have h₁ : Chain m x (x :: l) := ⟨rfl, n, hn, hc⟩
    have := Chain.unique h₁ h₂
    have hlen := congrArg List.length this
    rw [hl] at hlen
    simp at hlen
    omega

theorem Chain.mem_node {m : Memory} : ∀ {l : List (Option Nat)} {p : Option Nat},
    Chain m p l → ∀ x ∈ l, ∃ n, m.node x = some n
  | y :: l, p, ⟨_, n, hn, hc⟩, x, hx => by
    rcases List.mem_cons.1 hx with rfl | hx
    · exact ⟨n, hn⟩
    · exact Chain.mem_node hc x hx

theorem length_le_of_nodup_of_lt {l : List Nat} {n : Nat} (hd : l.Nodup)
    (hlt : ∀ a ∈ l, a < n) : l.length ≤ n := by
  have hsub : l ⊆ List.range n := fun a ha => List.mem_range.2 (hlt a ha)
  simpa using (hd.subperm hsub).length_le

theorem Chain.length_le {m : Memory} {l : List (Option Nat)} {p : Option Nat}
    (h : Chain m p l) : l.length ≤ m.nodes.length := by
  have hd := Chain.nodup h
  have hsome : ∀ x ∈ l, ∃ a, x = some a ∧ a < m.nodes.length := fun x hx => by
    obtain ⟨n, hn⟩ := Chain.mem_node h x hx
    exact node_lt hn
  have hl : l = (l.filterMap id).map some := by
    clear hd h
    induction l with
    | nil => rfl
    | cons x l ih =>
      obtain ⟨a, rfl, _⟩ := hsome x (List.mem_cons_self _ _)
      simp only [List.filterMap_cons, id, List.map_cons]
      rw [← ih (fun y hy => hsome y (List.mem_cons_of_mem _ hy))]
  have hd' : (l.filterMap id).Nodup := by
    rw [hl] at hd
    exact List.Nodup.of_map _ hd
  have := @length_le_of_nodup_of_lt _ m.nodes.length hd' (fun a ha => by
    have : some a ∈ l := by
      rw [hl]; exact List.mem_map_of_mem _ ha
    obtain ⟨b, hb, hlt⟩ := hsome _ this
    cases hb; exact hlt)
  rw [hl, List.length_map]; exact this

theorem Chain.head_ne_none {m : Memory} {p x : Option Nat} {l : List (Option Nat)}
    (h : Chain m p (x :: l)) : p ≠ none := by
  obtain ⟨hp, n, hn, _⟩ := h
  subst hp
  intro hnone
  rw [hnone, node_none] at hn
  cases hn

theorem findTail_chain {m : Memory} {t : Option Nat} : ∀ (l : List (Option Nat))
    (p : Option Nat) (fuel : Nat), Chain m p (l ++ [t]) → l.length < fuel →
    findTail m fuel p = some t
  | [], p, fuel + 1, ⟨hp, n, hn, hc⟩, _ => by
    subst hp
    simp only [Chain] at hc
    simp [findTail, hn, hc]
  | x :: l, p, fuel + 1, ⟨hp, n, hn, hc⟩, hlt => by
    subst hp
    have hne : n.next ≠ none := by
      cases l with
      | nil => exact Chain.head_ne_none hc
      | cons y l => exact Chain.head_ne_none hc
    simp only [findTail, hn, if_neg hne]
    exact findTail_chain l n.next fuel hc (by simpa using hlt)

theorem chain_snoc {m : Memory} {a : Nat} {nt nb : Queue} {b : Option Nat}
    (hnt : m.node (some a) = some nt) (hnb : m.node b = some nb) (hnext : nb.next = none)
    (hbt : b ≠ some a) :
    ∀ (l : List (Option Nat)) (p : Option Nat), Chain m p (l ++ [some a]) → some a ∉ l →
      Chain ({ m with nodes := m.nodes.set a (some { nt with next := b }) } : Memory) p
        (l ++ [some a, b])
  | [], p, ⟨hp, _, _, _⟩, _ => by
    obtain ⟨_, _, hlt⟩ := node_lt hnt
    refine ⟨hp, { nt with next := b }, ?_, rfl, nb, ?_, ?_⟩
    · cases ‹some a = some _›; exact node_set_self hlt _
    · rw [node_set_ne _ hbt]; exact hnb
    · simpa [Chain] using hnext
  | x :: l, p, ⟨hp, n, hn, hc⟩, hmem => by
    have hx : x ≠ some a := fun e => hmem (by rw [e]; exact List.mem_cons_self _ _)
    refine ⟨hp, n, ?_, chain_snoc hnt hnb hnext hbt l n.next hc
      (fun h => hmem (List.mem_cons_of_mem _ h))⟩
    rw [node_set_ne _ hx]; exact hn

/-- Linking a fresh node behind a well-formed list: the effect of lines 139-147. -/
theorem linkAtTail_chain {m : Memory} {front b : Option Nat} {L : List (Option Nat)}
    {nb : Queue} (hc : Chain m front L) (hnb : m.node b = some nb) (hnext : nb.next = none)
    (hb : b ∉ L) :
    ∃ m', linkAtTail m front b = some (m', if front = none then b else front) ∧
      Chain m' (if front = none then b else front) (L ++ [b]) ∧
      m'.jobs = m.jobs ∧ m'.nodes.length = m.nodes.length ∧
      (∀ p, (m'.node p).map Queue.JobPointer = (m.node p).map Queue.JobPointer) ∧
      (∀ p, p ∉ L → m'.node p = m.node p) := by
  rcases List.eq_nil_or_concat L with rfl | ⟨l, t, rfl⟩
  · simp only [Chain] at hc
    subst hc
    refine ⟨m, by simp [linkAtTail], ?_, rfl, rfl, fun _ => rfl, fun _ _ => rfl⟩
    simp only [if_true, List.nil_append]
    exact ⟨rfl, nb, hnb, by simpa [Chain] using hnext⟩
  · rw [List.concat_eq_append] at hc hb ⊢
    have hfront : front ≠ none := by
      cases l with
      | nil => exact Chain.head_ne_none hc
      | cons y l => exact Chain.head_ne_none hc
    have hlen := Chain.length_le hc
    have hft := findTail_chain l front m.nodes.length hc (by simpa using hlen)
    obtain ⟨nt, hnt⟩ := Chain.mem_node hc t (by simp)
    obtain ⟨a, rfl, hlt⟩ := node_lt hnt
    have hbt : b ≠ some a := fun e => hb (by rw [e]; simp)
    have hnd := Chain.nodup hc
    have hal : some a ∉ l := by
      intro h
      have := List.nodup_append.1 hnd
      exact this.2.2 h (by simp)
    refine ⟨{ m with nodes := m.nodes.set a (some { nt with next := b }) },
      ?_, ?_, rfl, by simp, ?_, ?_⟩
    · simp only [linkAtTail, if_neg hfront, hft, Option.bind_eq_bind, Option.some_bind,
        setNext_eq hnt]
      rfl
    · rw [if_neg hfront, List.append_assoc]
      exact chain_snoc hnt hnb hnext hbt l front hc hal
    · intro p
      by_cases hp : p = some a
      · subst hp
        rw [node_set_self hlt, hnt]; rfl
      · rw [node_set_ne _ hp]
    · intro p hp
      exact node_set_ne _ (fun e => hp (by rw [e]; simp))

theorem displayFrom_chain {m : Memory} : ∀ (l : List (Option Nat)) (p : Option Nat)
    (fuel : Nat), Chain m p l → (∀ x ∈ l, m.record x ≠ none) → l.length ≤ fuel →
    displayFrom m fuel p = some (m.records l)
  | [], p, fuel, hc, _, _ => by
    simp only [Chain] at hc
    subst hc
    cases fuel <;> rfl
  | x :: l, p, fuel + 1, ⟨hp, n, hn, hc⟩, hrec, hlen => by
    subst hp
    obtain ⟨a, rfl, _⟩ := node_lt hn
    have hx := hrec _ (List.mem_cons_self _ _)
    have hrx : m.record (some a) = m.job n.JobPointer := by simp [Memory.record, hn]
    rw [hrx] at hx
    obtain ⟨j, hj⟩ := Option.ne_none_iff_exists'.1 hx
    have hjp : n.JobPointer ≠ none := by
      intro h; rw [h] at hj; simp [Memory.job] at hj
    have ih := displayFrom_chain l n.next fuel hc
      (fun y hy => hrec y (List.mem_cons_of_mem _ hy)) (by simpa using hlen)
    simp only [displayFrom, hn, if_neg hjp, hj, ih, Memory.records]
    simp [hrx, hj]

/-! ## Array lemmas -/

theorem getElem?_at (pre : List (Option Nat)) (x : Option Nat) (tail : List (Option Nat)) :
    (pre ++ x :: tail)[pre.length]? = some x := by
  rw [List.getElem?_append_right (Nat.le_refl _)]
  simp

theorem getElem?_at_succ (pre : List (Option Nat)) (x y : Option Nat)
    (tail : List (Option Nat)) : (pre ++ x :: y :: tail)[pre.length + 1]? = some y := by
  have := getElem?_at (pre ++ [x]) y tail
  simpa using this

theorem set_at (pre : List (Option Nat)) (x v : Option Nat) (tail : List (Option Nat)) :
    (pre ++ x :: tail).set pre.length v = pre ++ v :: tail := by
  simp

theorem store_at (pre : List (Option Nat)) (x v : Option Nat) (tail : List (Option Nat)) :
    store (pre ++ x :: tail) pre.length v = some (pre ++ v :: tail) := by
  simp [store]

theorem store_at_succ (pre : List (Option Nat)) (x y v : Option Nat)
    (tail : List (Option Nat)) :
    store (pre ++ x :: y :: tail) (pre.length + 1) v = some (pre ++ x :: v :: tail) := by
  have := store_at (pre ++ [x]) y v tail
  simpa using this

theorem jobAt_at (m : Memory) (pre : List (Option Nat)) (x : Option Nat)
    (tail : List (Option Nat)) : jobAt m (pre ++ x :: tail) pre.length = m.record x := by
  simp only [jobAt, getElem?_at, Option.some_bind]

theorem jobAt_at_succ (m : Memory) (pre : List (Option Nat)) (x y : Option Nat)
    (tail : List (Option Nat)) :
    jobAt m (pre ++ x :: y :: tail) (pre.length + 1) = m.record y := by
  simp only [jobAt, getElem?_at_succ, Option.some_bind]

theorem swapAt_down (pre : List (Option Nat)) (x y : Option Nat) (tail : List (Option Nat)) :
    swapAt (pre ++ x :: y :: tail) (pre.length + 1) pre.length = some (pre ++ y :: x :: tail) := by
  simp only [swapAt, getElem?_at, getElem?_at_succ, Option.bind_eq_bind, Option.some_bind,
    store_at_succ, store_at]

theorem swapAt_up (pre : List (Option Nat)) (x y : Option Nat) (tail : List (Option Nat)) :
    swapAt (pre ++ x :: y :: tail) pre.length (pre.length + 1) = some (pre ++ y :: x :: tail) := by
  simp only [swapAt, getElem?_at, getElem?_at_succ, Option.bind_eq_bind, Option.some_bind,
    store_at_succ, store_at]

theorem writeAt_at (pre : List (Option Nat)) (x v : Option Nat) (tail : List (Option Nat)) :
    writeAt (pre ++ x :: tail) (pre.length : Int) v = some (pre ++ v :: tail) := by
  have h : ¬ ((pre.length : Int) < 0) := by omega
  simp only [writeAt, if_neg h, Int.toNat_ofNat, store_at]

/-! ## The loops of `enqueue` -/

/-- The duplicate check finds no duplicate when every entry has a record with another id. -/
theorem hasDuplicate_false {m : Memory} {newJob : Option Nat} {nj : CPUJob}
    (hnj : m.job newJob = some nj) :
    ∀ (A pre tail : List (Option Nat)),
      (∀ x ∈ A, ∃ j, m.record x = some j ∧ j.jobID ≠ nj.jobID) →
      hasDuplicate m (pre ++ A ++ tail) newJob pre.length A.length = some false
  | [], _, _, _ => rfl
  | x :: A, pre, tail, h => by
    obtain ⟨j, hj, hne⟩ := h x (List.mem_cons_self _ _)
    have ih := hasDuplicate_false hnj A (pre ++ [x]) tail
      (fun y hy => h y (List.mem_cons_of_mem _ hy))
    simp only [List.length_append, List.length_singleton, List.append_assoc,
      List.singleton_append, List.cons_append, List.nil_append] at ih
    simp only [hasDuplicate, List.length_cons, List.append_assoc, List.cons_append, jobAt_at,
      hj, hnj, Option.bind_eq_bind, Option.some_bind, if_neg hne, ih]

/-- The duplicate check reports a duplicate when every entry has a record and one of them
has the id of the new job. -/
theorem hasDuplicate_true {m : Memory} {newJob : Option Nat} {nj : CPUJob}
    (hnj : m.job newJob = some nj) :
    ∀ (A pre tail : List (Option Nat)),
      (∀ x ∈ A, m.record x ≠ none) →
      (∃ x ∈ A, ∃ j, m.record x = some j ∧ j.jobID = nj.jobID) →
      hasDuplicate m (pre ++ A ++ tail) newJob pre.length A.length = some true
  | [], _, _, _, ⟨x, hx, _⟩ => by cases hx
  | x :: A, pre, tail, h, hex => by
    obtain ⟨j, hj⟩ := Option.ne_none_iff_exists'.1 (h x (List.mem_cons_self _ _))
    by_cases hid : j.jobID = nj.jobID
    · simp only [hasDuplicate, List.length_cons, List.append_assoc, List.cons_append,
        jobAt_at, hj, hnj, Option.bind_eq_bind, Option.some_bind, if_pos hid]
    · have hex' : ∃ y ∈ A, ∃ j, m.record y = some j ∧ j.jobID = nj.jobID := by
        obtain ⟨y, hy, k, hk, hkid⟩ := hex
        rcases List.mem_cons.1 hy with rfl | hy
        · rw [hj] at hk; cases hk; exact absurd hkid hid
        · exact ⟨y, hy, k, hk, hkid⟩
      have ih := hasDuplicate_true hnj A (pre ++ [x]) tail
        (fun y hy => h y (List.mem_cons_of_mem _ hy)) hex'
      simp only [List.length_append, List.length_singleton, List.append_assoc,
        List.singleton_append, List.cons_append, List.nil_append] at ih
      simp only [hasDuplicate, List.length_cons, List.append_assoc, List.cons_append,
        jobAt_at, hj, hnj, Option.bind_eq_bind, Option.some_bind, if_neg hid, ih]

/-- A duplicate check that ends without a duplicate has read every entry. -/
theorem hasDuplicate_false_inv {m : Memory} {newJob : Option Nat} :
    ∀ (A pre tail : List (Option Nat)),
      hasDuplicate m (pre ++ A ++ tail) newJob pre.length A.length = some false →
      ∀ x ∈ A, ∃ j nj, m.record x = some j ∧ m.job newJob = some nj ∧ j.jobID ≠ nj.jobID
  | [], _, _, _ => fun x hx => by cases hx
  | x :: A, pre, tail, h => by
    simp only [hasDuplicate, List.length_cons, List.append_assoc, List.cons_append, jobAt_at,
      Option.bind_eq_bind] at h
    cases hj : m.record x with
    | none => simp [hj] at h
    | some j =>
      cases hnj : m.job newJob with
      | none => simp [hj, hnj] at h
      | some nj =>
        simp only [hj, hnj, Option.some_bind] at h
        by_cases hid : j.jobID = nj.jobID
        · simp [hid] at h
        · rw [if_neg hid] at h
          have ih := hasDuplicate_false_inv A (pre ++ [x]) tail (by
            simpa only [List.length_append, List.length_singleton, List.append_assoc,
              List.singleton_append, List.cons_append, List.nil_append] using h)
          intro y hy
          rcases List.mem_cons.1 hy with rfl | hy
          · exact ⟨j, nj, hj, rfl, hid⟩
          · obtain ⟨k, nk, hk, hnk, hne⟩ := ih y hy
            rw [hnj] at hnk
            exact ⟨k, nk, hk, hnk, hne⟩

/-- The insertion loop of `enqueue` moves the new entry `b` left past the entries with a
larger id. -/
theorem sortByID_spec {m : Memory} {b : Option Nat} {jb : CPUJob} (hb : m.record b = some jb) :
    ∀ (pre tail : List (Option Nat)), (∀ x ∈ pre, m.record x ≠ none) →
      ∃ pre₁ pre₂, pre = pre₁ ++ pre₂ ∧
        sortByID m pre.length (pre ++ b :: tail) = some (pre₁ ++ b :: (pre₂ ++ tail)) ∧
        (∀ x ∈ pre₂, ∀ j, m.record x = some j → jb.jobID < j.jobID) ∧
        (∀ x ∈ pre₁.getLast?, ∀ j, m.record x = some j → ¬ jb.jobID < j.jobID) := by
  intro pre
  induction pre using List.reverseRecOn with
  | nil =>
    intro tail _
    exact ⟨[], [], rfl, rfl, (fun x hx => by cases hx), (fun x hx => by cases hx)⟩
  | append_singleton pre x ih =>
    intro tail hrec
    obtain ⟨jx, hjx⟩ := Option.ne_none_iff_exists'.1 (hrec x (by simp))
    have e1 : jobAt m (pre ++ [x] ++ b :: tail) (pre.length + 1) = some jb := by
      have := jobAt_at_succ m pre x b tail
      simpa [hb] using this
    have e2 : jobAt m (pre ++ [x] ++ b :: tail) pre.length = some jx := by
      have := jobAt_at m pre x (b :: tail)
      simpa [hjx] using this
    by_cases hlt : jb.jobID < jx.jobID
    · obtain ⟨pre₁, pre₂, hpre, hs, h2, h1⟩ :=
        ih (x :: tail) (fun y hy => hrec y (by simp [hy]))
      refine ⟨pre₁, pre₂ ++ [x], by rw [hpre, List.append_assoc], ?_, ?_, h1⟩
      · have e3 : swapAt (pre ++ [x] ++ b :: tail) (pre.length + 1) pre.length =
            some (pre ++ b :: x :: tail) := by
          have := swapAt_down pre x b tail
          simpa using this
        simp only [List.length_append, List.length_singleton, sortByID, e1, e2,
          Option.bind_eq_bind, Option.some_bind, if_pos hlt, e3, hs]
        simp
      · intro y hy j hj
        rcases List.mem_append.1 hy with hy | hy
        · exact h2 y hy j hj
        · simp only [List.mem_singleton] at hy
          subst hy
          rw [hjx] at hj; cases hj; exact hlt
    · refine ⟨pre ++ [x], [], by simp, ?_, (fun y hy => by cases hy), ?_⟩
      · simp only [List.length_append, List.length_singleton, sortByID, e1, e2,
          Option.bind_eq_bind, Option.some_bind, if_neg hlt]
        simp
      · intro y hy j hj
        simp only [List.getLast?_append, List.getLast?_singleton, Option.or,
          Option.mem_def, Option.some.injEq] at hy
        subst hy
        rw [hjx] at hj; cases hj; exact hlt

theorem record_congr {m m' : Memory} {p : Option Nat} (hj : m'.jobs = m.jobs)
    (hn : (m'.node p).map Queue.JobPointer = (m.node p).map Queue.JobPointer) :
    m'.record p = m.record p := by
  unfold Memory.record
  have hjob : ∀ r, m'.job r = m.job r := fun r => by simp [Memory.job, hj]
  cases h : m.node p with
  | none =>
    rw [h] at hn
    cases h' : m'.node p with
    | none => rfl
    | some n' => rw [h'] at hn; cases hn
  | some n =>
    rw [h] at hn
    cases h' : m'.node p with
    | none => rw [h'] at hn; cases hn
    | some n' =>
      rw [h'] at hn
      simp only [Option.map_some', Option.some.injEq] at hn
      simp [hn, hjob]

/-- The copy loop of `resize`. -/
theorem forUp_copy (old : List (Option Nat)) :
    ∀ (seg pre tail pre' fill : List (Option Nat)), old = pre ++ seg ++ tail →
      pre'.length = pre.length → seg.length ≤ fill.length →
      forUp (fun i new => do
        let v ← old[i]?
        store new i v) pre.length seg.length (pre' ++ fill)
        = some (pre' ++ seg ++ fill.drop seg.length)
  | [], pre, tail, pre', fill, _, _, _ => by simp [forUp]
  | x :: seg, pre, tail, pre', [], _, _, h => by simp at h
  | x :: seg, pre, tail, pre', f :: fill, hold, hlen, h => by
    have ih := forUp_copy old seg (pre ++ [x]) tail (pre' ++ [x]) fill
      (by rw [hold]; simp) (by simp [hlen]) (by simpa using h)
    have e1 : old[pre.length]? = some x := by
      rw [hold, List.append_assoc, List.cons_append]; exact getElem?_at _ _ _
    have e2 : store (pre' ++ f :: fill) pre.length x = some (pre' ++ x :: fill) := by
      rw [← hlen]; exact store_at _ _ _ _
    simp only [List.length_append, List.length_singleton, List.append_assoc,
      List.singleton_append, List.cons_append, Option.bind_eq_bind] at ih
    simp only [forUp, List.length_cons, e1, Option.bind_eq_bind, Option.some_bind, e2,
      List.append_assoc, List.cons_append, List.drop_succ_cons]
    exact ih

theorem resize_spec {q : NovelQueue} {A tail : List (Option Nat)} {newCapacity : Int}
    (harr : q.NodePointers = A ++ tail) (hsize : q.size = A.length)
    (hcap : (A.length : Int) ≤ newCapacity) :
    resize q newCapacity = some { q with
      NodePointers := A ++ List.replicate (newCapacity.toNat - A.length) none,
      capacity := newCapacity } := by
  have hneg : ¬ newCapacity < 0 := by omega
  have hsz : q.size.toNat = A.length := by omega
  have := forUp_copy q.NodePointers A [] tail [] (List.replicate newCapacity.toNat none)
    (by simpa using harr) rfl (by simp; omega)
  simp only [List.length_nil, List.nil_append, List.drop_replicate,
    Option.bind_eq_bind] at this
  simp only [resize, if_neg hneg, hsz, Option.bind_eq_bind, this, Option.some_bind]
  rfl

/-- The loop of `listJobs`. -/
theorem forUp_listJobs (m : Memory) (tail : List (Option Nat)) :
    ∀ (seg pre : List (Option Nat)) (out : List CPUJob), (∀ x ∈ seg, m.record x ≠ none) →
      forUp (fun i out => do
        let j ← jobAt m (pre ++ seg ++ tail) i
        pure (out ++ [j])) pre.length seg.length out = some (out ++ m.records seg)
  | [], pre, out, _ => by simp [forUp, Memory.records]
  | x :: seg, pre, out, h => by
    obtain ⟨j, hj⟩ := Option.ne_none_iff_exists'.1 (h x (List.mem_cons_self _ _))
    have ih := forUp_listJobs m tail seg (pre ++ [x]) (out ++ [j])
      (fun y hy => h y (List.mem_cons_of_mem _ hy))
    simp only [List.length_append, List.length_singleton, List.append_assoc,
      List.singleton_append, List.cons_append, List.nil_append, Option.bind_eq_bind,
      Option.pure_def] at ih
    simp only [forUp, List.length_cons, List.append_assoc, List.cons_append, jobAt_at, hj,
      Option.bind_eq_bind, Option.some_bind, Option.pure_def]
    rw [ih]
    simp [Memory.records, hj]

theorem listJobs_spec {m : Memory} {q : NovelQueue} {A tail : List (Option Nat)}
    (harr : q.NodePointers = A ++ tail) (hsize : q.size = A.length)
    (hrec : ∀ x ∈ A, m.record x ≠ none) : listJobs m q = some (m.records A) := by
  have hsz : q.size.toNat = A.length := by omega
  have := forUp_listJobs m tail A [] [] hrec
  simp only [List.nil_append, List.length_nil] at this
  simp only [listJobs, hsz, harr]
  exact this

theorem display_spec {m : Memory} {q : NovelQueue} {L : List (Option Nat)}
    (hc : Chain m q.front L) (hrec : ∀ x ∈ L, m.record x ≠ none) :
    display m q = some (m.records L) :=
  displayFrom_chain L q.front m.nodes.length hc hrec (Chain.length_le hc)

/-- The effect of a call of `enqueue` that finds no duplicate: the new node
`some m.nodes.length` is linked behind the list `L` and is inserted in the array prefix `A`
left of the entries with a larger id. -/
theorem enqueue_spec {m : Memory} {q : NovelQueue} {newJob : Option Nat} {nj : CPUJob}
    {A tail L : List (Option Nat)}
    (hjob : m.job newJob = some nj)
    (harr : q.NodePointers = A ++ tail) (hsize : q.size = A.length)
    (hcap : q.capacity = q.NodePointers.length) (hpos : 1 ≤ q.capacity)
    (hrec : ∀ x ∈ A, ∃ j, m.record x = some j ∧ j.jobID ≠ nj.jobID)
    (hc : Chain m q.front L) :
    ∃ m' q' pre₁ pre₂ tail', enqueue m q newJob = some (m', q') ∧
      A = pre₁ ++ pre₂ ∧
      q'.NodePointers = pre₁ ++ some m.nodes.length :: pre₂ ++ tail' ∧
      q'.size = q.size + 1 ∧ q'.capacity = q'.NodePointers.length ∧
      Chain m' q'.front (L ++ [some m.nodes.length]) ∧
      m'.jobs = m.jobs ∧ m'.nodes.length = m.nodes.length + 1 ∧
      (∀ p, p ≠ some m.nodes.length →
        (m'.node p).map Queue.JobPointer = (m.node p).map Queue.JobPointer) ∧
      (∀ p, p ∉ L → p ≠ some m.nodes.length → m'.node p = m.node p) ∧
      m'.record (some m.nodes.length) = some nj ∧
      (∀ x ∈ pre₂, ∀ j, m.record x = some j → nj.jobID < j.jobID) ∧
      (∀ x ∈ pre₁.getLast?, ∀ j, m.record x = some j → ¬ nj.jobID < j.jobID) := by
  have hsz : q.size.toNat = A.length := by omega
  have hdup : hasDuplicate m q.NodePointers newJob 0 q.size.toNat = some false := by
    have := hasDuplicate_false hjob A [] tail hrec
    simpa [harr, hsz] using this
  -- the array after the optional growth
  obtain ⟨q₁, t, tail₁, hq₁, hfront₁, harr₁, hsize₁, hcap₁⟩ :
      ∃ q₁ t tail₁, (if q.size = q.capacity then resize q (q.capacity * 2) else pure q) = some q₁ ∧
        q₁.front = q.front ∧ q₁.NodePointers = A ++ t :: tail₁ ∧ q₁.size = q.size ∧
        q₁.capacity = q₁.NodePointers.length := by
    by_cases hfull : q.size = q.capacity
    · have hgrow := @resize_spec q A tail (q.capacity * 2) harr hsize (by omega)
      have hne : (q.capacity * 2).toNat - A.length = ((q.capacity * 2).toNat - A.length - 1) + 1 := by
        omega
      rw [hne, List.replicate_succ] at hgrow
      refine ⟨{ q with
          NodePointers := A ++ none :: List.replicate ((q.capacity * 2).toNat - A.length - 1) none,
          capacity := q.capacity * 2 }, none,
        List.replicate ((q.capacity * 2).toNat - A.length - 1) none,
        by rw [if_pos hfull]; exact hgrow, rfl, rfl, rfl, ?_⟩
      simp only [List.length_append, List.length_cons, List.length_replicate]
      have : ((q.capacity * 2).toNat : Int) = q.capacity * 2 := by omega
      push_cast
      omega
    · have hlen : (A.length : Int) < (A ++ tail).length := by
        rw [← harr, ← hcap, ← hsize]
        have : q.size ≤ q.capacity := by
          rw [hsize, hcap, harr]; simp
        omega
      cases tail with
      | nil => simp at hlen
      | cons t tail₁ => exact ⟨q, t, tail₁, by rw [if_neg hfull]; rfl, rfl, harr, rfl, hcap⟩
  -- the new node
  have hL : ∀ x ∈ L, x ≠ some m.nodes.length := fun x hx e => by
    obtain ⟨n, hn⟩ := Chain.mem_node hc x hx
    obtain ⟨a, ha, hlt⟩ := node_lt hn
    rw [e] at ha; cases ha; omega
  have hc₁ : Chain (m.newNode ⟨newJob, none, 0⟩).1 q.front L :=
    Chain.congr (fun x hx => by
      obtain ⟨n, hn⟩ := Chain.mem_node hc x hx
      rw [node_newNode_old m _ hn, hn]) hc
  obtain ⟨m₂, hlink, hc₂, hjobs₂, hlen₂, hjp₂, hfr₂⟩ :=
    linkAtTail_chain hc₁ (node_newNode_new m ⟨newJob, none, 0⟩) rfl
      (fun h => hL _ h rfl)
  have hjobs : m₂.jobs = m.jobs := hjobs₂
  have hnode_old : ∀ p, p ≠ some m.nodes.length →
      (m₂.node p).map Queue.JobPointer = (m.node p).map Queue.JobPointer := by
    intro p hp
    rw [hjp₂ p]
    cases p with
    | none => rfl
    | some a =>
      by_cases ha : a < m.nodes.length
      · rw [node_newNode_of_lt m _ ha]
      · have hgt : m.nodes.length < a := by
          have : a ≠ m.nodes.length := fun e => hp (by rw [e])
          omega
        have e1 : m.node (some a) = none := by
          simp [Memory.node, List.getElem?_eq_none (Nat.le_of_lt hgt)]
        have e2 : (m.newNode ⟨newJob, none, 0⟩).1.node (some a) = none := by
          simp [Memory.node, Memory.newNode]
          rw [List.getElem?_eq_none (by simp; omega)]
          simp
        rw [e1, e2]
  have hrec_old : ∀ p, p ≠ some m.nodes.length → m₂.record p = m.record p :=
    fun p hp => record_congr hjobs (hnode_old p hp)
  have hrec_new : m₂.record (some m.nodes.length) = some nj := by
    have := hjp₂ (some m.nodes.length)
    rw [node_newNode_new] at this
    unfold Memory.record
    cases h : m₂.node (some m.nodes.length) with
    | none => rw [h] at this; cases this
    | some n =>
      rw [h] at this
      simp only [Option.map_some', Option.some.injEq] at this
      simp only [Option.some_bind, this, Memory.job, hjobs]
      exact hjob
  have hA : ∀ x ∈ A, x ≠ some m.nodes.length := fun x hx e => by
    obtain ⟨j, hj, _⟩ := hrec x hx
    obtain ⟨n, hn, _⟩ := record_node hj
    obtain ⟨a, ha, hlt⟩ := node_lt hn
    rw [e] at ha; cases ha; omega
  obtain ⟨pre₁, pre₂, hpre, hsort, h2, h1⟩ := sortByID_spec hrec_new A tail₁
    (fun x hx => by
      obtain ⟨j, hj, _⟩ := hrec x hx
      rw [hrec_old x (hA x hx), hj]; simp)
  have hmem : ∀ x, x ∈ pre₁ ∨ x ∈ pre₂ → x ∈ A := fun x hx => by
    rw [hpre]; exact List.mem_append.2 hx
  refine ⟨m₂, ({ q₁ with
      front := (if q.front = none then some m.nodes.length else q.front)
      NodePointers := pre₁ ++ some m.nodes.length :: (pre₂ ++ tail₁)
      size := q₁.size + 1 } : NovelQueue),
    pre₁, pre₂, tail₁, ?_, hpre, by simp, by simp [hsize₁], ?_, hc₂, hjobs, ?_, hnode_old, ?_,
    hrec_new, ?_, ?_⟩
  · have hw : writeAt q₁.NodePointers q₁.size (some m.nodes.length) =
        some (A ++ some m.nodes.length :: tail₁) := by
      rw [harr₁, hsize₁, hsize]; exact writeAt_at _ _ _ _
    have hi : (q₁.size + 1 - 1).toNat = A.length := by omega
    simp only [Memory.newNode] at hlink
    by_cases hfull : q.size = q.capacity
    · rw [if_pos hfull] at hq₁
      simp only [enqueue, hdup, Option.bind_eq_bind, Option.some_bind, Memory.newNode,
        Bool.false_eq_true, if_false, if_pos hfull, hq₁, hfront₁, hlink, hw, hi, hsort]
      rfl
    · rw [if_neg hfull] at hq₁
      simp only [enqueue, hdup, Option.bind_eq_bind, Option.some_bind, Memory.newNode,
        Bool.false_eq_true, if_false, if_neg hfull, hq₁, hfront₁, hlink, hw, hi, hsort]
      rfl
  · simp only [List.length_append, List.length_cons] at hcap₁ ⊢
    rw [hcap₁, harr₁]
    simp only [List.length_append, List.length_cons]
    rw [hpre]
    simp only [List.length_append]
    push_cast
    omega
  · rw [hlen₂]; simp [Memory.newNode]
  · intro p hpL hp
    rw [hfr₂ p hpL]
    cases p with
    | none => rfl
    | some a =>
      by_cases ha : a < m.nodes.length
      · exact node_newNode_of_lt m _ ha
      · have hgt : m.nodes.length < a := by
          have : a ≠ m.nodes.length := fun e => hp (by rw [e])
          omega
        have e1 : m.node (some a) = none := by
          simp [Memory.node, List.getElem?_eq_none (Nat.le_of_lt hgt)]
        have e2 : (m.newNode ⟨newJob, none, 0⟩).1.node (some a) = none := by
          simp [Memory.node, Memory.newNode]
          rw [List.getElem?_eq_none (by simp; omega)]
          simp
        rw [e1, e2]
  · intro x hx j hj
    exact h2 x hx j (by rw [hrec_old x (hA x (hmem x (Or.inr hx)))]; exact hj)
  · intro x hx j hj
    have hxm : x ∈ pre₁ := List.mem_of_mem_getLast? hx
    exact h1 x hx j (by rw [hrec_old x (hA x (hmem x (Or.inl hxm)))]; exact hj)

theorem records_congr {m m' : Memory} {l : List (Option Nat)}
    (h : ∀ x ∈ l, m'.record x = m.record x) : m'.records l = m.records l := by
  induction l with
  | nil => rfl
  | cons x l ih =>
    have hx := h x (List.mem_cons_self _ _)
    have := ih (fun y hy => h y (List.mem_cons_of_mem _ hy))
    simp only [Memory.records] at this ⊢
    cases hr : m.record x with
    | none => rw [List.filterMap_cons_none (hx.trans hr), List.filterMap_cons_none hr, this]
    | some j => rw [List.filterMap_cons_some (hx.trans hr), List.filterMap_cons_some hr, this]

theorem records_append (m : Memory) (l₁ l₂ : List (Option Nat)) :
    m.records (l₁ ++ l₂) = m.records l₁ ++ m.records l₂ := by
  simp [Memory.records]

theorem records_singleton {m : Memory} {x : Option Nat} {j : CPUJob} (h : m.record x = some j) :
    m.records [x] = [j] := by
  simp [Memory.records, h]

theorem records_length {m : Memory} : ∀ {l : List (Option Nat)},
    (∀ y ∈ l, m.record y ≠ none) → (m.records l).length = l.length
  | [], _ => rfl
  | x :: l, h => by
    obtain ⟨j, hj⟩ := Option.ne_none_iff_exists'.1 (h x (List.mem_cons_self _ _))
    have ih := records_length (fun y hy => h y (List.mem_cons_of_mem _ hy))
    simp only [Memory.records] at ih ⊢
    rw [List.filterMap_cons_some hj]
    simp [ih]

theorem mem_records {m : Memory} {l : List (Option Nat)} {j : CPUJob} :
    j ∈ m.records l ↔ ∃ x ∈ l, m.record x = some j := by
  simp [Memory.records]

theorem mem_ids {m : Memory} {l : List (Option Nat)} {i : Int} :
    i ∈ m.ids l ↔ ∃ x ∈ l, ∃ j, m.record x = some j ∧ j.jobID = i := by
  simp only [Memory.ids, List.mem_map, mem_records]
  constructor
  · rintro ⟨j, ⟨x, hx, hj⟩, rfl⟩
    exact ⟨x, hx, j, hj, rfl⟩
  · rintro ⟨x, hx, j, hj, rfl⟩
    exact ⟨j, ⟨x, hx, hj⟩, rfl⟩

theorem record_lt {m : Memory} {x : Option Nat} (h : m.record x ≠ none) :
    x ≠ some m.nodes.length := by
  obtain ⟨j, hj⟩ := Option.ne_none_iff_exists'.1 h
  obtain ⟨n, hn, _⟩ := record_node hj
  obtain ⟨a, ha, hlt⟩ := node_lt hn
  intro e
  rw [e] at ha; cases ha; omega

/-- One `enqueue` of a job with a new id on a well-formed queue whose array is sorted by id. -/
theorem enqueue_represents {m : Memory} {q : NovelQueue} {newJob : Option Nat} {nj : CPUJob}
    {L A : List (Option Nat)} (hR : Represents m q L A)
    (hcap : q.capacity = q.NodePointers.length) (hpos : 1 ≤ q.capacity)
    (hjob : m.job newJob = some nj) (hnew : nj.jobID ∉ m.ids A)
    (hsorted : (m.ids A).Pairwise (· < ·)) :
    ∃ m' q' A', enqueue m q newJob = some (m', q') ∧
      Represents m' q' (L ++ [some m.nodes.length]) A' ∧
      q'.capacity = q'.NodePointers.length ∧ 1 ≤ q'.capacity ∧
      (m'.ids A').Pairwise (· < ·) ∧
      m'.records (L ++ [some m.nodes.length]) = m.records L ++ [nj] ∧
      (m'.records A').Perm (m.records A ++ [nj]) ∧
      m'.jobs = m.jobs ∧ m'.nodes.length = m.nodes.length + 1 ∧
      (∀ p, p ∉ L → p ≠ some m.nodes.length → m'.node p = m.node p) := by
  obtain ⟨tail, harr⟩ := hR.array
  have hrec : ∀ x ∈ A, ∃ j, m.record x = some j ∧ j.jobID ≠ nj.jobID := fun x hx => by
    obtain ⟨j, hj⟩ := Option.ne_none_iff_exists'.1 (hR.records x hx)
    exact ⟨j, hj, fun e => hnew (mem_ids.2 ⟨x, hx, j, hj, e⟩)⟩
  obtain ⟨m', q', pre₁, pre₂, tail', henq, hpre, harr', hsize', hcap', hc', hjobs, hlen, hjp,
    hfr, hnewrec, h2, h1⟩ := enqueue_spec hjob harr hR.size hcap hpos hrec hR.chain
  have hold : ∀ x, m.record x ≠ none → m'.record x = m.record x := fun x hx =>
    record_congr hjobs (hjp x (record_lt hx))
  have holdA : ∀ x ∈ A, m'.record x = m.record x := fun x hx => hold x (hR.records x hx)
  have hmem1 : ∀ x ∈ pre₁, x ∈ A := fun x hx => by rw [hpre]; exact List.mem_append_left _ hx
  have hmem2 : ∀ x ∈ pre₂, x ∈ A := fun x hx => by rw [hpre]; exact List.mem_append_right _ hx
  have hr1 : m'.records pre₁ = m.records pre₁ := records_congr fun x hx => holdA x (hmem1 x hx)
  have hr2 : m'.records pre₂ = m.records pre₂ := records_congr fun x hx => holdA x (hmem2 x hx)
  have hrecA' : m'.records (pre₁ ++ some m.nodes.length :: pre₂) =
      m.records pre₁ ++ nj :: m.records pre₂ := by
    rw [records_append, hr1]
    have : m'.records (some m.nodes.length :: pre₂) = nj :: m'.records pre₂ := by
      simp [Memory.records, hnewrec]
    rw [this, hr2]
  refine ⟨m', q', pre₁ ++ some m.nodes.length :: pre₂, henq, ⟨hc', ⟨tail', by
      rw [harr']⟩, ?_, ?_, ?_⟩, hcap', ?_, ?_, ?_, ?_, hjobs, hlen, hfr⟩
  · rw [hsize', hR.size, hpre]
    simp only [List.length_append, List.length_cons]
    push_cast
    omega
  · have h₁ : (pre₁ ++ some m.nodes.length :: pre₂).Perm (A ++ [some m.nodes.length]) := by
      rw [hpre]
      refine List.perm_middle.trans ?_
      exact (List.perm_append_singleton _ _).symm
    exact h₁.trans (List.Perm.append_right _ hR.perm)
  · intro x hx
    rcases List.mem_append.1 hx with hx | hx
    · rw [holdA x (hmem1 x hx)]; exact hR.records x (hmem1 x hx)
    · rcases List.mem_cons.1 hx with rfl | hx
      · rw [hnewrec]; simp
      · rw [holdA x (hmem2 x hx)]; exact hR.records x (hmem2 x hx)
  · rw [hcap', harr']
    have : (1 : Int) ≤ ((pre₁ ++ some m.nodes.length :: pre₂ ++ tail').length : Int) := by
      simp only [List.length_append, List.length_cons]; push_cast; omega
    exact this
  · -- sortedness
    have hs : (m.ids pre₁ ++ m.ids pre₂).Pairwise (· < ·) := by
      have := hsorted
      rw [hpre] at this
      simpa [Memory.ids, records_append] using this
    obtain ⟨hs1, hs2, hs12⟩ := List.pairwise_append.1 hs
    have hlt2 : ∀ i ∈ m.ids pre₂, nj.jobID < i := fun i hi => by
      obtain ⟨x, hx, j, hj, rfl⟩ := mem_ids.1 hi
      exact h2 x hx j hj
    have hlt1 : ∀ i ∈ m.ids pre₁, i < nj.jobID := by
      intro i hi
      rcases List.eq_nil_or_concat pre₁ with hnil | ⟨pre₀, z, hz⟩
      · rw [hnil] at hi; simp [Memory.ids, Memory.records] at hi
      · rw [List.concat_eq_append] at hz
        obtain ⟨jz, hjz⟩ := Option.ne_none_iff_exists'.1 (hR.records z (hmem1 z (by rw [hz]; simp)))
        have hz1 : ¬ nj.jobID < jz.jobID := h1 z (by rw [hz]; simp) jz hjz
        have hz2 : jz.jobID ≠ nj.jobID := fun e =>
          hnew (mem_ids.2 ⟨z, hmem1 z (by rw [hz]; simp), jz, hjz, e⟩)
        have hzlt : jz.jobID < nj.jobID := by omega
        have hids : m.ids pre₁ = m.ids pre₀ ++ [jz.jobID] := by
          rw [hz]; simp [Memory.ids, records_append, records_singleton hjz]
        rw [hids] at hi hs1
        rcases List.mem_append.1 hi with hi | hi
        · have := (List.pairwise_append.1 hs1).2.2 i hi jz.jobID (by simp)
          omega
        · simp only [List.mem_singleton] at hi
          rw [hi]; exact hzlt
    have : m'.ids (pre₁ ++ some m.nodes.length :: pre₂) =
        m.ids pre₁ ++ nj.jobID :: m.ids pre₂ := by
      simp [Memory.ids, hrecA']
    rw [this]
    refine List.pairwise_append.2 ⟨hs1, List.pairwise_cons.2 ⟨hlt2, hs2⟩, ?_⟩
    intro a ha b hb
    rcases List.mem_cons.1 hb with rfl | hb
    · exact hlt1 a ha
    · exact hs12 a ha b hb
  · rw [records_append, records_singleton hnewrec]
    congr 1
    exact records_congr fun x hx => hold x (by
      have : x ∈ A := hR.perm.symm.subset hx
      exact hR.records x this)
  · rw [hrecA', hpre, records_append]
    refine List.perm_middle.trans ?_
    exact (List.perm_append_singleton _ _).symm

theorem job_congr {m m' : Memory} (h : m'.jobs = m.jobs) (p : Option Nat) :
    m'.job p = m.job p := by
  simp [Memory.job, h]

theorem ids_perm {m m' : Memory} {A A' : List (Option Nat)} {js : List CPUJob}
    (h : (m'.records A').Perm (m.records A ++ js)) (i : Int) :
    i ∈ m'.ids A' ↔ i ∈ m.ids A ∨ i ∈ js.map CPUJob.jobID := by
  have := @List.Perm.mem_iff _ i _ _ (h.map CPUJob.jobID)
  simpa [Memory.ids] using this

/-- A sequence of `enqueue` calls with new, pairwise distinct ids on a well-formed queue
whose array is sorted by id. -/
theorem enqueueAll_spec : ∀ (ps : List (Option Nat)) (js : List CPUJob) (m : Memory)
    (q : NovelQueue) (L A : List (Option Nat)), Represents m q L A →
    q.capacity = q.NodePointers.length → 1 ≤ q.capacity → (m.ids A).Pairwise (· < ·) →
    List.Forall₂ (fun p j => m.job p = some j) ps js → (js.map CPUJob.jobID).Nodup →
    (∀ j ∈ js, j.jobID ∉ m.ids A) →
    ∃ m' q' A' N, enqueueAll m q ps = some (m', q') ∧ Represents m' q' (L ++ N) A' ∧
      q'.capacity = q'.NodePointers.length ∧ 1 ≤ q'.capacity ∧
      (m'.ids A').Pairwise (· < ·) ∧
      m'.records (L ++ N) = m.records L ++ js ∧
      (m'.records A').Perm (m.records A ++ js) ∧
      m'.jobs = m.jobs ∧ m.nodes.length ≤ m'.nodes.length ∧
      (∀ p, p ∉ L → (∀ a, p = some a → a < m.nodes.length) → m'.node p = m.node p)
  | [], js, m, q, L, A, hR, hcap, hpos, hs, hf, _, _ => by
    cases hf
    exact ⟨m, q, A, [], rfl, by simpa using hR, hcap, hpos, hs, by simp, by simp, rfl,
      Nat.le_refl _, fun _ _ _ => rfl⟩
  | p :: ps, js, m, q, L, A, hR, hcap, hpos, hs, hf, hnd, hnew => by
    cases hf with
    | cons hp hrest =>
      rename_i j js
      simp only [List.map_cons, List.nodup_cons] at hnd
      obtain ⟨m₁, q₁, A₁, henq, hR₁, hcap₁, hpos₁, hs₁, hrecL₁, hperm₁, hjobs₁, hlen₁, hfr₁⟩ :=
        enqueue_represents hR hcap hpos hp (hnew j (List.mem_cons_self _ _)) hs
      have hnew₁ : ∀ k ∈ js, k.jobID ∉ m₁.ids A₁ := by
        intro k hk hmem
        rcases (ids_perm hperm₁ k.jobID).1 hmem with h | h
        · exact hnew k (List.mem_cons_of_mem _ hk) h
        · simp only [List.map_cons, List.map_nil, List.mem_singleton] at h
          exact hnd.1 (by rw [← h]; exact List.mem_map_of_mem _ hk)
      obtain ⟨m', q', A', N, hall, hR', hcap', hpos', hs', hrecL', hperm', hjobs', hlen', hfr'⟩ :=
        enqueueAll_spec ps js m₁ q₁ (L ++ [some m.nodes.length]) A₁ hR₁ hcap₁ hpos₁ hs₁
          (hrest.imp fun {a b} h => by rw [job_congr hjobs₁]; exact h) hnd.2 hnew₁
      refine ⟨m', q', A', some m.nodes.length :: N, ?_, ?_, hcap', hpos', hs', ?_, ?_, ?_, ?_, ?_⟩
      · simp only [enqueueAll, henq, Option.some_bind, hall]
      · simpa using hR'
      · have : L ++ some m.nodes.length :: N = L ++ [some m.nodes.length] ++ N := by simp
        rw [this, hrecL', hrecL₁]; simp
      · refine hperm'.trans ?_
        have := List.Perm.append_right js hperm₁
        simpa using this
      · rw [hjobs', hjobs₁]
      · omega
      · intro x hx hlt
        have h1 : x ≠ some m.nodes.length := fun e => by
          have := hlt _ e; omega
        rw [hfr' x (by
          intro h
          rcases List.mem_append.1 h with h | h
          · exact hx h
          · simp only [List.mem_singleton] at h; exact h1 h)
          (fun a ha => by have := hlt a ha; omega)]
        exact hfr₁ x hx h1

theorem represents_new (m : Memory) : Represents m NovelQueue.new [] [] :=
  ⟨rfl, ⟨List.replicate 10 none, rfl⟩, rfl, List.Perm.refl _, fun _ h => by cases h⟩

/-- Claim C1. For every sequence of `enqueue` calls with pairwise distinct job ids on a new
empty queue, after each call (that is, after the first `k` calls, for every `k`) the array
entries `NodePointers[0..size-1]`, which are what `listJobs` prints, are strictly ascending
by `jobID` and are exactly the records enqueued so far. -/
theorem enqueue_keeps_array_sorted (m₀ : Memory) (ps : List (Option Nat)) (js : List CPUJob)
    (hjobs : List.Forall₂ (fun p j => m₀.job p = some j) ps js)
    (hids : (js.map CPUJob.jobID).Nodup) (k : Nat) :
    ∃ m q out, enqueueAll m₀ NovelQueue.new (ps.take k) = some (m, q) ∧
      listJobs m q = some out ∧
      out.Pairwise (fun a b => a.jobID < b.jobID) ∧ out.Perm (js.take k) ∧
      count q = (js.take k).length := by
  have hnd : ((js.take k).map CPUJob.jobID).Nodup :=
    hids.sublist ((List.take_sublist k js).map _)
  obtain ⟨m, q, A, N, hall, hR, _, _, hs, _, hperm, _, _, _⟩ :=
    enqueueAll_spec (ps.take k) (js.take k) m₀ NovelQueue.new [] [] (represents_new m₀) rfl
      (by decide) List.Pairwise.nil (List.forall₂_take k hjobs) hnd
      (fun _ _ h => by simp [Memory.ids, Memory.records] at h)
  obtain ⟨tail, harr⟩ := hR.array
  refine ⟨m, q, m.records A, hall, listJobs_spec harr hR.size hR.records, ?_, ?_, ?_⟩
  · simpa [Memory.ids, List.pairwise_map] using hs
  · simpa [Memory.records] using hperm
  · have h1 : (m.records A).length = (js.take k).length := by
      have := hperm.length_eq
      simpa [Memory.records] using this
    have h2 : (m.records A).length = A.length := records_length hR.records
    rw [count, hR.size, ← h2, h1]

/-- The theorem `enqueue_keeps_array_sorted` at the jobs with ids 5, 3, 8, after two calls. -/
theorem enqueue_keeps_array_sorted_witness :
    ∃ m q out, enqueueAll
        { jobs := [⟨5, 1, 1, 0, 0⟩, ⟨3, 2, 1, 0, 0⟩, ⟨8, 3, 1, 0, 0⟩], nodes := [] }
        NovelQueue.new ([some 0, some 1, some 2].take 2) = some (m, q) ∧
      listJobs m q = some out ∧
      out.Pairwise (fun a b => a.jobID < b.jobID) ∧
      out.Perm ([(⟨5, 1, 1, 0, 0⟩ : CPUJob), ⟨3, 2, 1, 0, 0⟩, ⟨8, 3, 1, 0, 0⟩].take 2) ∧
      count q = ([(⟨5, 1, 1, 0, 0⟩ : CPUJob), ⟨3, 2, 1, 0, 0⟩, ⟨8, 3, 1, 0, 0⟩].take 2).length :=
  enqueue_keeps_array_sorted
    { jobs := [⟨5, 1, 1, 0, 0⟩, ⟨3, 2, 1, 0, 0⟩, ⟨8, 3, 1, 0, 0⟩], nodes := [] }
    [some 0, some 1, some 2] [⟨5, 1, 1, 0, 0⟩, ⟨3, 2, 1, 0, 0⟩, ⟨8, 3, 1, 0, 0⟩]
    (List.Forall₂.cons rfl (List.Forall₂.cons rfl (List.Forall₂.cons rfl List.Forall₂.nil)))
    (by decide) 2

/-! ## `dequeue` -/

theorem deleteNode_eq {m : Memory} {a : Nat} {n : Queue} (h : m.node (some a) = some n) :
    m.deleteNode (some a) = some { m with nodes := m.nodes.set a none } := by
  simp [Memory.deleteNode, h]

/-- The shift loop of `dequeue` (lines 168-170). -/
theorem forUp_shiftLeft (tail : List (Option Nat)) :
    ∀ (seg pre : List (Option Nat)) (x : Option Nat),
      ∃ z, forUp (fun i arr => do
        let v ← arr[i + 1]?
        store arr i v) pre.length seg.length (pre ++ x :: seg ++ tail)
        = some (pre ++ seg ++ z :: tail)
  | [], pre, x => ⟨x, by simp [forUp]⟩
  | y :: seg, pre, x => by
    obtain ⟨z, ih⟩ := forUp_shiftLeft tail seg (pre ++ [y]) y
    refine ⟨z, ?_⟩
    have e1 : (pre ++ x :: y :: (seg ++ tail))[pre.length + 1]? = some y :=
      getElem?_at_succ pre x y (seg ++ tail)
    have e2 : store (pre ++ x :: y :: (seg ++ tail)) pre.length y
        = some (pre ++ y :: y :: (seg ++ tail)) := store_at _ _ _ _
    simp only [List.length_append, List.length_singleton, List.append_assoc,
      List.singleton_append, List.cons_append, Option.bind_eq_bind, List.nil_append] at ih ⊢
    simp only [forUp, List.length_cons, e1, Option.some_bind, e2]
    exact ih

/-- The effect of `dequeue` on a queue with a non-empty list and a non-empty array. -/
theorem dequeue_spec {m : Memory} {q : NovelQueue} {a x : Option Nat}
    {L A tail : List (Option Nat)} (hc : Chain m q.front (a :: L))
    (harr : q.NodePointers = x :: A ++ tail) (hsize : q.size = A.length + 1) :
    ∃ n m' q' tail', m.node a = some n ∧ dequeue m q = some (m', q', n.JobPointer) ∧
      q'.front = n.next ∧ Chain m' q'.front L ∧ q'.NodePointers = A ++ tail' ∧
      q'.size = A.length ∧ m'.jobs = m.jobs ∧ m'.nodes.length = m.nodes.length ∧
      m'.node a = none ∧ (∀ p, p ≠ a → m'.node p = m.node p) ∧
      (q.capacity = q.NodePointers.length → 1 ≤ q.capacity →
        q'.capacity = q'.NodePointers.length ∧ 1 ≤ q'.capacity) := by
  have hnd := Chain.nodup hc
  obtain ⟨hfront, n, hn, hcL⟩ := hc
  obtain ⟨b, rfl, hlt⟩ := node_lt hn
  have hfne : q.front ≠ none := by rw [hfront]; simp
  have hnotin : some b ∉ L := (List.nodup_cons.1 hnd).1
  have hfr : ∀ p, p ≠ some b →
      ({ m with nodes := m.nodes.set b none } : Memory).node p = m.node p :=
    fun p hp => node_set_ne _ hp
  have hcL' : Chain ({ m with nodes := m.nodes.set b none } : Memory) n.next L :=
    Chain.congr (fun y hy => hfr y (fun e => hnotin (by rw [← e]; exact hy))) hcL
  obtain ⟨z, hshift⟩ := forUp_shiftLeft tail A [] x
  simp only [List.length_nil, List.nil_append, Option.bind_eq_bind] at hshift
  have hi : (q.size - 1).toNat = A.length := by omega
  by_cases hshrink : (A.length : Int) > 0 ∧ (A.length : Int) ≤ Int.tdiv q.capacity 2
  · have hres := @resize_spec
      { q with front := n.next, NodePointers := A ++ z :: tail, size := q.size - 1 }
      A (z :: tail) (Int.tdiv q.capacity 2) rfl (by simp only []; omega) hshrink.2
    refine ⟨n, { m with nodes := m.nodes.set b none },
      { q with front := n.next,
               NodePointers := A ++ List.replicate ((Int.tdiv q.capacity 2).toNat - A.length) none,
               size := q.size - 1, capacity := Int.tdiv q.capacity 2 },
      _, hn, ?_, rfl, hcL', rfl, by simp only []; omega, rfl, by simp,
      node_set_self hlt _, hfr, ?_⟩
    · have hcond : q.size - 1 > 0 ∧ q.size - 1 ≤ Int.tdiv q.capacity 2 := by
        constructor <;> omega
      simp only [dequeue, if_neg hfne, hfront, hn, deleteNode_eq hn, Option.bind_eq_bind,
        Option.some_bind, hi, harr, hshift, hcond, and_self, if_true]
      simp only [harr] at hres
      rw [hres]
      rfl
    · intro _ _
      simp only [List.length_append, List.length_replicate]
      constructor
      · have : (0 : Int) ≤ Int.tdiv q.capacity 2 := by omega
        omega
      · omega
  · refine ⟨n, { m with nodes := m.nodes.set b none },
      { q with front := n.next, NodePointers := A ++ z :: tail, size := q.size - 1 },
      _, hn, ?_, rfl, hcL', rfl, by simp only []; omega, rfl, by simp,
      node_set_self hlt _, hfr, ?_⟩
    · have hcond : ¬ (q.size - 1 > 0 ∧ q.size - 1 ≤ Int.tdiv q.capacity 2) := by
        intro h; apply hshrink; constructor <;> omega
      simp only [dequeue, if_neg hfne, hfront, hn, deleteNode_eq hn, Option.bind_eq_bind,
        Option.some_bind, hi, harr, hshift, if_neg hcond]
      rfl
    · intro hcap hpos
      refine ⟨?_, hpos⟩
      simp only [hcap, harr, List.length_append, List.length_cons]
      push_cast
      omega

/-- The call `dequeue` on an empty list changes nothing and returns the null pointer. -/
theorem dequeue_empty (m : Memory) (q : NovelQueue) (h : q.front = none) :
    dequeue m q = some (m, q, none) := by
  simp [dequeue, h]

/-! ## The invariant of `enqueue` and `dequeue` -/

theorem queueInv_new (m : Memory) : QueueInv m NovelQueue.new [] [] where
  chain := rfl
  array := ⟨List.replicate 10 none, rfl⟩
  size := rfl
  length := rfl
  nodup := List.nodup_nil
  own := fun _ h => by cases h
  bound := fun _ h => by cases h
  records := fun _ h => by cases h
  ids := List.nodup_nil
  capacity := rfl
  positive := by decide

/-- A duplicate check that reports a duplicate has met an entry with the id of the new
job. -/
theorem hasDuplicate_true_inv {m : Memory} {newJob : Option Nat} :
    ∀ (A pre tail : List (Option Nat)),
      hasDuplicate m (pre ++ A ++ tail) newJob pre.length A.length = some true →
      ∃ x ∈ A, ∃ j nj, m.record x = some j ∧ m.job newJob = some nj ∧ j.jobID = nj.jobID
  | [], _, _, h => by simp [hasDuplicate] at h
  | x :: A, pre, tail, h => by
    simp only [hasDuplicate, List.length_cons, List.append_assoc, List.cons_append, jobAt_at,
      Option.bind_eq_bind] at h
    cases hj : m.record x with
    | none => simp [hj] at h
    | some j =>
      cases hnj : m.job newJob with
      | none => simp [hj, hnj] at h
      | some nj =>
        simp only [hj, hnj, Option.some_bind] at h
        by_cases hid : j.jobID = nj.jobID
        · exact ⟨x, List.mem_cons_self _ _, j, nj, hj, rfl, hid⟩
        · rw [if_neg hid] at h
          obtain ⟨y, hy, k, nk, hk, hnk, hkid⟩ := hasDuplicate_true_inv A (pre ++ [x]) tail (by
            simpa only [List.length_append, List.length_singleton, List.append_assoc,
              List.singleton_append, List.cons_append, List.nil_append] using h)
          rw [hnj] at hnk
          exact ⟨y, List.mem_cons_of_mem _ hy, k, nk, hk, hnk, hkid⟩

/-- A call of `enqueue` on a queue with the invariant either reports a duplicate and
changes nothing, or links the new node behind the list; the invariant is kept. -/
theorem QueueInv.enqueue {m m' : Memory} {q q' : NovelQueue} {L A : List (Option Nat)}
    {newJob : Option Nat} {nj : CPUJob} (h : QueueInv m q L A) (hjob : m.job newJob = some nj)
    (he : enqueue m q newJob = some (m', q')) :
    (m' = m ∧ q' = q ∧ nj.jobID ∈ m.ids L) ∨
      (∃ A', QueueInv m' q' (L ++ [some m.nodes.length]) A' ∧
        m'.records (L ++ [some m.nodes.length]) = m.records L ++ [nj] ∧
        q'.size = q.size + 1 ∧ m'.jobs = m.jobs ∧ nj.jobID ∉ m.ids L) := by
  obtain ⟨tail, harr⟩ := h.array
  have hsz : q.size.toNat = A.length := by have := h.size; omega
  cases hd : hasDuplicate m q.NodePointers newJob 0 q.size.toNat with
  | none => simp [JobScheduler.enqueue, hd] at he
  | some b =>
    cases b with
    | true =>
      left
      simp only [JobScheduler.enqueue, hd, Option.bind_eq_bind, Option.some_bind, if_true,
        Option.pure_def, Option.some.injEq, Prod.mk.injEq] at he
      refine ⟨he.1.symm, he.2.symm, ?_⟩
      obtain ⟨x, hx, j, nj', hj, hnj', hid⟩ := hasDuplicate_true_inv A [] tail (by
        simpa [harr, hsz] using hd)
      rw [hjob] at hnj'; cases hnj'
      obtain ⟨n, hn, _⟩ := record_node hj
      rcases h.own x hx with hL | hdel
      · exact mem_ids.2 ⟨x, hL, j, hj, hid⟩
      · rw [hdel] at hn; cases hn
    | false =>
      right
      have hinv := hasDuplicate_false_inv A [] tail (by
        simpa [harr, hsz] using hd)
      have hrec : ∀ x ∈ A, ∃ j, m.record x = some j ∧ j.jobID ≠ nj.jobID := fun x hx => by
        obtain ⟨j, nj', hj, hnj', hne⟩ := hinv x hx
        rw [hjob] at hnj'; cases hnj'
        exact ⟨j, hj, hne⟩
      -- every entry has been read, so the array holds exactly the nodes of the list
      have hsub : A ⊆ L := fun x hx => by
        rcases h.own x hx with hL | hdel
        · exact hL
        · obtain ⟨j, hj, _⟩ := hrec x hx
          obtain ⟨n, hn, _⟩ := record_node hj
          rw [hdel] at hn; cases hn
      have hperm : A.Perm L :=
        (h.nodup.subperm hsub).perm_of_length_le (by rw [h.length])
      have hnew : nj.jobID ∉ m.ids L := fun hmem => by
        obtain ⟨x, hx, j, hj, hid⟩ := mem_ids.1 hmem
        obtain ⟨j', hj', hne⟩ := hrec x (hperm.symm.subset hx)
        rw [hj] at hj'; cases hj'
        exact hne hid
      obtain ⟨m₂, q₂, pre₁, pre₂, tail', henq, hpre, harr', hsize', hcap', hc', hjobs, hlen,
        hjp, hfr, hnewrec, _, _⟩ :=
        enqueue_spec hjob harr h.size h.capacity h.positive hrec h.chain
      rw [henq] at he
      simp only [Option.some.injEq, Prod.mk.injEq] at he
      obtain ⟨rfl, rfl⟩ := he
      have hold : ∀ x, m.record x ≠ none → m₂.record x = m.record x := fun x hx =>
        record_congr hjobs (hjp x (record_lt hx))
      have hfreshA : some m.nodes.length ∉ A := fun hmem => by
        have := (h.bound _ hmem).2 _ rfl
        omega
      have hrecL : m₂.records (L ++ [some m.nodes.length]) = m.records L ++ [nj] := by
        rw [records_append, records_singleton hnewrec]
        congr 1
        exact records_congr fun x hx => hold x (h.records x hx)
      refine ⟨pre₁ ++ some m.nodes.length :: pre₂, ⟨hc', ⟨tail', by rw [harr']⟩, ?_, ?_, ?_, ?_,
        ?_, ?_, ?_, hcap', ?_⟩, hrecL, hsize', hjobs, hnew⟩
      · rw [hsize', h.size, hpre]
        simp only [List.length_append, List.length_cons]
        push_cast
        omega
      · have := h.length
        rw [hpre] at this
        simp only [List.length_append, List.length_cons, List.length_nil] at this ⊢
        omega
      · have : (pre₁ ++ some m.nodes.length :: pre₂).Perm (some m.nodes.length :: A) := by
          rw [hpre]; exact List.perm_middle
        exact (this.nodup_iff).2 (List.nodup_cons.2 ⟨hfreshA, h.nodup⟩)
      · intro x hx
        left
        have : x ∈ some m.nodes.length :: A := by
          rw [hpre]
          exact (@List.perm_middle _ (some m.nodes.length) pre₁ pre₂).subset hx
        rcases List.mem_cons.1 this with rfl | hxA
        · simp
        · exact List.mem_append_left _ (hsub hxA)
      · intro x hx
        have : x ∈ some m.nodes.length :: A := by
          rw [hpre]
          exact (@List.perm_middle _ (some m.nodes.length) pre₁ pre₂).subset hx
        rcases List.mem_cons.1 this with rfl | hxA
        · exact ⟨by simp, fun a ha => by cases ha; omega⟩
        · exact ⟨(h.bound x hxA).1, fun a ha => by
            have := (h.bound x hxA).2 a ha; omega⟩
      · intro x hx
        rcases List.mem_append.1 hx with hx | hx
        · rw [hold x (h.records x hx)]; exact h.records x hx
        · simp only [List.mem_singleton] at hx
          rw [hx, hnewrec]; simp
      · have : m₂.ids (L ++ [some m.nodes.length]) = m.ids L ++ [nj.jobID] := by
          simp [Memory.ids, hrecL]
        rw [this]
        refine List.nodup_append.2 ⟨h.ids, List.nodup_singleton _, ?_⟩
        intro a ha hb
        simp only [List.mem_singleton] at hb
        exact hnew (hb ▸ ha)
      · rw [hcap', harr']
        have : (1 : Int) ≤ ((pre₁ ++ some m.nodes.length :: pre₂ ++ tail').length : Int) := by
          simp only [List.length_append, List.length_cons]; push_cast; omega
        exact this

/-- A call of `dequeue` on a queue with the invariant and a non-empty list returns the job
pointer of the first node and unlinks that node; the invariant is kept. -/
theorem QueueInv.dequeue {m : Memory} {q : NovelQueue} {a : Option Nat}
    {L A : List (Option Nat)} (h : QueueInv m q (a :: L) A) :
    ∃ m' q' r A', dequeue m q = some (m', q', r) ∧ QueueInv m' q' L A' ∧
      m.job r = m.record a ∧ m'.records L = m.records L ∧ q'.size = q.size - 1 ∧
      m'.jobs = m.jobs := by
  obtain ⟨tail, harr⟩ := h.array
  have hlen := h.length
  cases A with
  | nil => simp at hlen
  | cons x A =>
    obtain ⟨n, m', q', tail', hn, hdq, hfront', hc', harr', hsize', hjobs, hlen', hdel, hfr,
      hcap⟩ := dequeue_spec h.chain harr (by simpa using h.size)
    have hnd := Chain.nodup h.chain
    have hnotin : a ∉ L := (List.nodup_cons.1 hnd).1
    have hrecL : ∀ y ∈ L, m'.record y = m.record y := fun y hy =>
      record_congr hjobs (by rw [hfr y (fun e => hnotin (e ▸ hy))])
    obtain ⟨hcap', hpos'⟩ := hcap h.capacity h.positive
    refine ⟨m', q', n.JobPointer, A, hdq, ⟨hc', ⟨tail', harr'⟩, hsize', ?_, ?_, ?_, ?_, ?_, ?_,
      hcap', hpos'⟩, ?_, records_congr hrecL, ?_, hjobs⟩
    · simpa using hlen
    · exact (List.nodup_cons.1 h.nodup).2
    · intro y hy
      rcases h.own y (List.mem_cons_of_mem _ hy) with hL | hnone
      · rcases List.mem_cons.1 hL with rfl | hL
        · exact Or.inr hdel
        · exact Or.inl hL
      · right
        by_cases hya : y = a
        · rw [hya]; exact hdel
        · rw [hfr y hya]; exact hnone
    · intro y hy
      have := h.bound y (List.mem_cons_of_mem _ hy)
      exact ⟨this.1, fun b hb => by rw [hlen']; exact this.2 b hb⟩
    · intro y hy
      rw [hrecL y hy]
      exact h.records y (List.mem_cons_of_mem _ hy)
    · have hsub : (m.ids L).Sublist (m.ids (a :: L)) := by
        simp only [Memory.ids, Memory.records]
        exact ((List.sublist_cons_self a L).filterMap _).map _
      have : m'.ids L = m.ids L := by
        simp only [Memory.ids, records_congr hrecL]
      rw [this]
      exact h.ids.sublist hsub
    · simp [Memory.record, hn]
    · rw [hsize', h.size]; simp

theorem records_cons {m : Memory} {a : Option Nat} {j : CPUJob} (h : m.record a = some j)
    (L : List (Option Nat)) : m.records (a :: L) = j :: m.records L := by
  simp [Memory.records, h]

/-- Every sequence of `enqueue` and `dequeue` calls keeps the invariant, and the records of
the linked list are those of the queue discipline `fifoModel`. -/
theorem run_queueInv : ∀ (ops : List Op) (m : Memory) (q : NovelQueue)
    (L A : List (Option Nat)) (m' : Memory) (q' : NovelQueue), QueueInv m q L A →
    (∀ op ∈ ops, op.isEnqueueOrDequeue = true) →
    (∀ p, Op.enqueue p ∈ ops → m.job p ≠ none) →
    run m q ops = some (m', q') →
    ∃ L' A', QueueInv m' q' L' A' ∧ m'.jobs = m.jobs ∧
      m'.records L' = fifoModel m.job (m.records L) ops
  | [], m, q, L, A, m', q', h, _, _, hrun => by
    simp only [run, Option.some.injEq, Prod.mk.injEq] at hrun
    obtain ⟨rfl, rfl⟩ := hrun
    exact ⟨L, A, h, rfl, rfl⟩
  | op :: ops, m, q, L, A, m', q', h, hops, hjobs, hrun => by
    have hops' : ∀ o ∈ ops, o.isEnqueueOrDequeue = true :=
      fun o ho => hops o (List.mem_cons_of_mem _ ho)
    cases op with
    | enqueue p =>
      obtain ⟨nj, hnj⟩ := Option.ne_none_iff_exists'.1 (hjobs p (List.mem_cons_self _ _))
      cases hs : enqueue m q p with
      | none => simp [run, step, hs] at hrun
      | some s =>
        obtain ⟨m₁, q₁⟩ := s
        simp only [run, step, hs, Option.some_bind] at hrun
        rcases QueueInv.enqueue h hnj hs with ⟨rfl, rfl, hmem⟩ | ⟨A₁, h₁, hrec₁, _, hj₁, hnot⟩
        · obtain ⟨L', A', h', hj', hr'⟩ := run_queueInv ops m₁ q₁ L A m' q' h hops'
            (fun p hp => hjobs p (List.mem_cons_of_mem _ hp)) hrun
          refine ⟨L', A', h', hj', ?_⟩
          rw [hr']
          simp only [fifoModel, hnj]
          rw [if_pos (by simpa [Memory.ids] using hmem)]
        · have hjob : m₁.job = m.job := funext (job_congr hj₁)
          obtain ⟨L', A', h', hj', hr'⟩ := run_queueInv ops m₁ q₁ _ A₁ m' q' h₁ hops'
            (fun p hp => by rw [hjob]; exact hjobs p (List.mem_cons_of_mem _ hp)) hrun
          refine ⟨L', A', h', hj'.trans hj₁, ?_⟩
          rw [hr', hrec₁, hjob]
          simp only [fifoModel, hnj]
          rw [if_neg (by simpa [Memory.ids] using hnot)]
    | dequeue =>
      cases L with
      | nil =>
        have hfront : q.front = none := h.chain
        simp only [run, step, dequeue_empty m q hfront, Option.map_some', Option.some_bind]
          at hrun
        obtain ⟨L', A', h', hj', hr'⟩ := run_queueInv ops m q [] A m' q' h hops'
          (fun p hp => hjobs p (List.mem_cons_of_mem _ hp)) hrun
        exact ⟨L', A', h', hj', by rw [hr']; simp [fifoModel, Memory.records]⟩
      | cons a L =>
        obtain ⟨m₁, q₁, r, A₁, hdq, h₁, _, hrec₁, _, hj₁⟩ := QueueInv.dequeue h
        simp only [run, step, hdq, Option.map_some', Option.some_bind] at hrun
        have hjob : m₁.job = m.job := funext (job_congr hj₁)
        obtain ⟨L', A', h', hj', hr'⟩ := run_queueInv ops m₁ q₁ L A₁ m' q' h₁ hops'
          (fun p hp => by rw [hjob]; exact hjobs p (List.mem_cons_of_mem _ hp)) hrun
        refine ⟨L', A', h', hj'.trans hj₁, ?_⟩
        obtain ⟨ja, hja⟩ := Option.ne_none_iff_exists'.1 (h.records a (List.mem_cons_self _ _))
        rw [hr', hrec₁, hjob, records_cons hja]
        simp [fifoModel]
    | modify a b c d e => simpa [Op.isEnqueueOrDequeue] using hops _ (List.mem_cons_self _ _)
    | promote a b => simpa [Op.isEnqueueOrDequeue] using hops _ (List.mem_cons_self _ _)
    | change a b c => simpa [Op.isEnqueueOrDequeue] using hops _ (List.mem_cons_self _ _)

/-- Claim C2. For every queue built from a new empty queue by `enqueue` and `dequeue` calls
(with job pointers that point to jobs, every call having a defined result): the logical
order `display` shows is the one of the first-in first-out discipline `fifoModel`; a call
of `enqueue` that returns either rejects the job and changes nothing or appends the new
record at the end of the logical order without reordering it; `dequeue` on an empty queue
returns the null pointer and changes nothing, and on a non-empty queue it returns the first
record of the logical order and leaves the rest of the logical order unchanged. -/
theorem enqueue_dequeue_fifo (m₀ : Memory) (ops : List Op) (m : Memory) (q : NovelQueue)
    (hops : ∀ op ∈ ops, op.isEnqueueOrDequeue = true)
    (hjobs : ∀ p, Op.enqueue p ∈ ops → m₀.job p ≠ none)
    (hrun : run m₀ NovelQueue.new ops = some (m, q)) :
    ∃ ds, display m q = some ds ∧ ds = fifoModel m₀.job [] ops ∧
      (∀ p j m' q', m.job p = some j → enqueue m q p = some (m', q') →
        (m' = m ∧ q' = q) ∨ (count q' = count q + 1 ∧ display m' q' = some (ds ++ [j]))) ∧
      (ds = [] → dequeue m q = some (m, q, none)) ∧
      (∀ d rest, ds = d :: rest → ∃ m' q' r, dequeue m q = some (m', q', r) ∧
        m.job r = some d ∧ display m' q' = some rest) := by
  obtain ⟨L, A, h, _, hrec⟩ :=
    run_queueInv ops m₀ NovelQueue.new [] [] m q (queueInv_new m₀) hops hjobs hrun
  refine ⟨m.records L, display_spec h.chain h.records, by simpa [Memory.records] using hrec,
    ?_, ?_, ?_⟩
  · intro p j m' q' hj he
    rcases QueueInv.enqueue h hj he with ⟨h1, h2, _⟩ | ⟨A', h', hrec', hsize', _, _⟩
    · exact Or.inl ⟨h1, h2⟩
    · exact Or.inr ⟨hsize', by rw [← hrec']; exact display_spec h'.chain h'.records⟩
  · intro hnil
    cases L with
    | nil => exact dequeue_empty m q h.chain
    | cons a L =>
      obtain ⟨ja, hja⟩ := Option.ne_none_iff_exists'.1 (h.records a (List.mem_cons_self _ _))
      rw [records_cons hja] at hnil
      cases hnil
  · intro d rest hds
    cases L with
    | nil => simp [Memory.records] at hds
    | cons a L =>
      obtain ⟨ja, hja⟩ := Option.ne_none_iff_exists'.1 (h.records a (List.mem_cons_self _ _))
      rw [records_cons hja] at hds
      simp only [List.cons.injEq] at hds
      obtain ⟨rfl, rfl⟩ := hds
      obtain ⟨m', q', r, A', hdq, h', hr, hrec', _, _⟩ := QueueInv.dequeue h
      exact ⟨m', q', r, hdq, by rw [hr, hja],
        by rw [← hrec']; exact display_spec h'.chain h'.records⟩

/-- The theorem `enqueue_dequeue_fifo` after enqueueing the jobs with ids 3 and 5 and one
`dequeue`. -/
theorem enqueue_dequeue_fifo_witness :
    ∃ ds, display
        { jobs := [⟨3, 2, 1, 0, 0⟩, ⟨5, 1, 1, 0, 0⟩], nodes := [none, some ⟨some 1, none, 0⟩] }
        { front := some 1, NodePointers := [some 1, none, none, none, none], size := 1,
          capacity := 5 } = some ds ∧
      ds = fifoModel
        (Memory.job { jobs := [⟨3, 2, 1, 0, 0⟩, ⟨5, 1, 1, 0, 0⟩], nodes := [] }) []
        [Op.enqueue (some 0), Op.enqueue (some 1), Op.dequeue] ∧
      (∀ p j m' q',
        Memory.job { jobs := [⟨3, 2, 1, 0, 0⟩, ⟨5, 1, 1, 0, 0⟩],
                     nodes := [none, some ⟨some 1, none, 0⟩] } p = some j →
        enqueue { jobs := [⟨3, 2, 1, 0, 0⟩, ⟨5, 1, 1, 0, 0⟩],
                  nodes := [none, some ⟨some 1, none, 0⟩] }
          { front := some 1, NodePointers := [some 1, none, none, none, none], size := 1,
            capacity := 5 } p = some (m', q') →
        (m' = { jobs := [⟨3, 2, 1, 0, 0⟩, ⟨5, 1, 1, 0, 0⟩],
                nodes := [none, some ⟨some 1, none, 0⟩] } ∧
          q' = { front := some 1, NodePointers := [some 1, none, none, none, none], size := 1,
                 capacity := 5 }) ∨
        (count q' = count { front := some 1, NodePointers := [some 1, none, none, none, none],
                            size := 1, capacity := 5 } + 1 ∧
          display m' q' = some (ds ++ [j]))) ∧
      (ds = [] → dequeue
          { jobs := [⟨3, 2, 1, 0, 0⟩, ⟨5, 1, 1, 0, 0⟩], nodes := [none, some ⟨some 1, none, 0⟩] }
          { front := some 1, NodePointers := [some 1, none, none, none, none], size := 1,
            capacity := 5 } =
        some ({ jobs := [⟨3, 2, 1, 0, 0⟩, ⟨5, 1, 1, 0, 0⟩],
                nodes := [none, some ⟨some 1, none, 0⟩] },
          { front := some 1, NodePointers := [some 1, none, none, none, none], size := 1,
            capacity := 5 }, none)) ∧
      (∀ d rest, ds = d :: rest → ∃ m' q' r, dequeue
          { jobs := [⟨3, 2, 1, 0, 0⟩, ⟨5, 1, 1, 0, 0⟩], nodes := [none, some ⟨some 1, none, 0⟩] }
          { front := some 1, NodePointers := [some 1, none, none, none, none], size := 1,
            capacity := 5 } = some (m', q', r) ∧
        Memory.job { jobs := [⟨3, 2, 1, 0, 0⟩, ⟨5, 1, 1, 0, 0⟩],
                     nodes := [none, some ⟨some 1, none, 0⟩] } r = some d ∧
        display m' q' = some rest) :=
  enqueue_dequeue_fifo
    { jobs := [⟨3, 2, 1, 0, 0⟩, ⟨5, 1, 1, 0, 0⟩], nodes := [] }
    [Op.enqueue (some 0), Op.enqueue (some 1), Op.dequeue]
    { jobs := [⟨3, 2, 1, 0, 0⟩, ⟨5, 1, 1, 0, 0⟩], nodes := [none, some ⟨some 1, none, 0⟩] }
    { front := some 1, NodePointers := [some 1, none, none, none, none], size := 1,
      capacity := 5 }
    (by decide)
    (by
      intro p hp
      simp only [List.mem_cons, Op.enqueue.injEq, List.mem_singleton, reduceCtorEq,
        or_false, List.mem_nil_iff] at hp
      rcases hp with rfl | rfl <;> decide)
    (by decide)

/-- Claim C5. In every state reached from a new empty queue by `enqueue` and `dequeue` calls
(with job pointers that point to jobs), no two records of the logical order that
`display` shows have the same `jobID`.  A state is reached when every call of the sequence
has a defined result; a call that dereferences a deleted node has none. -/
theorem enqueue_dequeue_unique_ids (m₀ : Memory) (ops : List Op) (m : Memory) (q : NovelQueue)
    (hops : ∀ op ∈ ops, op.isEnqueueOrDequeue = true)
    (hjobs : ∀ p, Op.enqueue p ∈ ops → m₀.job p ≠ none)
    (hrun : run m₀ NovelQueue.new ops = some (m, q)) :
    ∃ ds, display m q = some ds ∧ (ds.map CPUJob.jobID).Nodup := by
  obtain ⟨L, A, h, _, _⟩ :=
    run_queueInv ops m₀ NovelQueue.new [] [] m q (queueInv_new m₀) hops hjobs hrun
  exact ⟨m.records L, display_spec h.chain h.records, h.ids⟩

/-- The theorem `enqueue_dequeue_unique_ids` after enqueueing the ids 3, 5 and 3 again. -/
theorem enqueue_dequeue_unique_ids_witness :
    ∃ ds, display
        { jobs := [⟨3, 2, 1, 0, 0⟩, ⟨5, 1, 1, 0, 0⟩, ⟨3, 7, 1, 0, 0⟩],
          nodes := [some ⟨some 0, some 1, 0⟩, some ⟨some 1, none, 0⟩] }
        { front := some 0,
          NodePointers := [some 0, some 1, none, none, none, none, none, none, none, none],
          size := 2, capacity := 10 } = some ds ∧
      (ds.map CPUJob.jobID).Nodup :=
  enqueue_dequeue_unique_ids
    { jobs := [⟨3, 2, 1, 0, 0⟩, ⟨5, 1, 1, 0, 0⟩, ⟨3, 7, 1, 0, 0⟩], nodes := [] }
    [Op.enqueue (some 0), Op.enqueue (some 1), Op.enqueue (some 2)]
    { jobs := [⟨3, 2, 1, 0, 0⟩, ⟨5, 1, 1, 0, 0⟩, ⟨3, 7, 1, 0, 0⟩],
      nodes := [some ⟨some 0, some 1, 0⟩, some ⟨some 1, none, 0⟩] }
    { front := some 0,
      NodePointers := [some 0, some 1, none, none, none, none, none, none, none, none],
      size := 2, capacity := 10 }
    (by decide)
    (by
      intro p hp
      simp only [List.mem_cons, Op.enqueue.injEq, List.mem_singleton, reduceCtorEq,
        or_false, List.mem_nil_iff] at hp
      rcases hp with rfl | rfl | rfl <;> decide)
    (by decide)

/-- Claim C3. After `enqueue` of the ids 5 and 3 and one `dequeue`, the node of id 5 (address
0), which was the head of the list, has been deleted, yet the only array entry is still
that node: `dequeue` has dropped the entry at index 0, the node of id 3 (address 1).  The
node reachable from `front` is not in the array, the array entry is not reachable from
`front`, and a further `enqueue` has no defined result because its duplicate check reads
the deleted node. -/
theorem dequeue_drops_index_zero :
    run { jobs := [⟨5, 1, 1, 0, 0⟩, ⟨3, 2, 1, 0, 0⟩, ⟨8, 3, 1, 0, 0⟩], nodes := [] }
        NovelQueue.new [Op.enqueue (some 0), Op.enqueue (some 1), Op.dequeue] =
      some ({ jobs := [⟨5, 1, 1, 0, 0⟩, ⟨3, 2, 1, 0, 0⟩, ⟨8, 3, 1, 0, 0⟩],
              nodes := [none, some ⟨some 1, none, 0⟩] },
            { front := some 1, NodePointers := [some 0, none, none, none, none], size := 1,
              capacity := 5 }) ∧
    Chain { jobs := [⟨5, 1, 1, 0, 0⟩, ⟨3, 2, 1, 0, 0⟩, ⟨8, 3, 1, 0, 0⟩],
            nodes := [none, some ⟨some 1, none, 0⟩] } (some 1) [some 1] ∧
    some 1 ∉ ([some 0, none, none, none, none] : List (Option Nat)).take 1 ∧
    listJobs { jobs := [⟨5, 1, 1, 0, 0⟩, ⟨3, 2, 1, 0, 0⟩, ⟨8, 3, 1, 0, 0⟩],
               nodes := [none, some ⟨some 1, none, 0⟩] }
      { front := some 1, NodePointers := [some 0, none, none, none, none], size := 1,
        capacity := 5 } = none ∧
    enqueue { jobs := [⟨5, 1, 1, 0, 0⟩, ⟨3, 2, 1, 0, 0⟩, ⟨8, 3, 1, 0, 0⟩],
              nodes := [none, some ⟨some 1, none, 0⟩] }
      { front := some 1, NodePointers := [some 0, none, none, none, none], size := 1,
        capacity := 5 } (some 2) = none := by
  refine ⟨by decide, ⟨rfl, ⟨some 1, none, 0⟩, rfl, rfl⟩, by decide, by decide, by decide⟩

/-- Claim C4. After `enqueue` of the ids 2 and 1 and `promote(2, 0)` (id present, positions
0), `count()` is 2 and the array has two entries, but only one node is reachable from
`front`: `promote` has relinked the nodes in array order and left `front` at the node of
id 2, which is now the last node. -/
theorem promote_breaks_count :
    ∃ m q, run { jobs := [⟨2, 1, 1, 0, 0⟩, ⟨1, 2, 1, 0, 0⟩], nodes := [] } NovelQueue.new
        [Op.enqueue (some 0), Op.enqueue (some 1), Op.promote 2 0] = some (m, q) ∧
      count q = 2 ∧ Chain m q.front [some 0] ∧
      display m q = some [⟨2, 1, 1, 0, 0⟩] ∧
      listJobs m q = some [⟨1, 2, 1, 0, 0⟩, ⟨2, 1, 1, 0, 0⟩] :=
  ⟨{ jobs := [⟨2, 1, 1, 0, 0⟩, ⟨1, 2, 1, 0, 0⟩],
     nodes := [some ⟨some 0, none, 0⟩, some ⟨some 1, some 0, 0⟩] },
   { front := some 0,
     NodePointers := [some 1, some 0, none, none, none, none, none, none, none, none],
     size := 2, capacity := 10 },
   by decide, by decide, ⟨rfl, ⟨some 0, none, 0⟩, rfl, rfl⟩, by decide, by decide⟩

/-- The duplicate check reports a duplicate when the entry at index `i` has the id of the
new job and the entries up to `i` all reference a record. -/
theorem hasDuplicate_of_match {m : Memory} {arr : List (Option Nat)} {newJob : Option Nat}
    {nj j : CPUJob} {i : Nat} (hjob : m.job newJob = some nj)
    (hmatch : jobAt m arr i = some j) (hid : j.jobID = nj.jobID) :
    ∀ (n s : Nat), s ≤ i → i < s + n → (∀ k, s ≤ k → k ≤ i → jobAt m arr k ≠ none) →
      hasDuplicate m arr newJob s n = some true
  | 0, s, h1, h2, _ => by omega
  | n + 1, s, h1, h2, hread => by
    obtain ⟨js, hjs⟩ := Option.ne_none_iff_exists'.1 (hread s (Nat.le_refl _) h1)
    by_cases hs : js.jobID = nj.jobID
    · simp only [hasDuplicate, hjs, hjob, Option.bind_eq_bind, Option.some_bind, if_pos hs]
    · have hne : s ≠ i := fun e => by
        rw [e, hmatch] at hjs; cases hjs; exact hs hid
      simp only [hasDuplicate, hjs, hjob, Option.bind_eq_bind, Option.some_bind, if_neg hs]
      exact hasDuplicate_of_match hjob hmatch hid n (s + 1) (by omega) (by omega)
        (fun k hk1 hk2 => hread k (by omega) hk2)

/-- Claim C6. For every queue and every job whose `jobID` equals the `jobID` of the record
referenced by the array entry at an index `i < size` (the entries up to `i` referencing
records), `enqueue` returns the memory and the queue it was given: size, capacity, the
array contents, the linked order and all record fields are unchanged. -/
theorem enqueue_duplicate_unchanged (m : Memory) (q : NovelQueue) (newJob : Option Nat)
    (nj j : CPUJob) (i : Nat) (hi : i < q.size.toNat)
    (hread : ∀ k ≤ i, jobAt m q.NodePointers k ≠ none)
    (hjob : m.job newJob = some nj) (hmatch : jobAt m q.NodePointers i = some j)
    (hid : j.jobID = nj.jobID) : enqueue m q newJob = some (m, q) := by
  have := hasDuplicate_of_match hjob hmatch hid q.size.toNat 0 (Nat.zero_le _) (by omega)
    (fun k _ hk => hread k hk)
  simp [enqueue, this]

/-- The theorem `enqueue_duplicate_unchanged` on the queue holding the ids 5 and 3, for a
second job with id 5. -/
theorem enqueue_duplicate_unchanged_witness :
    enqueue
      { jobs := [⟨5, 1, 1, 0, 0⟩, ⟨3, 2, 1, 0, 0⟩, ⟨5, 9, 9, 9, 9⟩],
        nodes := [some ⟨some 0, some 1, 0⟩, some ⟨some 1, none, 0⟩] }
      { front := some 0,
        NodePointers := [some 1, some 0, none, none, none, none, none, none, none, none],
        size := 2, capacity := 10 } (some 2) =
    some ({ jobs := [⟨5, 1, 1, 0, 0⟩, ⟨3, 2, 1, 0, 0⟩, ⟨5, 9, 9, 9, 9⟩],
            nodes := [some ⟨some 0, some 1, 0⟩, some ⟨some 1, none, 0⟩] },
      { front := some 0,
        NodePointers := [some 1, some 0, none, none, none, none, none, none, none, none],
        size := 2, capacity := 10 }) :=
  enqueue_duplicate_unchanged _ _ (some 2) ⟨5, 9, 9, 9, 9⟩ ⟨5, 1, 1, 0, 0⟩ 1 (by decide)
    (by
      intro k hk
      interval_cases k <;> decide)
    rfl rfl rfl

/-- Claim C8. After `enqueue` of the ids 2 and 1, `promote(2, 0)` leaves the array order
`[1, 2]` but the logical order `[2]`: the nodes are relinked in array order, `front` still
points to the node of id 2, and the node of id 1 is no longer reached from `front`. -/
theorem promote_logical_order_differs :
    ∃ m q m' q', enqueueAll { jobs := [⟨2, 1, 1, 0, 0⟩, ⟨1, 2, 1, 0, 0⟩], nodes := [] }
        NovelQueue.new [some 0, some 1] = some (m, q) ∧
      promote m q 2 0 = some (m', q') ∧
      listJobs m' q' = some [⟨1, 2, 1, 0, 0⟩, ⟨2, 1, 1, 0, 0⟩] ∧
      display m' q' = some [⟨2, 1, 1, 0, 0⟩] ∧
      display m' q' ≠ listJobs m' q' :=
  ⟨{ jobs := [⟨2, 1, 1, 0, 0⟩, ⟨1, 2, 1, 0, 0⟩],
     nodes := [some ⟨some 0, some 1, 0⟩, some ⟨some 1, none, 0⟩] },
   { front := some 0,
     NodePointers := [some 1, some 0, none, none, none, none, none, none, none, none],
     size := 2, capacity := 10 },
   { jobs := [⟨2, 1, 1, 0, 0⟩, ⟨1, 2, 1, 0, 0⟩],
     nodes := [some ⟨some 0, none, 0⟩, some ⟨some 1, some 0, 0⟩] },
   { front := some 0,
     NodePointers := [some 1, some 0, none, none, none, none, none, none, none, none],
     size := 2, capacity := 10 },
   by decide, by decide, by decide, by decide, by decide⟩

/-! ## `promote` -/

/-- The search loop of `promote` stops at the first entry with the id. -/
theorem findIndex_spec {m : Memory} {jobID : Int} {x : Option Nat} {j : CPUJob}
    (hx : m.record x = some j) (hid : j.jobID = jobID) (post : List (Option Nat)) :
    ∀ (A₁ pre : List (Option Nat)) (n : Nat),
      (∀ y ∈ A₁, ∃ k, m.record y = some k ∧ k.jobID ≠ jobID) → A₁.length < n →
      findIndex m (pre ++ A₁ ++ x :: post) jobID pre.length n
        = some ((pre.length + A₁.length : Nat) : Int)
  | [], pre, n + 1, _, _ => by
    simp only [findIndex, List.append_nil, jobAt_at, hx, Option.bind_eq_bind,
      Option.some_bind, if_pos hid, List.length_nil, Nat.add_zero]
  | y :: A₁, pre, n + 1, h, hn => by
    obtain ⟨k, hk, hne⟩ := h y (List.mem_cons_self _ _)
    have ih := findIndex_spec hx hid post A₁ (pre ++ [y]) n
      (fun z hz => h z (List.mem_cons_of_mem _ hz)) (by simpa using hn)
    simp only [List.length_append, List.length_singleton, List.append_assoc,
      List.singleton_append, List.cons_append, List.nil_append] at ih
    simp only [findIndex, List.append_assoc, List.cons_append, jobAt_at, hk,
      Option.bind_eq_bind, Option.some_bind, if_neg hne, ih, List.length_cons]
    congr 2
    omega

/-- The shift loop of `promote` copies the entries `mid` one slot to the right. -/
theorem shiftRight_spec (pre : List (Option Nat)) :
    ∀ (mid : List (Option Nat)) (x : Option Nat) (post : List (Option Nat)),
      ∃ z, shiftRight (pre.length + mid.length) mid.length (pre ++ mid ++ x :: post)
        = some (pre ++ z :: mid ++ post) := by
  intro mid
  induction mid using List.reverseRecOn with
  | nil => intro x post; exact ⟨x, by simp [shiftRight]⟩
  | append_singleton mid y ih =>
    intro x post
    obtain ⟨z, hz⟩ := ih y (y :: post)
    refine ⟨z, ?_⟩
    have hlen : pre.length + (mid ++ [y]).length = (pre ++ mid).length + 1 := by
      simp; omega
    have e1 : readAt (pre ++ (mid ++ [y]) ++ x :: post) (((pre ++ mid).length + 1 : Nat) - 1)
        = some y := by
      have h0 : ¬ ((((pre ++ mid).length + 1 : Nat) : Int) - 1 < 0) := by omega
      have h1 : ((((pre ++ mid).length + 1 : Nat) : Int) - 1).toNat = (pre ++ mid).length := by
        omega
      simp only [readAt, if_neg h0, h1]
      have := getElem?_at (pre ++ mid) y (x :: post)
      simpa using this
    have e2 : store (pre ++ (mid ++ [y]) ++ x :: post) ((pre ++ mid).length + 1) y
        = some (pre ++ mid ++ y :: y :: post) := by
      have := store_at_succ (pre ++ mid) y x y post
      simpa using this
    rw [hlen]
    simp only [List.length_append, List.length_singleton, shiftRight, Option.bind_eq_bind]
    simp only [List.length_append] at e1 e2
    rw [e1, Option.some_bind, e2, Option.some_bind]
    simp only [Nat.add_sub_cancel]
    rw [hz]
    simp

theorem setNext_frame {m m' : Memory} {p v : Option Nat} (h : m.setNext p v = some m') :
    m'.jobs = m.jobs ∧ m'.nodes.length = m.nodes.length ∧
    ∀ r, (m'.node r).map Queue.JobPointer = (m.node r).map Queue.JobPointer := by
  cases p with
  | none => simp [Memory.setNext] at h
  | some a =>
    cases hn : m.node (some a) with
    | none => simp [Memory.setNext, hn] at h
    | some n =>
      rw [setNext_eq hn] at h
      cases h
      obtain ⟨b, hb, hlt⟩ := node_lt hn
      cases hb
      refine ⟨rfl, by simp, fun r => ?_⟩
      by_cases hr : r = some a
      · subst hr
        rw [node_set_self hlt, hn]; rfl
      · rw [node_set_ne _ hr]

theorem setNext_isSome {m : Memory} {p : Option Nat} (h : m.node p ≠ none) (v : Option Nat) :
    ∃ m', m.setNext p v = some m' := by
  obtain ⟨n, hn⟩ := Option.ne_none_iff_exists'.1 h
  obtain ⟨a, rfl, _⟩ := node_lt hn
  exact ⟨_, setNext_eq hn v⟩

theorem node_ne_none_of_frame {m m' : Memory} {r : Option Nat}
    (h : (m'.node r).map Queue.JobPointer = (m.node r).map Queue.JobPointer)
    (hr : m.node r ≠ none) : m'.node r ≠ none := by
  intro h'
  rw [h'] at h
  cases hn : m.node r with
  | none => exact hr hn
  | some n => rw [hn] at h; cases h

/-- The relinking loop of `promote` (lines 211-213) is defined when the entries it visits
are nodes; it changes `next` fields only. -/
theorem forUp_relink (tail : List (Option Nat)) :
    ∀ (seg pre : List (Option Nat)) (x : Option Nat) (m : Memory),
      (∀ y ∈ seg, m.node y ≠ none) →
      ∃ m', forUp (fun i m => do
          let p ← (pre ++ seg ++ x :: tail)[i]?
          let v ← (pre ++ seg ++ x :: tail)[i + 1]?
          m.setNext p v) pre.length seg.length m = some m' ∧
        m'.jobs = m.jobs ∧ m'.nodes.length = m.nodes.length ∧
        ∀ r, (m'.node r).map Queue.JobPointer = (m.node r).map Queue.JobPointer
  | [], pre, x, m, _ => ⟨m, rfl, rfl, rfl, fun _ => rfl⟩
  | y :: seg, pre, x, m, h => by
    obtain ⟨v, hv⟩ : ∃ v, (pre ++ y :: (seg ++ x :: tail))[pre.length + 1]? = some v := by
      cases seg with
      | nil => exact ⟨x, getElem?_at_succ pre y x tail⟩
      | cons z seg => exact ⟨z, getElem?_at_succ pre y z _⟩
    obtain ⟨m₁, hm₁⟩ := setNext_isSome (h y (List.mem_cons_self _ _)) v
    obtain ⟨hj₁, hl₁, hf₁⟩ := setNext_frame hm₁
    obtain ⟨m', hrun, hj', hl', hf'⟩ := forUp_relink tail seg (pre ++ [y]) x m₁
      (fun z hz => node_ne_none_of_frame (hf₁ z) (h z (List.mem_cons_of_mem _ hz)))
    refine ⟨m', ?_, hj'.trans hj₁, hl'.trans hl₁, fun r => (hf' r).trans (hf₁ r)⟩
    simp only [List.length_append, List.length_singleton, List.append_assoc,
      List.singleton_append, List.cons_append, Option.bind_eq_bind, List.nil_append]
      at hrun ⊢
    simp only [forUp, List.length_cons, getElem?_at, hv, Option.some_bind, hm₁]
    exact hrun

/-- The effect of `promote` on the array: the first entry `x` with the id, found behind
`pre ++ mid`, is moved in front of `mid`, where `pre.length = max(0, jobIndex - positions)`. -/
theorem promote_spec {m : Memory} {q : NovelQueue} {jobID positions : Int}
    {pre mid post tail : List (Option Nat)} {x : Option Nat} {j : CPUJob}
    (harr : q.NodePointers = pre ++ mid ++ x :: post ++ tail)
    (hsize : q.size = (pre ++ mid ++ x :: post).length)
    (hlive : ∀ y ∈ pre ++ mid ++ x :: post, m.node y ≠ none)
    (hfirst : ∀ y ∈ pre ++ mid, ∃ k, m.record y = some k ∧ k.jobID ≠ jobID)
    (hx : m.record x = some j) (hid : j.jobID = jobID)
    (hnew : max 0 (((pre ++ mid).length : Int) - positions) = pre.length) :
    ∃ m', promote m q jobID positions = some (m', { q with
        front := if pre = [] then x else q.front,
        NodePointers := pre ++ x :: mid ++ post ++ tail }) ∧
      m'.jobs = m.jobs ∧ m'.nodes.length = m.nodes.length ∧
      ∀ r, (m'.node r).map Queue.JobPointer = (m.node r).map Queue.JobPointer := by
  have hsz : q.size.toNat = (pre ++ mid).length + (post.length + 1) := by
    rw [hsize]; simp; omega
  -- the search
  have hfind : findIndex m q.NodePointers jobID 0 q.size.toNat
      = some (((pre ++ mid).length : Nat) : Int) := by
    have := findIndex_spec hx hid (post ++ tail) (pre ++ mid) [] q.size.toNat hfirst
      (by omega)
    simpa [harr] using this
  have hread : readAt q.NodePointers (((pre ++ mid).length : Nat) : Int) = some x := by
    have h0 : ¬ ((((pre ++ mid).length : Nat) : Int) < 0) := by omega
    simp only [readAt, if_neg h0, Int.toNat_ofNat, harr]
    have := getElem?_at (pre ++ mid) x (post ++ tail)
    simpa using this
  -- the shift
  obtain ⟨z, hshift⟩ := shiftRight_spec pre mid x (post ++ tail)
  have hcnt : ((((pre ++ mid).length : Nat) : Int) -
      max 0 ((((pre ++ mid).length : Nat) : Int) - positions)).toNat = mid.length := by
    rw [hnew]; simp
  have hshift' : shiftRight (((pre ++ mid).length : Nat) : Int).toNat
      ((((pre ++ mid).length : Nat) : Int) -
        max 0 ((((pre ++ mid).length : Nat) : Int) - positions)).toNat q.NodePointers
      = some (pre ++ z :: mid ++ (post ++ tail)) := by
    rw [hcnt, Int.toNat_ofNat, harr]
    have : pre ++ mid ++ x :: post ++ tail = pre ++ mid ++ x :: (post ++ tail) := by simp
    rw [this, List.length_append]
    exact hshift
  have hwrite : writeAt (pre ++ z :: mid ++ (post ++ tail))
      (max 0 ((((pre ++ mid).length : Nat) : Int) - positions)) x
      = some (pre ++ x :: mid ++ post ++ tail) := by
    rw [hnew]
    have := writeAt_at pre z x (mid ++ (post ++ tail))
    simpa using this
  -- the new front
  have hfront : (if max 0 ((((pre ++ mid).length : Nat) : Int) - positions) = 0 then
        readAt (pre ++ x :: mid ++ post ++ tail) 0 else pure q.front)
      = some (if pre = [] then x else q.front) := by
    rw [hnew]
    cases pre with
    | nil => simp [readAt]
    | cons y pre =>
      have h1 : ¬ (((y :: pre).length : Int) = 0) := by simp; omega
      rw [if_neg h1, if_neg (by simp)]
      rfl
  -- the relinking
  obtain ⟨seg, w, hsw⟩ : ∃ seg w, pre ++ x :: mid ++ post = seg ++ [w] := by
    rcases List.eq_nil_or_concat (pre ++ x :: mid ++ post) with h | ⟨seg, w, h⟩
    · simp at h
    · exact ⟨seg, w, by rw [h, List.concat_eq_append]⟩
  have hmem : ∀ y ∈ seg ++ [w], m.node y ≠ none := by
    intro y hy
    rw [← hsw] at hy
    apply hlive
    simp only [List.mem_append, List.mem_cons] at hy ⊢
    tauto
  have hseglen : (q.size - 1).toNat = seg.length := by
    have := congrArg List.length hsw
    simp at this
    rw [hsize]; simp; omega
  obtain ⟨m₁, hrel, hj₁, hl₁, hf₁⟩ := forUp_relink tail seg [] w m
    (fun y hy => hmem y (List.mem_append_left _ hy))
  have harr' : pre ++ x :: mid ++ post ++ tail = seg ++ w :: tail := by
    rw [hsw]; simp
  have hlast : readAt (pre ++ x :: mid ++ post ++ tail) (q.size - 1) = some w := by
    have h0 : ¬ (q.size - 1 < 0) := by omega
    simp only [readAt, if_neg h0, hseglen, harr']
    exact getElem?_at _ _ _
  obtain ⟨m₂, hm₂⟩ := setNext_isSome
    (node_ne_none_of_frame (hf₁ w) (hmem w (by simp))) none
  obtain ⟨hj₂, hl₂, hf₂⟩ := setNext_frame hm₂
  refine ⟨m₂, ?_, hj₂.trans hj₁, hl₂.trans hl₁, fun r => (hf₂ r).trans (hf₁ r)⟩
  simp only [List.nil_append, List.length_nil, Option.bind_eq_bind, List.append_assoc,
    List.singleton_append] at hrel
  rw [← harr'] at hrel
  by_cases hpre : max 0 ((((pre ++ mid).length : Nat) : Int) - positions) = 0
  · rw [if_pos hpre] at hfront
    simp only [promote, hfind, Option.bind_eq_bind, Option.some_bind, hread, hshift', hwrite,
      if_pos hpre, hfront, hseglen, hlast, hrel, hm₂]
    rfl
  · rw [if_neg hpre] at hfront
    simp only [Option.pure_def, Option.some.injEq] at hfront
    simp only [promote, hfind, Option.bind_eq_bind, Option.some_bind, hread, hshift', hwrite,
      if_neg hpre, Option.pure_def, hseglen, hlast, hrel, hm₂]
    rw [← hfront]

theorem insertIdx_append_at (pre l : List (Option Nat)) (x : Option Nat) :
    List.insertIdx pre.length x (pre ++ l) = pre ++ x :: l := by
  induction pre with
  | nil => rfl
  | cons y pre ih => simp [List.insertIdx_succ_cons, ih]

/-- Claim C7. For every queue whose array entries reference records, every id whose first
array entry is at index `i`, and every `positions ≥ 0`, `promote` returns, and the array
afterwards is the previous array with the entry of index `i` removed and inserted again at
index `max(0, i - positions)` (`i - positions.toNat` in natural numbers), the other entries
keeping their order; size, capacity and the records are unchanged; and when
`positions ≥ i` the promoted entry is at index 0. -/
theorem promote_moves_entry (m : Memory) (q : NovelQueue) (jobID positions : Int)
    (A tail : List (Option Nat)) (i : Nat) (x : Option Nat) (j : CPUJob)
    (harr : q.NodePointers = A ++ tail) (hsize : q.size = A.length)
    (hrec : ∀ y ∈ A, m.record y ≠ none)
    (hx : A[i]? = some x) (hj : m.record x = some j) (hid : j.jobID = jobID)
    (hfirst : ∀ y ∈ A.take i, ∀ k, m.record y = some k → k.jobID ≠ jobID)
    (hpos : 0 ≤ positions) :
    ∃ m' q', promote m q jobID positions = some (m', q') ∧
      q'.NodePointers = List.insertIdx (i - positions.toNat) x (A.eraseIdx i) ++ tail ∧
      q'.size = q.size ∧ q'.capacity = q.capacity ∧ m'.jobs = m.jobs ∧
      ((i : Int) ≤ positions → q'.NodePointers[0]? = some x) := by
  obtain ⟨hi, hxi⟩ := List.getElem?_eq_some_iff.1 hx
  have hA : A = A.take i ++ x :: A.drop (i + 1) := by
    rw [← hxi]; simp
  have hsplit : A.take i = (A.take i).take (i - positions.toNat) ++
      (A.take i).drop (i - positions.toNat) := (List.take_append_drop _ _).symm
  have hprelen : ((A.take i).take (i - positions.toNat)).length = i - positions.toNat := by
    simp; omega
  have hA' : A = (A.take i).take (i - positions.toNat) ++
      (A.take i).drop (i - positions.toNat) ++ x :: A.drop (i + 1) := by
    rw [← hsplit]; exact hA
  have hlive : ∀ y ∈ A, m.node y ≠ none := fun y hy h => by
    obtain ⟨k, hk⟩ := Option.ne_none_iff_exists'.1 (hrec y hy)
    obtain ⟨n, hn, _⟩ := record_node hk
    rw [h] at hn; cases hn
  obtain ⟨m', hpro, hjobs, _, _⟩ := @promote_spec m q jobID positions
    ((A.take i).take (i - positions.toNat)) ((A.take i).drop (i - positions.toNat))
    (A.drop (i + 1)) tail x j (by rw [← hA', harr]) (by rw [← hA', hsize])
    (by rw [← hA']; exact hlive)
    (by
      rw [← hsplit]
      intro y hy
      obtain ⟨k, hk⟩ := Option.ne_none_iff_exists'.1 (hrec y (List.mem_of_mem_take hy))
      exact ⟨k, hk, hfirst y hy k hk⟩)
    hj hid
    (by
      rw [← hsplit, hprelen]
      have : (A.take i).length = i := by simp; omega
      rw [this]
      omega)
  have herase : A.eraseIdx i = (A.take i).take (i - positions.toNat) ++
      ((A.take i).drop (i - positions.toNat) ++ A.drop (i + 1)) := by
    rw [List.eraseIdx_eq_take_drop_succ, ← List.append_assoc, ← hsplit]
  have hins : List.insertIdx (i - positions.toNat) x (A.eraseIdx i) =
      (A.take i).take (i - positions.toNat) ++
        x :: (A.take i).drop (i - positions.toNat) ++ A.drop (i + 1) := by
    rw [herase]
    have := insertIdx_append_at ((A.take i).take (i - positions.toNat))
      ((A.take i).drop (i - positions.toNat) ++ A.drop (i + 1)) x
    rw [hprelen] at this
    rw [this]; simp
  refine ⟨m', _, hpro, ?_, rfl, rfl, hjobs, ?_⟩
  · simp only [hins]
  · intro hle
    have h0 : i - positions.toNat = 0 := by omega
    simp only [h0, List.take_zero, List.nil_append, List.cons_append]
    exact List.getElem?_cons_zero

/-- The theorem `promote_moves_entry` on the queue holding the ids 3, 5, 8 in array order,
for `promote(8, 1)`. -/
theorem promote_moves_entry_witness :
    ∃ m' q', promote
        { jobs := [⟨3, 1, 1, 0, 0⟩, ⟨5, 2, 1, 0, 0⟩, ⟨8, 3, 1, 0, 0⟩],
          nodes := [some ⟨some 0, some 1, 0⟩, some ⟨some 1, some 2, 0⟩,
            some ⟨some 2, none, 0⟩] }
        { front := some 0,
          NodePointers := [some 0, some 1, some 2] ++ List.replicate 7 none,
          size := 3, capacity := 10 } 8 1 = some (m', q') ∧
      q'.NodePointers = List.insertIdx (2 - (1 : Int).toNat) (some 2)
        (([some 0, some 1, some 2] : List (Option Nat)).eraseIdx 2) ++ List.replicate 7 none ∧
      q'.size = 3 ∧ q'.capacity = 10 ∧
      m'.jobs = [⟨3, 1, 1, 0, 0⟩, ⟨5, 2, 1, 0, 0⟩, ⟨8, 3, 1, 0, 0⟩] ∧
      (((2 : Nat) : Int) ≤ 1 → q'.NodePointers[0]? = some (some 2)) :=
  promote_moves_entry
    { jobs := [⟨3, 1, 1, 0, 0⟩, ⟨5, 2, 1, 0, 0⟩, ⟨8, 3, 1, 0, 0⟩],
      nodes := [some ⟨some 0, some 1, 0⟩, some ⟨some 1, some 2, 0⟩, some ⟨some 2, none, 0⟩] }
    { front := some 0,
      NodePointers := [some 0, some 1, some 2] ++ List.replicate 7 none,
      size := 3, capacity := 10 } 8 1
    [some 0, some 1, some 2] (List.replicate 7 none) 2 (some 2) ⟨8, 3, 1, 0, 0⟩
    rfl rfl (by decide) rfl rfl rfl (by decide) (by decide)

/-! ## `reorder`: the sorting loops -/

theorem needSwap_eq {m : Memory} {k : Int} {pre tail : List (Option Nat)} {a b : Option Nat}
    (ha : m.record a ≠ none) (hb : m.record b ≠ none) :
    needSwap m (pre ++ a :: b :: tail) k pre.length = some (decide (m.key k a > m.key k b)) := by
  obtain ⟨ja, hja⟩ := Option.ne_none_iff_exists'.1 ha
  obtain ⟨jb, hjb⟩ := Option.ne_none_iff_exists'.1 hb
  unfold needSwap
  simp only [jobAt_at, jobAt_at_succ, hja, hjb, Option.bind_eq_bind, Option.some_bind,
    Option.pure_def, Memory.key, Option.map_some', Option.getD_some, CPUJob.attr]
  by_cases h1 : k = 1
  · simp [h1]
  · by_cases h2 : k = 2
    · simp [h2]
    · by_cases h3 : k = 3
      · simp [h3]
      · simp [h1, h2, h3]

/-- One pass of the inner loop of `reorder`: the entry with the largest attribute of the
segment ends up last, the segment is permuted, and a sorted segment is left as it is. -/
theorem forUp_bubble (m : Memory) (k : Int) (tail : List (Option Nat)) :
    ∀ (seg pre : List (Option Nat)) (a : Option Nat),
      (∀ y ∈ a :: seg, m.record y ≠ none) →
      ∃ seg' mx, forUp (fun j arr => do
          let sw ← needSwap m arr k j
          if sw then swapAt arr j (j + 1) else some arr) pre.length seg.length
          (pre ++ a :: seg ++ tail) = some (pre ++ seg' ++ mx :: tail) ∧
        (seg' ++ [mx]).Perm (a :: seg) ∧
        (∀ y ∈ seg', m.key k y ≤ m.key k mx) ∧
        ((a :: seg).Pairwise (fun x y => m.key k x ≤ m.key k y) → seg' ++ [mx] = a :: seg)
  | [], pre, a, _ => ⟨[], a, by simp [forUp], List.Perm.refl _, (fun _ h => by cases h),
      fun _ => rfl⟩
  | b :: seg, pre, a, h => by
    have ha := h a (List.mem_cons_self _ _)
    have hb := h b (List.mem_cons_of_mem _ (List.mem_cons_self _ _))
    have hsw := @needSwap_eq m k pre (seg ++ tail) a b ha hb
    by_cases hgt : m.key k a > m.key k b
    · obtain ⟨seg', mx, hrun, hperm, hmax, _⟩ := forUp_bubble m k tail seg (pre ++ [b]) a
        (fun y hy => h y (by
          rcases List.mem_cons.1 hy with rfl | hy
          · exact List.mem_cons_self _ _
          · exact List.mem_cons_of_mem _ (List.mem_cons_of_mem _ hy)))
      refine ⟨b :: seg', mx, ?_, ?_, ?_, ?_⟩
      · simp only [List.length_append, List.length_singleton, List.append_assoc,
          List.singleton_append, List.cons_append, Option.bind_eq_bind, List.nil_append]
          at hrun ⊢
        simp only [forUp, List.length_cons, hsw, Option.some_bind, decide_eq_true hgt,
          if_true, swapAt_up]
        exact hrun
      · exact (List.Perm.cons b hperm).trans (List.Perm.swap a b seg)
      · intro y hy
        rcases List.mem_cons.1 hy with rfl | hy
        · have hmem : a ∈ seg' ++ [mx] := hperm.symm.subset (List.mem_cons_self _ _)
          have : m.key k a ≤ m.key k mx := by
            rcases List.mem_append.1 hmem with h1 | h1
            · exact hmax a h1
            · simp only [List.mem_singleton] at h1; rw [h1]
          omega
        · exact hmax y hy
      · intro hs
        have := (List.pairwise_cons.1 hs).1 b (List.mem_cons_self _ _)
        omega
    · obtain ⟨seg', mx, hrun, hperm, hmax, hsorted⟩ :=
        forUp_bubble m k tail seg (pre ++ [a]) b
          (fun y hy => h y (List.mem_cons_of_mem _ hy))
      refine ⟨a :: seg', mx, ?_, ?_, ?_, ?_⟩
      · simp only [List.length_append, List.length_singleton, List.append_assoc,
          List.singleton_append, List.cons_append, Option.bind_eq_bind, List.nil_append]
          at hrun ⊢
        simp only [forUp, List.length_cons, hsw, Option.some_bind, decide_eq_false hgt,
          Bool.false_eq_true, if_false]
        exact hrun
      · exact List.Perm.cons a hperm
      · intro y hy
        rcases List.mem_cons.1 hy with rfl | hy
        · have hmem : b ∈ seg' ++ [mx] := hperm.symm.subset (List.mem_cons_self _ _)
          have : m.key k b ≤ m.key k mx := by
            rcases List.mem_append.1 hmem with h1 | h1
            · exact hmax b h1
            · simp only [List.mem_singleton] at h1; rw [h1]
          omega
        · exact hmax y hy
      · intro hs
        have := hsorted (List.pairwise_cons.1 hs).2
        simp only [List.cons_append, this]

/-- The outer loop of the sort of `reorder`, entered with `S` already in place behind the
unsorted part `U`. -/
theorem forUp_bubbleSort (m : Memory) (k : Int) (size : Int) (tail : List (Option Nat)) :
    ∀ (c : Nat) (U S : List (Option Nat)), U.length = c + 1 →
      size = U.length + S.length → (∀ y ∈ U ++ S, m.record y ≠ none) →
      S.Pairwise (fun x y => m.key k x ≤ m.key k y) →
      (∀ u ∈ U, ∀ s ∈ S, m.key k u ≤ m.key k s) →
      ∃ R, forUp (fun i arr =>
          forUp (fun j arr => do
            let sw ← needSwap m arr k j
            if sw then swapAt arr j (j + 1) else some arr) 0 (size - i - 1).toNat arr)
          S.length c (U ++ S ++ tail) = some (R ++ tail) ∧
        R.Perm (U ++ S) ∧ R.Pairwise (fun x y => m.key k x ≤ m.key k y) ∧
        ((U ++ S).Pairwise (fun x y => m.key k x ≤ m.key k y) → R = U ++ S)
  | 0, U, S, hlen, _, _, hS, hUS => by
    refine ⟨U ++ S, rfl, List.Perm.refl _, ?_, fun _ => rfl⟩
    match U, hlen with
    | [u], _ =>
      exact List.pairwise_cons.2 ⟨fun s hs => hUS u (List.mem_singleton_self u) s hs, hS⟩
  | c + 1, U, S, hlen, hsize, hrec, hS, hUS => by
    match U, hlen with
    | a :: seg, hlen =>
      have hseg : seg.length = c + 1 := by simpa using hlen
      have hn : (size - (S.length : Int) - 1).toNat = seg.length := by
        rw [hsize]; simp
      obtain ⟨seg', mx, hrun, hperm, hmax, hsorted⟩ :=
        forUp_bubble m k (S ++ tail) seg [] a
          (fun y hy => hrec y (List.mem_append_left _ hy))
      have hlen' : seg'.length = c + 1 := by
        have := hperm.length_eq
        simp at this
        omega
      have hmxU : mx ∈ a :: seg := hperm.subset (by simp)
      have hsegU : ∀ y ∈ seg', y ∈ a :: seg := fun y hy =>
        hperm.subset (List.mem_append_left _ hy)
      obtain ⟨R, hrec', hpermR, hsortR, hsame⟩ :=
        forUp_bubbleSort m k size tail c seg' (mx :: S) hlen'
          (by rw [hsize]; simp [hlen']; omega)
          (fun y hy => by
            rcases List.mem_append.1 hy with h1 | h1
            · exact hrec y (List.mem_append_left _ (hsegU y h1))
            · rcases List.mem_cons.1 h1 with rfl | h1
              · exact hrec _ (List.mem_append_left _ hmxU)
              · exact hrec y (List.mem_append_right _ h1))
          (List.pairwise_cons.2 ⟨fun s hs => hUS mx hmxU s hs, hS⟩)
          (fun u hu s hs => by
            rcases List.mem_cons.1 hs with rfl | hs
            · exact hmax u hu
            · exact hUS u (hsegU u hu) s hs)
      have hmid : seg' ++ mx :: S = (seg' ++ [mx]) ++ S := by simp
      refine ⟨R, ?_, ?_, hsortR, ?_⟩
      · simp only [List.length_nil, List.nil_append, Option.bind_eq_bind, List.length_cons,
          List.append_assoc, List.cons_append] at hrun hrec' ⊢
        simp only [forUp, hn, hrun, Option.some_bind]
        exact hrec'
      · refine hpermR.trans ?_
        rw [hmid]
        exact List.Perm.append_right S hperm
      · intro hs
        have hU : (a :: seg).Pairwise (fun x y => m.key k x ≤ m.key k y) :=
          (List.pairwise_append.1 hs).1
        have heq := hsorted hU
        have : seg' ++ mx :: S = a :: seg ++ S := by rw [hmid, heq]
        rw [← this]
        exact hsame (by rw [this]; exact hs)

/-- The sorting loops of `reorder` return the array prefix sorted by the selected attribute;
a prefix that is sorted already is left as it is. -/
theorem sortArray_spec {m : Memory} {k : Int} {size : Int} {A tail : List (Option Nat)}
    (hsize : size = A.length) (hrec : ∀ y ∈ A, m.record y ≠ none) :
    ∃ R, sortArray m k size (A ++ tail) = some (R ++ tail) ∧ R.Perm A ∧
      R.Pairwise (fun x y => m.key k x ≤ m.key k y) ∧
      (A.Pairwise (fun x y => m.key k x ≤ m.key k y) → R = A) := by
  cases A with
  | nil =>
    refine ⟨[], ?_, List.Perm.refl _, List.Pairwise.nil, fun _ => rfl⟩
    simp [sortArray, hsize, forUp]
  | cons a A =>
    obtain ⟨R, hrun, hperm, hsort, hsame⟩ :=
      forUp_bubbleSort m k size tail A.length (a :: A) [] (by simp) (by rw [hsize]; simp)
        (by simpa using hrec) List.Pairwise.nil (fun _ _ _ h => by cases h)
    have hc : (size - 1).toNat = A.length := by rw [hsize]; simp
    refine ⟨R, ?_, by simpa using hperm, hsort, by simpa using hsame⟩
    simp only [List.length_nil, List.append_nil] at hrun
    simp only [sortArray, hc]
    exact hrun

/-! ## `reorder`: re-insertion and draining -/

theorem ids_cons {m : Memory} {a : Option Nat} {j : CPUJob} (h : m.record a = some j)
    (L : List (Option Nat)) : m.ids (a :: L) = j.jobID :: m.ids L := by
  simp [Memory.ids, records_cons h]

/-- The loop of `reorder` that enqueues the records of the sorted array into the new
queue (lines 290-294). -/
theorem forUp_reenqueue (tail : List (Option Nat)) :
    ∀ (seg pre : List (Option Nat)) (m : Memory) (qn : NovelQueue)
      (Ln An : List (Option Nat)), Represents m qn Ln An →
      qn.capacity = qn.NodePointers.length → 1 ≤ qn.capacity →
      (m.ids An).Pairwise (· < ·) → (∀ y ∈ seg, m.record y ≠ none) →
      (∀ y ∈ seg, y ∉ Ln) → (m.ids seg).Nodup → (∀ i ∈ m.ids seg, i ∉ m.ids An) →
      ∃ m' q' A' N, forUp (fun i (s : Memory × NovelQueue) => do
          let p ← (pre ++ seg ++ tail)[i]?
          if p = none then some s
          else do
            let n ← s.1.node p
            enqueue s.1 s.2 n.JobPointer) pre.length seg.length (m, qn) = some (m', q') ∧
        Represents m' q' (Ln ++ N) A' ∧
        q'.capacity = q'.NodePointers.length ∧ 1 ≤ q'.capacity ∧
        (m'.ids A').Pairwise (· < ·) ∧
        m'.records (Ln ++ N) = m.records Ln ++ m.records seg ∧
        (m'.records A').Perm (m.records An ++ m.records seg) ∧
        m'.jobs = m.jobs ∧ m.nodes.length ≤ m'.nodes.length ∧
        (∀ p, p ∉ Ln → (∀ a, p = some a → a < m.nodes.length) → m'.node p = m.node p) ∧
        (∀ y ∈ N, ∀ a, y = some a → m.nodes.length ≤ a)
  | [], pre, m, qn, Ln, An, hR, hcap, hpos, hs, _, _, _, _ =>
    ⟨m, qn, An, [], rfl, by simpa using hR, hcap, hpos, hs, by simp [Memory.records],
      by simp [Memory.records], rfl, Nat.le_refl _, fun _ _ _ => rfl, fun _ h => by cases h⟩
  | y :: seg, pre, m, qn, Ln, An, hR, hcap, hpos, hs, hrec, hdisj, hnd, hnew => by
    obtain ⟨j, hj⟩ := Option.ne_none_iff_exists'.1 (hrec y (List.mem_cons_self _ _))
    obtain ⟨n, hn, hjob⟩ := record_node hj
    have hyne : y ≠ none := fun e => by rw [e, node_none] at hn; cases hn
    rw [ids_cons hj] at hnd hnew
    obtain ⟨m₁, q₁, A₁, henq, hR₁, hcap₁, hpos₁, hs₁, hrecL₁, hperm₁, hjobs₁, hlen₁, hfr₁⟩ :=
      enqueue_represents hR hcap hpos hjob (hnew _ (List.mem_cons_self _ _)) hs
    have hkeep : ∀ z ∈ seg, m₁.record z = m.record z := fun z hz => by
      have hz' := hrec z (List.mem_cons_of_mem _ hz)
      exact record_congr hjobs₁
        (by rw [hfr₁ z (hdisj z (List.mem_cons_of_mem _ hz)) (record_lt hz')])
    have hids : m₁.ids seg = m.ids seg := by
      simp only [Memory.ids, records_congr hkeep]
    obtain ⟨m', q', A', N, hrun, hR', hcap', hpos', hs', hrecL', hperm', hjobs', hlen', hfr',
      hN'⟩ := forUp_reenqueue tail seg (pre ++ [y]) m₁ q₁ (Ln ++ [some m.nodes.length]) A₁
        hR₁ hcap₁ hpos₁ hs₁
        (fun z hz => by rw [hkeep z hz]; exact hrec z (List.mem_cons_of_mem _ hz))
        (fun z hz hmem => by
          rcases List.mem_append.1 hmem with h1 | h1
          · exact hdisj z (List.mem_cons_of_mem _ hz) h1
          · simp only [List.mem_singleton] at h1
            exact record_lt (hrec z (List.mem_cons_of_mem _ hz)) h1)
        (by rw [hids]; exact (List.nodup_cons.1 hnd).2)
        (fun i hi hmem => by
          rw [hids] at hi
          rcases (ids_perm hperm₁ i).1 hmem with h1 | h1
          · exact hnew i (List.mem_cons_of_mem _ hi) h1
          · simp only [List.map_cons, List.map_nil, List.mem_singleton] at h1
            exact (List.nodup_cons.1 hnd).1 (h1 ▸ hi))
    refine ⟨m', q', A', some m.nodes.length :: N, ?_, by simpa using hR', hcap', hpos', hs',
      ?_, ?_, hjobs'.trans hjobs₁, by omega, ?_, ?_⟩
    · simp only [List.length_append, List.length_singleton, List.append_assoc,
        List.singleton_append, List.cons_append, Option.bind_eq_bind, List.nil_append]
        at hrun ⊢
      simp only [forUp, List.length_cons, getElem?_at, Option.some_bind, if_neg hyne, hn,
        henq]
      exact hrun
    · have : Ln ++ some m.nodes.length :: N = Ln ++ [some m.nodes.length] ++ N := by simp
      rw [this, hrecL', hrecL₁, records_congr hkeep, records_cons hj]
      simp
    · refine hperm'.trans ?_
      rw [records_congr hkeep, records_cons hj]
      have := List.Perm.append_right (m.records seg) hperm₁
      simpa using this
    · intro p hp hlt
      have h1 : p ≠ some m.nodes.length := fun e => by
        have := hlt _ e; omega
      rw [hfr' p (by
        intro h
        rcases List.mem_append.1 h with h | h
        · exact hp h
        · simp only [List.mem_singleton] at h; exact h1 h)
        (fun a ha => by have := hlt a ha; omega)]
      exact hfr₁ p hp h1
    · intro z hz a ha
      rcases List.mem_cons.1 hz with rfl | hz
      · cases ha; exact Nat.le_refl _
      · have := hN' z hz a ha
        omega

/-- The loop `while (size > 0) this->dequeue();` empties a queue whose list has as many
nodes as the array has entries. -/
theorem drain_spec : ∀ (L A tail : List (Option Nat)) (m : Memory) (q : NovelQueue),
    Chain m q.front L → q.NodePointers = A ++ tail → q.size = A.length →
    A.length = L.length →
    ∃ m' q', drain A.length m q = some (m', q') ∧ q'.size = 0 ∧ q'.front = none ∧
      m'.jobs = m.jobs ∧ (∀ p, p ∉ L → m'.node p = m.node p)
  | [], A, tail, m, q, hc, _, hsize, hlen => by
    have hA : A = [] := List.length_eq_zero.1 (by simpa using hlen)
    subst hA
    exact ⟨m, q, rfl, by simpa using hsize, hc, rfl, fun _ _ => rfl⟩
  | a :: L, A, tail, m, q, hc, harr, hsize, hlen => by
    match A, hlen with
    | x :: A, hlen =>
      have hfront : q.front ≠ none := Chain.head_ne_none hc
      obtain ⟨n, m₁, q₁, tail₁, _, hdq, _, hc₁, harr₁, hsize₁, hjobs₁, _, _, hfr₁, _⟩ :=
        dequeue_spec hc harr (by simpa using hsize)
      obtain ⟨m', q', hdr, hs', hf', hj', hfr'⟩ :=
        drain_spec L A tail₁ m₁ q₁ hc₁ harr₁ hsize₁ (by simpa using hlen)
      refine ⟨m', q', ?_, hs', hf', hj'.trans hjobs₁, ?_⟩
      · simp only [List.length_cons, drain, if_neg hfront, hdq, Option.bind_eq_bind,
          Option.some_bind]
        exact hdr
      · intro p hp
        rw [hfr' p (fun h => hp (List.mem_cons_of_mem _ h)),
          hfr₁ p (fun e => hp (by rw [e]; exact List.mem_cons_self _ _))]

theorem key_eq_attr {m : Memory} {k : Int} {p : Option Nat} {j : CPUJob}
    (h : m.record p = some j) : m.key k p = j.attr k := by
  simp [Memory.key, h]

theorem records_pairwise_attr {m : Memory} {k : Int} :
    ∀ {S : List (Option Nat)}, (∀ y ∈ S, m.record y ≠ none) →
      S.Pairwise (fun x y => m.key k x ≤ m.key k y) →
      (m.records S).Pairwise (fun a b => a.attr k ≤ b.attr k)
  | [], _, _ => List.Pairwise.nil
  | x :: S, hrec, hs => by
    obtain ⟨j, hj⟩ := Option.ne_none_iff_exists'.1 (hrec x (List.mem_cons_self _ _))
    obtain ⟨hx, hS⟩ := List.pairwise_cons.1 hs
    rw [records_cons hj]
    refine List.pairwise_cons.2 ⟨fun b hb => ?_,
      records_pairwise_attr (fun y hy => hrec y (List.mem_cons_of_mem _ hy)) hS⟩
    obtain ⟨y, hy, hyb⟩ := mem_records.1 hb
    have := hx y hy
    rwa [key_eq_attr hj, key_eq_attr hyb] at this

/-- The effect of `reorder` on a well-formed queue with pairwise distinct ids.  `S` is the
array after the sort.  The list of the returned queue `r` holds the records of `S` in that
order, the array of `r` holds them in ascending order of id, and the queue `reorder` was
called on is left empty. -/
theorem reorder_spec {m : Memory} {q : NovelQueue} {k : Int} {L A : List (Option Nat)}
    (hR : Represents m q L A) (hids : (m.ids A).Nodup) :
    ∃ m' q' r S arr, reorder m q k = some (m', q', r) ∧
      S.Perm A ∧ S.Pairwise (fun x y => m.key k x ≤ m.key k y) ∧
      (A.Pairwise (fun x y => m.key k x ≤ m.key k y) → S = A) ∧
      display m' r = some (m.records S) ∧
      listJobs m' r = some arr ∧ arr.Perm (m.records S) ∧
      arr.Pairwise (fun a b => a.jobID < b.jobID) ∧
      count r = A.length ∧ q'.size = 0 ∧ q'.front = none ∧ m'.jobs = m.jobs := by
  obtain ⟨tail, harr⟩ := hR.array
  obtain ⟨S, hsort, hpermS, hsortedS, hsame⟩ :=
    @sortArray_spec m k q.size A tail hR.size hR.records
  have hrecS : ∀ y ∈ S, m.record y ≠ none := fun y hy => hR.records y (hpermS.subset hy)
  have hidsS : (m.ids S).Nodup := by
    have : (m.ids S).Perm (m.ids A) := (hpermS.filterMap _).map _
    exact this.nodup_iff.2 hids
  have hlenS : S.length = A.length := hpermS.length_eq
  -- re-insertion into the new queue
  obtain ⟨m₁, r, A', N, hloop, hR₁, _, _, hs₁, hrecN, hpermA', hjobs₁, _, hfr₁, hN⟩ :=
    forUp_reenqueue tail S [] m NovelQueue.new [] [] (represents_new m) rfl (by decide)
      List.Pairwise.nil hrecS (fun _ _ h => by cases h) hidsS
      (fun _ _ h => by simp [Memory.ids, Memory.records] at h)
  simp only [List.nil_append, List.length_nil] at hloop hR₁ hrecN hpermA'
  have hrecN' : m₁.records N = m.records S := by simpa [Memory.records] using hrecN
  have hpermA'' : (m₁.records A').Perm (m.records S) := by
    simpa [Memory.records] using hpermA'
  -- the nodes of the old queue are untouched, the new nodes are fresh
  have hLlt : ∀ p ∈ L, ∀ a, p = some a → a < m.nodes.length := fun p hp a ha => by
    obtain ⟨n, hn⟩ := Chain.mem_node hR.chain p hp
    obtain ⟨b, hb, hlt⟩ := node_lt hn
    rw [ha] at hb; cases hb; exact hlt
  have hc₁ : Chain m₁ q.front L :=
    Chain.congr (fun p hp => hfr₁ p (fun h => by cases h) (hLlt p hp)) hR.chain
  have hNL : ∀ y ∈ N, y ∉ L := fun y hy hL => by
    obtain ⟨n, hn⟩ := Chain.mem_node hR₁.chain y hy
    obtain ⟨a, ha, _⟩ := node_lt hn
    have h1 := hN y hy a ha
    have h2 := hLlt y hL a ha
    omega
  -- draining the old queue
  obtain ⟨m₂, q₂, hdrain, hsize₂, hfront₂, hjobs₂, hfr₂⟩ :=
    drain_spec L S tail m₁ { q with NodePointers := S ++ tail } hc₁ rfl
      (by simp only []; rw [hR.size, hlenS])
      (by rw [hlenS]; exact hR.perm.length_eq)
  have hkeepN : ∀ y ∈ N, m₂.record y = m₁.record y := fun y hy =>
    record_congr hjobs₂ (by rw [hfr₂ y (hNL y hy)])
  have hchain₂ : Chain m₂ r.front N :=
    Chain.congr (fun y hy => hfr₂ y (hNL y hy)) hR₁.chain
  have hrecsN : ∀ y ∈ N, m₂.record y ≠ none := fun y hy => by
    rw [hkeepN y hy]; exact hR₁.records y (hR₁.perm.symm.subset hy)
  have hkeepA : ∀ y ∈ A', m₂.record y = m₁.record y := fun y hy =>
    hkeepN y (hR₁.perm.subset hy)
  obtain ⟨tail', harr'⟩ := hR₁.array
  refine ⟨m₂, q₂, r, S, m₁.records A', ?_, hpermS, hsortedS, hsame, ?_, ?_, hpermA'', ?_, ?_,
    hsize₂, hfront₂, hjobs₂.trans hjobs₁⟩
  · have hsz : q.size.toNat = S.length := by
      have := hR.size; omega
    simp only [Option.bind_eq_bind] at hloop
    simp only [reorder, harr, hsort, Option.bind_eq_bind, Option.some_bind, hsz, hloop,
      hdrain]
    rfl
  · rw [← hrecN', ← records_congr hkeepN]
    exact display_spec hchain₂ hrecsN
  · rw [← records_congr hkeepA]
    exact listJobs_spec harr' hR₁.size (fun y hy => by
      rw [hkeepA y hy]; exact hR₁.records y hy)
  · simpa [Memory.ids, List.pairwise_map] using hs₁
  · have h1 : A'.length = N.length := hR₁.perm.length_eq
    have h2 : (m₁.records N).length = N.length :=
      records_length fun y hy => hR₁.records y (hR₁.perm.symm.subset hy)
    have h3 : (m.records S).length = S.length := records_length hrecS
    rw [count, hR₁.size, h1, ← h2, hrecN', h3, hlenS]

/-- Claim C9. For every well-formed queue (the array and the linked list hold the same
nodes, every node has a record, no two records share an id) and every `attribute_index`,
`reorder` returns, and the logical order `display` shows for the returned queue is a
permutation of the records `display` shows for the original queue and is non-decreasing
in the selected attribute: `jobID` for 1, `priority` for 2, `cpu_time_consumed` for 3. -/
theorem reorder_sorts_logical_order (m : Memory) (q : NovelQueue) (attribute_index : Int)
    (L A : List (Option Nat)) (hR : Represents m q L A) (hids : (m.ids A).Nodup) :
    ∃ m' q' r orig ds, display m q = some orig ∧
      reorder m q attribute_index = some (m', q', r) ∧ display m' r = some ds ∧
      ds.Perm orig ∧
      (attribute_index = 1 → ds.Pairwise (fun a b => a.jobID ≤ b.jobID)) ∧
      (attribute_index = 2 → ds.Pairwise (fun a b => a.priority ≤ b.priority)) ∧
      (attribute_index = 3 →
        ds.Pairwise (fun a b => a.cpu_time_consumed ≤ b.cpu_time_consumed)) := by
  obtain ⟨m', q', r, S, arr, hre, hperm, hsorted, _, hdisp, _, _, _, _, _, _, _⟩ :=
    @reorder_spec m q attribute_index L A hR hids
  have hrecL : ∀ y ∈ L, m.record y ≠ none := fun y hy =>
    hR.records y (hR.perm.symm.subset hy)
  have hrecS : ∀ y ∈ S, m.record y ≠ none := fun y hy => hR.records y (hperm.subset hy)
  have hattr := records_pairwise_attr hrecS hsorted
  refine ⟨m', q', r, m.records L, m.records S, display_spec hR.chain hrecL, hre, hdisp,
    (hperm.trans hR.perm).filterMap _, ?_, ?_, ?_⟩
  · intro h; subst h
    simpa [CPUJob.attr] using hattr
  · intro h; subst h
    simpa [CPUJob.attr] using hattr
  · intro h; subst h
    simpa [CPUJob.attr] using hattr

/-- The theorem `reorder_sorts_logical_order` on the queue built by enqueueing the ids 5, 3
and 8 (priorities 1, 9 and 4), for `reorder(2)`. -/
theorem reorder_sorts_logical_order_witness :
    ∃ m' q' r orig ds,
      display
        { jobs := [⟨5, 1, 1, 0, 0⟩, ⟨3, 9, 1, 0, 0⟩, ⟨8, 4, 1, 0, 0⟩],
          nodes := [some ⟨some 0, some 1, 0⟩, some ⟨some 1, some 2, 0⟩,
            some ⟨some 2, none, 0⟩] }
        { front := some 0, NodePointers := [some 1, some 0, some 2] ++ List.replicate 7 none,
          size := 3, capacity := 10 } = some orig ∧
      reorder
        { jobs := [⟨5, 1, 1, 0, 0⟩, ⟨3, 9, 1, 0, 0⟩, ⟨8, 4, 1, 0, 0⟩],
          nodes := [some ⟨some 0, some 1, 0⟩, some ⟨some 1, some 2, 0⟩,
            some ⟨some 2, none, 0⟩] }
        { front := some 0, NodePointers := [some 1, some 0, some 2] ++ List.replicate 7 none,
          size := 3, capacity := 10 } 2 = some (m', q', r) ∧
      display m' r = some ds ∧ ds.Perm orig ∧
      ((2 : Int) = 1 → ds.Pairwise (fun a b => a.jobID ≤ b.jobID)) ∧
      ((2 : Int) = 2 → ds.Pairwise (fun a b => a.priority ≤ b.priority)) ∧
      ((2 : Int) = 3 → ds.Pairwise (fun a b => a.cpu_time_consumed ≤ b.cpu_time_consumed)) :=
  reorder_sorts_logical_order
    { jobs := [⟨5, 1, 1, 0, 0⟩, ⟨3, 9, 1, 0, 0⟩, ⟨8, 4, 1, 0, 0⟩],
      nodes := [some ⟨some 0, some 1, 0⟩, some ⟨some 1, some 2, 0⟩, some ⟨some 2, none, 0⟩] }
    { front := some 0, NodePointers := [some 1, some 0, some 2] ++ List.replicate 7 none,
      size := 3, capacity := 10 } 2
    [some 0, some 1, some 2] [some 1, some 0, some 2]
    { chain := ⟨rfl, ⟨some 0, some 1, 0⟩, rfl, rfl, ⟨some 1, some 2, 0⟩, rfl, rfl,
        ⟨some 2, none, 0⟩, rfl, rfl⟩
      array := ⟨List.replicate 7 none, rfl⟩
      size := rfl
      perm := by decide
      records := by decide }
    (by decide)

/-- Claim C10, as stated, fails. For the queue built by enqueueing the ids 1 and 2 with
priorities 5 and 3, the queue returned by `reorder(2)` has the logical order
`[2, 1]` (ascending priority) but the array order `[1, 2]`, which `listJobs` prints: the
two orders differ and the array order is not non-decreasing in priority. -/
theorem reorder_array_order_counterexample :
    ∃ m q m' q' r,
      enqueueAll { jobs := [⟨1, 5, 1, 0, 0⟩, ⟨2, 3, 1, 0, 0⟩], nodes := [] } NovelQueue.new
        [some 0, some 1] = some (m, q) ∧
      reorder m q 2 = some (m', q', r) ∧
      display m' r = some [⟨2, 3, 1, 0, 0⟩, ⟨1, 5, 1, 0, 0⟩] ∧
      listJobs m' r = some [⟨1, 5, 1, 0, 0⟩, ⟨2, 3, 1, 0, 0⟩] ∧
      listJobs m' r ≠ display m' r ∧
      ¬ ([(⟨1, 5, 1, 0, 0⟩ : CPUJob), ⟨2, 3, 1, 0, 0⟩].Pairwise
          (fun a b => a.priority ≤ b.priority)) :=
  ⟨{ jobs := [⟨1, 5, 1, 0, 0⟩, ⟨2, 3, 1, 0, 0⟩],
     nodes := [some ⟨some 0, some 1, 0⟩, some ⟨some 1, none, 0⟩] },
   { front := some 0,
     NodePointers := [some 0, some 1, none, none, none, none, none, none, none, none],
     size := 2, capacity := 10 },
   { jobs := [⟨1, 5, 1, 0, 0⟩, ⟨2, 3, 1, 0, 0⟩],
     nodes := [none, none, some ⟨some 1, some 3, 0⟩, some ⟨some 0, none, 0⟩] },
   { front := none, NodePointers := [some 0, none, none, none, none], size := 0,
     capacity := 5 },
   { front := some 2,
     NodePointers := [some 3, some 2, none, none, none, none, none, none, none, none],
     size := 2, capacity := 10 },
   by decide, by decide, by decide, by decide, by decide, by decide⟩

/-- Claim C10, amended. For every queue built by `enqueue` calls with pairwise distinct ids,
`reorder(2)` returns a queue whose logical order (what `display` prints) is non-decreasing
in `priority` and whose array order (what `listJobs` prints) is strictly ascending in
`jobID`; both orders hold exactly the records that were enqueued. -/
theorem reorder_priority_logical_id_array (m₀ : Memory) (ps : List (Option Nat))
    (js : List CPUJob) (hjobs : List.Forall₂ (fun p j => m₀.job p = some j) ps js)
    (hids : (js.map CPUJob.jobID).Nodup) :
    ∃ m q m' q' r ds arr, enqueueAll m₀ NovelQueue.new ps = some (m, q) ∧
      reorder m q 2 = some (m', q', r) ∧
      display m' r = some ds ∧ listJobs m' r = some arr ∧
      ds.Perm js ∧ ds.Pairwise (fun a b => a.priority ≤ b.priority) ∧
      arr.Perm js ∧ arr.Pairwise (fun a b => a.jobID < b.jobID) := by
  obtain ⟨m, q, A, N, hall, hR, _, _, hs, _, hperm, _, _, _⟩ :=
    enqueueAll_spec ps js m₀ NovelQueue.new [] [] (represents_new m₀) rfl
      (by decide) List.Pairwise.nil hjobs hids
      (fun _ _ h => by simp [Memory.ids, Memory.records] at h)
  simp only [List.nil_append] at hR
  have hpermA : (m.records A).Perm js := by simpa [Memory.records] using hperm
  have hnd : (m.ids A).Nodup := hs.imp (fun h => ne_of_lt h)
  obtain ⟨m', q', r, S, arr, hre, hpermS, hsorted, _, hdisp, hlist, hpermArr, hsortArr, _, _,
    _, _⟩ := @reorder_spec m q 2 N A hR hnd
  have hrecS : ∀ y ∈ S, m.record y ≠ none := fun y hy => hR.records y (hpermS.subset hy)
  have hS : (m.records S).Perm js := (hpermS.filterMap _).trans hpermA
  refine ⟨m, q, m', q', r, m.records S, arr, hall, hre, hdisp, hlist, hS, ?_,
    hpermArr.trans hS, hsortArr⟩
  simpa [CPUJob.attr] using records_pairwise_attr hrecS hsorted

/-- The theorem `reorder_priority_logical_id_array` for the jobs with ids 1 and 2 and
priorities 5 and 3. -/
theorem reorder_priority_logical_id_array_witness :
    ∃ m q m' q' r ds arr,
      enqueueAll { jobs := [⟨1, 5, 1, 0, 0⟩, ⟨2, 3, 1, 0, 0⟩], nodes := [] } NovelQueue.new
        [some 0, some 1] = some (m, q) ∧
      reorder m q 2 = some (m', q', r) ∧
      display m' r = some ds ∧ listJobs m' r = some arr ∧
      ds.Perm [⟨1, 5, 1, 0, 0⟩, ⟨2, 3, 1, 0, 0⟩] ∧
      ds.Pairwise (fun a b => a.priority ≤ b.priority) ∧
      arr.Perm [⟨1, 5, 1, 0, 0⟩, ⟨2, 3, 1, 0, 0⟩] ∧
      arr.Pairwise (fun a b => a.jobID < b.jobID) :=
  reorder_priority_logical_id_array
    { jobs := [⟨1, 5, 1, 0, 0⟩, ⟨2, 3, 1, 0, 0⟩], nodes := [] }
    [some 0, some 1] [⟨1, 5, 1, 0, 0⟩, ⟨2, 3, 1, 0, 0⟩]
    (List.Forall₂.cons rfl (List.Forall₂.cons rfl List.Forall₂.nil)) (by decide)

/-! ## Scenarios and failure cases -/

/-- Claim C11. After `enqueue` of the ids 2 and 1 and `promote(2, 0)` the list from `front`
has one node while `size` is 2.  `reorder(1)` on that queue has no result: after the sort
and the re-insertion, the first `dequeue` of the loop `while (size > 0) this->dequeue();`
leaves `front` null and `size` 1, and from then on `dequeue` returns at its guard without
changing anything, so the loop never ends. -/
theorem reorder_drain_never_ends :
    ∃ m q m₁ q₁ m₂ q₂ r,
      run { jobs := [⟨2, 1, 1, 0, 0⟩, ⟨1, 2, 1, 0, 0⟩], nodes := [] } NovelQueue.new
        [Op.enqueue (some 0), Op.enqueue (some 1), Op.promote 2 0] = some (m, q) ∧
      reorder m q 1 = none ∧
      sortArray m 1 q.size q.NodePointers = some q.NodePointers ∧
      enqueueAll m NovelQueue.new [some 1, some 0] = some (m₁, q₁) ∧
      drain q.size.toNat m₁ q = none ∧
      dequeue m₁ q = some (m₂, q₂, r) ∧ count q₂ = 1 ∧ q₂.front = none ∧
      dequeue m₂ q₂ = some (m₂, q₂, none) :=
  ⟨{ jobs := [⟨2, 1, 1, 0, 0⟩, ⟨1, 2, 1, 0, 0⟩],
     nodes := [some ⟨some 0, none, 0⟩, some ⟨some 1, some 0, 0⟩] },
   { front := some 0,
     NodePointers := [some 1, some 0, none, none, none, none, none, none, none, none],
     size := 2, capacity := 10 },
   { jobs := [⟨2, 1, 1, 0, 0⟩, ⟨1, 2, 1, 0, 0⟩],
     nodes := [some ⟨some 0, none, 0⟩, some ⟨some 1, some 0, 0⟩,
       some ⟨some 1, some 3, 0⟩, some ⟨some 0, none, 0⟩] },
   { front := some 2,
     NodePointers := [some 2, some 3, none, none, none, none, none, none, none, none],
     size := 2, capacity := 10 },
   { jobs := [⟨2, 1, 1, 0, 0⟩, ⟨1, 2, 1, 0, 0⟩],
     nodes := [none, some ⟨some 1, some 0, 0⟩, some ⟨some 1, some 3, 0⟩,
       some ⟨some 0, none, 0⟩] },
   { front := none, NodePointers := [some 0, none, none, none, none], size := 1,
     capacity := 5 },
   some 0,
   by decide, by decide, by decide, by decide, by decide, by decide, by decide, by decide,
   by decide⟩

/-- Claim C12, as stated, fails.  After `enqueue` of the ids 5, 3 and 8 the array order is
`[3, 5, 8]`, but `dequeue` returns the job with id 5, the head of the linked list, not the
job with id 3. -/
theorem scenario_dequeue_counterexample :
    ∃ m q m' q' r,
      run { jobs := [⟨5, 1, 1, 0, 0⟩, ⟨3, 2, 1, 0, 0⟩, ⟨8, 3, 1, 0, 0⟩], nodes := [] }
        NovelQueue.new [Op.enqueue (some 0), Op.enqueue (some 1), Op.enqueue (some 2)]
        = some (m, q) ∧
      listJobs m q = some [⟨3, 2, 1, 0, 0⟩, ⟨5, 1, 1, 0, 0⟩, ⟨8, 3, 1, 0, 0⟩] ∧
      dequeue m q = some (m', q', r) ∧
      m.job r = some ⟨5, 1, 1, 0, 0⟩ ∧ m.job r ≠ some ⟨3, 2, 1, 0, 0⟩ :=
  ⟨{ jobs := [⟨5, 1, 1, 0, 0⟩, ⟨3, 2, 1, 0, 0⟩, ⟨8, 3, 1, 0, 0⟩],
     nodes := [some ⟨some 0, some 1, 0⟩, some ⟨some 1, some 2, 0⟩, some ⟨some 2, none, 0⟩] },
   { front := some 0,
     NodePointers := [some 1, some 0, some 2, none, none, none, none, none, none, none],
     size := 3, capacity := 10 },
   { jobs := [⟨5, 1, 1, 0, 0⟩, ⟨3, 2, 1, 0, 0⟩, ⟨8, 3, 1, 0, 0⟩],
     nodes := [none, some ⟨some 1, some 2, 0⟩, some ⟨some 2, none, 0⟩] },
   { front := some 1, NodePointers := [some 0, some 2, none, none, none], size := 2,
     capacity := 5 },
   some 0,
   by decide, by decide, by decide, by decide, by decide⟩

/-- Claim C12, amended.  Starting from a new empty queue, `enqueue` of records with the ids
5, 3 and 8 (any other fields) gives the array order `[3, 5, 8]` and the logical order
`[5, 3, 8]`; one `dequeue` then returns the record with id 5, the first one enqueued, and
leaves the logical order `[3, 8]` and `count()` 2. -/
theorem scenario_enqueue_dequeue (p₁ t₁ c₁ x₁ p₂ t₂ c₂ x₂ p₃ t₃ c₃ x₃ : Int) :
    ∃ m q m' q' r,
      run { jobs := [⟨5, p₁, t₁, c₁, x₁⟩, ⟨3, p₂, t₂, c₂, x₂⟩, ⟨8, p₃, t₃, c₃, x₃⟩],
            nodes := [] }
        NovelQueue.new [Op.enqueue (some 0), Op.enqueue (some 1), Op.enqueue (some 2)]
        = some (m, q) ∧
      listJobs m q = some [⟨3, p₂, t₂, c₂, x₂⟩, ⟨5, p₁, t₁, c₁, x₁⟩, ⟨8, p₃, t₃, c₃, x₃⟩] ∧
      display m q = some [⟨5, p₁, t₁, c₁, x₁⟩, ⟨3, p₂, t₂, c₂, x₂⟩, ⟨8, p₃, t₃, c₃, x₃⟩] ∧
      dequeue m q = some (m', q', r) ∧
      m.job r = some ⟨5, p₁, t₁, c₁, x₁⟩ ∧
      display m' q' = some [⟨3, p₂, t₂, c₂, x₂⟩, ⟨8, p₃, t₃, c₃, x₃⟩] ∧
      count q' = 2 :=
  ⟨{ jobs := [⟨5, p₁, t₁, c₁, x₁⟩, ⟨3, p₂, t₂, c₂, x₂⟩, ⟨8, p₃, t₃, c₃, x₃⟩],
     nodes := [some ⟨some 0, some 1, 0⟩, some ⟨some 1, some 2, 0⟩, some ⟨some 2, none, 0⟩] },
   { front := some 0,
     NodePointers := [some 1, some 0, some 2, none, none, none, none, none, none, none],
     size := 3, capacity := 10 },
   { jobs := [⟨5, p₁, t₁, c₁, x₁⟩, ⟨3, p₂, t₂, c₂, x₂⟩, ⟨8, p₃, t₃, c₃, x₃⟩],
     nodes := [none, some ⟨some 1, some 2, 0⟩, some ⟨some 2, none, 0⟩] },
   { front := some 1, NodePointers := [some 0, some 2, none, none, none], size := 2,
     capacity := 5 },
   some 0,
   rfl, rfl, rfl, rfl, rfl, rfl, rfl⟩

/-- Claim C13. The call `dequeue` on an empty queue (`front` null, `size` 0) returns the
null pointer and leaves the memory and the queue as they were: `size` stays 0, `front`
stays null and `capacity` is unchanged. -/
theorem dequeue_on_empty_queue (m : Memory) (q : NovelQueue) (hfront : q.front = none)
    (hsize : q.size = 0) :
    ∃ m' q' r, dequeue m q = some (m', q', r) ∧ r = none ∧ m' = m ∧ q' = q ∧
      count q' = 0 ∧ q'.front = none ∧ q'.capacity = q.capacity :=
  ⟨m, q, none, dequeue_empty m q hfront, rfl, rfl, rfl, hsize, hfront, rfl⟩

/-- The theorem `dequeue_on_empty_queue` on a new queue. -/
theorem dequeue_on_empty_queue_witness :
    ∃ m' q' r, dequeue { jobs := [⟨5, 1, 1, 0, 0⟩], nodes := [] } NovelQueue.new
        = some (m', q', r) ∧
      r = none ∧ m' = { jobs := [⟨5, 1, 1, 0, 0⟩], nodes := [] } ∧ q' = NovelQueue.new ∧
      count q' = 0 ∧ q'.front = none ∧ q'.capacity = NovelQueue.new.capacity :=
  dequeue_on_empty_queue { jobs := [⟨5, 1, 1, 0, 0⟩], nodes := [] } NovelQueue.new rfl rfl

/-- Claim C15. On the queue that holds the single id 5, `promote(7, 1)` finds no entry with
id 7, so `jobIndex` stays -1, and the statement `nodeToPromote = NodePointers[jobIndex]`
reads the array at index -1, outside its allocation: the call has no defined result. -/
theorem promote_absent_id_reads_out_of_bounds :
    ∃ m q,
      run { jobs := [⟨5, 1, 1, 0, 0⟩], nodes := [] } NovelQueue.new [Op.enqueue (some 0)]
        = some (m, q) ∧
      findIndex m q.NodePointers 7 0 q.size.toNat = some (-1) ∧
      readAt q.NodePointers (-1) = none ∧
      promote m q 7 1 = none :=
  ⟨{ jobs := [⟨5, 1, 1, 0, 0⟩], nodes := [some ⟨some 0, none, 0⟩] },
   { front := some 0,
     NodePointers := [some 0, none, none, none, none, none, none, none, none, none],
     size := 1, capacity := 10 },
   by decide, by decide, by decide, by decide⟩

/-- Claim C20. On the queue built by `enqueue` of the ids 1, 2 and 3 (array entries the
nodes 0, 1, 2): `promote(1, -1)` writes the node of id 1 over the entry of id 2, so the
array becomes nodes 0, 0, 2 and is no permutation of its previous entries;
`promote(1, -5)` writes the node of id 1 at index 5, which is not below `size` 3; and
`promote(1, -10)` writes at index 10, outside the allocation of 10 slots, and has no
defined result. -/
theorem promote_negative_positions :
    ∃ m q m₁ q₁ m₂ q₂,
      run { jobs := [⟨1, 1, 1, 0, 0⟩, ⟨2, 2, 1, 0, 0⟩, ⟨3, 3, 1, 0, 0⟩], nodes := [] }
        NovelQueue.new [Op.enqueue (some 0), Op.enqueue (some 1), Op.enqueue (some 2)]
        = some (m, q) ∧
      q.NodePointers.take 3 = [some 0, some 1, some 2] ∧
      promote m q 1 (-1) = some (m₁, q₁) ∧
      q₁.NodePointers.take 3 = [some 0, some 0, some 2] ∧
      ¬ (q₁.NodePointers.take 3).Perm (q.NodePointers.take 3) ∧
      promote m q 1 (-5) = some (m₂, q₂) ∧
      q₂.NodePointers[5]? = some (some 0) ∧ q.NodePointers[5]? = some none ∧
      ¬ ((5 : Int) < q₂.size) ∧
      promote m q 1 (-10) = none :=
  ⟨{ jobs := [⟨1, 1, 1, 0, 0⟩, ⟨2, 2, 1, 0, 0⟩, ⟨3, 3, 1, 0, 0⟩],
     nodes := [some ⟨some 0, some 1, 0⟩, some ⟨some 1, some 2, 0⟩, some ⟨some 2, none, 0⟩] },
   { front := some 0,
     NodePointers := [some 0, some 1, some 2, none, none, none, none, none, none, none],
     size := 3, capacity := 10 },
   { jobs := [⟨1, 1, 1, 0, 0⟩, ⟨2, 2, 1, 0, 0⟩, ⟨3, 3, 1, 0, 0⟩],
     nodes := [some ⟨some 0, some 2, 0⟩, some ⟨some 1, some 2, 0⟩, some ⟨some 2, none, 0⟩] },
   { front := some 0,
     NodePointers := [some 0, some 0, some 2, none, none, none, none, none, none, none],
     size := 3, capacity := 10 },
   { jobs := [⟨1, 1, 1, 0, 0⟩, ⟨2, 2, 1, 0, 0⟩, ⟨3, 3, 1, 0, 0⟩],
     nodes := [some ⟨some 0, some 1, 0⟩, some ⟨some 1, some 2, 0⟩, some ⟨some 2, none, 0⟩] },
   { front := some 0,
     NodePointers := [some 0, some 1, some 2, none, none, some 0, none, none, none, none],
     size := 3, capacity := 10 },
   by decide, by decide, by decide, by decide, by decide, by decide, by decide, by decide,
   by decide, by decide⟩

/-- Claim C16, as stated, fails.  For the queue built by `enqueue` of the ids 5 and 3, whose
logical order is `[5, 3]`, the queue returned by `reorder(7)` has the logical order
`[3, 5]`: the records are re-inserted in the order of the array, which is ascending in
id. -/
theorem reorder_other_index_counterexample :
    ∃ m q m' q' r,
      enqueueAll { jobs := [⟨5, 1, 1, 0, 0⟩, ⟨3, 2, 1, 0, 0⟩], nodes := [] } NovelQueue.new
        [some 0, some 1] = some (m, q) ∧
      display m q = some [⟨5, 1, 1, 0, 0⟩, ⟨3, 2, 1, 0, 0⟩] ∧
      reorder m q 7 = some (m', q', r) ∧
      display m' r = some [⟨3, 2, 1, 0, 0⟩, ⟨5, 1, 1, 0, 0⟩] ∧
      display m' r ≠ display m q :=
  ⟨{ jobs := [⟨5, 1, 1, 0, 0⟩, ⟨3, 2, 1, 0, 0⟩],
     nodes := [some ⟨some 0, some 1, 0⟩, some ⟨some 1, none, 0⟩] },
   { front := some 0,
     NodePointers := [some 1, some 0, none, none, none, none, none, none, none, none],
     size := 2, capacity := 10 },
   { jobs := [⟨5, 1, 1, 0, 0⟩, ⟨3, 2, 1, 0, 0⟩],
     nodes := [none, none, some ⟨some 1, some 3, 0⟩, some ⟨some 0, none, 0⟩] },
   { front := none, NodePointers := [some 0, none, none, none, none], size := 0,
     capacity := 5 },
   { front := some 2,
     NodePointers := [some 2, some 3, none, none, none, none, none, none, none, none],
     size := 2, capacity := 10 },
   by decide, by decide, by decide, by decide, by decide⟩

/-- Claim C16, amended.  For every queue built by `enqueue` calls with pairwise distinct ids
and every `attribute_index` other than 1, 2 and 3, `reorder` returns a queue whose logical
order (what `display` prints) is the array order of the original queue (what `listJobs`
printed before the call): the enqueued records in strictly ascending order of `jobID`. -/
theorem reorder_other_index_keeps_array_order (m₀ : Memory) (ps : List (Option Nat))
    (js : List CPUJob) (attribute_index : Int)
    (hjobs : List.Forall₂ (fun p j => m₀.job p = some j) ps js)
    (hids : (js.map CPUJob.jobID).Nodup)
    (hattr : attribute_index ≠ 1 ∧ attribute_index ≠ 2 ∧ attribute_index ≠ 3) :
    ∃ m q m' q' r ds, enqueueAll m₀ NovelQueue.new ps = some (m, q) ∧
      listJobs m q = some ds ∧
      reorder m q attribute_index = some (m', q', r) ∧
      display m' r = some ds ∧
      ds.Perm js ∧ ds.Pairwise (fun a b => a.jobID < b.jobID) := by
  obtain ⟨m, q, A, N, hall, hR, _, _, hs, _, hperm, _, _, _⟩ :=
    enqueueAll_spec ps js m₀ NovelQueue.new [] [] (represents_new m₀) rfl
      (by decide) List.Pairwise.nil hjobs hids
      (fun _ _ h => by simp [Memory.ids, Memory.records] at h)
  simp only [List.nil_append] at hR
  have hpermA : (m.records A).Perm js := by simpa [Memory.records] using hperm
  have hnd : (m.ids A).Nodup := hs.imp (fun h => ne_of_lt h)
  obtain ⟨m', q', r, S, arr, hre, _, _, hsame, hdisp, _, _, _, _, _, _, _⟩ :=
    @reorder_spec m q attribute_index N A hR hnd
  have hkey : ∀ x, m.key attribute_index x = 0 := fun x => by
    obtain ⟨h1, h2, h3⟩ := hattr
    cases hx : m.record x with
    | none => simp [Memory.key, hx]
    | some j => simp [Memory.key, hx, CPUJob.attr, h1, h2, h3]
  have hSA : S = A := hsame (by
    have : ∀ x y : Option Nat, m.key attribute_index x ≤ m.key attribute_index y :=
      fun x y => by rw [hkey x, hkey y]
    exact List.pairwise_of_forall this)
  obtain ⟨tail, harr⟩ := hR.array
  refine ⟨m, q, m', q', r, m.records A, hall, listJobs_spec harr hR.size hR.records, hre,
    by rw [← hSA]; exact hdisp, hpermA, ?_⟩
  simpa [Memory.ids, List.pairwise_map] using hs

/-- The theorem `reorder_other_index_keeps_array_order` for the jobs with ids 5 and 3 and
`reorder(7)`. -/
theorem reorder_other_index_keeps_array_order_witness :
    ∃ m q m' q' r ds,
      enqueueAll { jobs := [⟨5, 1, 1, 0, 0⟩, ⟨3, 2, 1, 0, 0⟩], nodes := [] } NovelQueue.new
        [some 0, some 1] = some (m, q) ∧
      listJobs m q = some ds ∧
      reorder m q 7 = some (m', q', r) ∧
      display m' r = some ds ∧
      ds.Perm [⟨5, 1, 1, 0, 0⟩, ⟨3, 2, 1, 0, 0⟩] ∧
      ds.Pairwise (fun a b => a.jobID < b.jobID) :=
  reorder_other_index_keeps_array_order
    { jobs := [⟨5, 1, 1, 0, 0⟩, ⟨3, 2, 1, 0, 0⟩], nodes := [] }
    [some 0, some 1] [⟨5, 1, 1, 0, 0⟩, ⟨3, 2, 1, 0, 0⟩] 7
    (List.Forall₂.cons rfl (List.Forall₂.cons rfl List.Forall₂.nil)) (by decide) (by decide)

/-! ## `modify` -/

theorem setJob_eq {m : Memory} {a : Nat} {j₀ : CPUJob} (h : m.job (some a) = some j₀)
    (j : CPUJob) : m.setJob (some a) j = some { m with jobs := m.jobs.set a j } := by
  simp [Memory.setJob, h]

theorem job_some_iff {m : Memory} {p : Option Nat} {j : CPUJob} :
    m.job p = some j ↔ ∃ a, p = some a ∧ m.jobs[a]? = some j := by
  cases p with
  | none => simp [Memory.job]
  | some a => simp [Memory.job]

/-- The loop of `modify` (lines 180-187): the jobs with the id that are referenced by a
visited entry get the four new values, every other job and every node is left as it is. -/
theorem forUp_modify (jobID p t c mem : Int) (tail : List (Option Nat)) :
    ∀ (seg pre : List (Option Nat)) (cur : Memory), (∀ y ∈ seg, cur.record y ≠ none) →
      ∃ m', forUp (fun i m => do
          let x ← (pre ++ seg ++ tail)[i]?
          let n ← m.node x
          let j ← m.job n.JobPointer
          if j.jobID = jobID then
            m.setJob n.JobPointer
              { j with
                priority := p
                job_type := t
                cpu_time_consumed := c
                memory_consumed := mem }
          else some m) pre.length seg.length cur = some m' ∧
        m'.nodes = cur.nodes ∧
        (∀ a j, cur.jobs[a]? = some j → j.jobID = jobID →
          (∃ x ∈ seg, ∃ n, cur.node x = some n ∧ n.JobPointer = some a) →
          m'.jobs[a]? = some { j with
            priority := p
            job_type := t
            cpu_time_consumed := c
            memory_consumed := mem }) ∧
        (∀ a, ¬ (∃ j, cur.jobs[a]? = some j ∧ j.jobID = jobID ∧
            ∃ x ∈ seg, ∃ n, cur.node x = some n ∧ n.JobPointer = some a) →
          m'.jobs[a]? = cur.jobs[a]?)
  | [], pre, cur, _ => ⟨cur, rfl, rfl, (fun _ _ _ _ h => by
      obtain ⟨x, hx, _⟩ := h
      cases hx), fun _ _ => rfl⟩
  | y :: seg, pre, cur, hrec => by
    obtain ⟨jy, hjy⟩ := Option.ne_none_iff_exists'.1 (hrec y (List.mem_cons_self _ _))
    obtain ⟨n, hn, hjob⟩ := record_node hjy
    obtain ⟨b, hb, hjb⟩ := job_some_iff.1 hjob
    have hblt : b < cur.jobs.length := (List.getElem?_eq_some_iff.1 hjb).1
    -- the memory after the visit of `y`
    obtain ⟨cur₁, hstep, hnodes₁, hjobs₁, hlen₁⟩ : ∃ cur₁ : Memory,
        (if jy.jobID = jobID then
          cur.setJob n.JobPointer
            { jy with
              priority := p
              job_type := t
              cpu_time_consumed := c
              memory_consumed := mem }
          else some cur) = some cur₁ ∧ cur₁.nodes = cur.nodes ∧
        (∀ a, cur₁.jobs[a]? = if a = b ∧ jy.jobID = jobID then
            some { jy with
              priority := p
              job_type := t
              cpu_time_consumed := c
              memory_consumed := mem }
          else cur.jobs[a]?) ∧ cur₁.jobs.length = cur.jobs.length := by
      by_cases hid : jy.jobID = jobID
      · refine ⟨{ cur with jobs := cur.jobs.set b ⟨jy.jobID, p, t, c, mem⟩ }, ?_, rfl, ?_,
          by simp⟩
        · rw [if_pos hid, hb]
          exact setJob_eq (by rw [← hb]; exact hjob) _
        · intro a
          by_cases hab : a = b
          · subst hab
            simp [hid, hblt]
          · have : b ≠ a := fun e => hab e.symm
            simp [hab, List.getElem?_set_ne this]
      · exact ⟨cur, by rw [if_neg hid], rfl, fun a => by simp [hid], rfl⟩
    have hnode₁ : ∀ x, cur₁.node x = cur.node x := fun x => by
      simp [Memory.node, hnodes₁]
    have hrec₁ : ∀ z ∈ seg, cur₁.record z ≠ none := by
      intro z hz
      obtain ⟨jz, hjz⟩ := Option.ne_none_iff_exists'.1 (hrec z (List.mem_cons_of_mem _ hz))
      obtain ⟨nz, hnz, hjobz⟩ := record_node hjz
      obtain ⟨bz, hbz, hjbz⟩ := job_some_iff.1 hjobz
      have hlt : bz < cur₁.jobs.length := by
        rw [hlen₁]; exact (List.getElem?_eq_some_iff.1 hjbz).1
      have : cur₁.record z = cur₁.jobs[bz]? := by
        simp [Memory.record, hnode₁, hnz, hbz, Memory.job]
      rw [this]
      intro h
      rw [List.getElem?_eq_none_iff] at h
      omega
    obtain ⟨m', hrun, hnodes', h1, h2⟩ := forUp_modify jobID p t c mem tail seg (pre ++ [y])
      cur₁ hrec₁
    refine ⟨m', ?_, hnodes'.trans hnodes₁, ?_, ?_⟩
    · simp only [List.length_append, List.length_singleton, List.append_assoc,
        List.singleton_append, List.cons_append, Option.bind_eq_bind, List.nil_append]
        at hrun ⊢
      simp only [forUp, List.length_cons, getElem?_at, Option.some_bind, hn, hjob, hstep]
      exact hrun
    · intro a j haj hid hP
      by_cases hab : a = b ∧ jy.jobID = jobID
      · obtain ⟨rfl, hidy⟩ := hab
        rw [hjb] at haj; cases haj
        have hcur₁ := hjobs₁ a
        rw [if_pos ⟨rfl, hidy⟩] at hcur₁
        by_cases hP' : ∃ x ∈ seg, ∃ n, cur₁.node x = some n ∧ n.JobPointer = some a
        · exact h1 a ⟨jy.jobID, p, t, c, mem⟩ hcur₁ hidy hP'
        · rw [h2 a (fun ⟨_, _, _, h⟩ => hP' h), hcur₁]
      · have hcur₁ := hjobs₁ a
        rw [if_neg hab] at hcur₁
        have hP' : ∃ x ∈ seg, ∃ n, cur₁.node x = some n ∧ n.JobPointer = some a := by
          obtain ⟨x, hx, nx, hnx, hpx⟩ := hP
          rcases List.mem_cons.1 hx with rfl | hx
          · exfalso
            rw [hn] at hnx; cases hnx
            rw [hb] at hpx; cases hpx
            rw [hjb] at haj; cases haj
            exact hab ⟨rfl, hid⟩
          · exact ⟨x, hx, nx, by rw [hnode₁]; exact hnx, hpx⟩
        exact h1 a j (by rw [hcur₁]; exact haj) hid hP'
    · intro a hno
      have hcur₁ : cur₁.jobs[a]? = cur.jobs[a]? := by
        rw [hjobs₁ a]
        by_cases hab : a = b ∧ jy.jobID = jobID
        · exfalso
          obtain ⟨rfl, hidy⟩ := hab
          exact hno ⟨jy, hjb, hidy, y, List.mem_cons_self _ _, n, hn, hb⟩
        · rw [if_neg hab]
      rw [h2 a (fun ⟨j, hj, hid, x, hx, nx, hnx, hpx⟩ =>
        hno ⟨j, by rw [← hcur₁]; exact hj, hid, x, List.mem_cons_of_mem _ hx, nx,
          by rw [← hnode₁]; exact hnx, hpx⟩), hcur₁]

theorem record_eq_jobs {m : Memory} {x : Option Nat} {n : Queue} {b : Nat}
    (hn : m.node x = some n) (hb : n.JobPointer = some b) : m.record x = m.jobs[b]? := by
  simp [Memory.record, hn, hb, Memory.job]

/-- Claim C17. For every queue whose array entries reference records, `modify(id, p, t, c,
mem)` returns and leaves the queue (size, capacity, array) and all nodes, hence the linked
order, unchanged; every record of the array with that `jobID` gets `priority`, `job_type`,
`cpu_time_consumed` and `memory_consumed` set to `p`, `t`, `c`, `mem` and keeps its
`jobID`; every other record of the array and every job that no array entry references is
unchanged; and if no record of the array has that `jobID` the whole state is unchanged.
With pairwise distinct ids there is at most one record with that `jobID`. -/
theorem modify_sets_fields (m : Memory) (q : NovelQueue) (jobID p t c mem : Int)
    (A tail : List (Option Nat)) (harr : q.NodePointers = A ++ tail)
    (hsize : q.size = A.length) (hrec : ∀ y ∈ A, m.record y ≠ none) :
    ∃ m', modify m q jobID p t c mem = some (m', q) ∧ m'.nodes = m.nodes ∧
      (∀ x ∈ A, ∀ j, m.record x = some j →
        m'.record x = some (if j.jobID = jobID then ⟨j.jobID, p, t, c, mem⟩ else j)) ∧
      (∀ a, (∀ x ∈ A, ∀ n, m.node x = some n → n.JobPointer ≠ some a) →
        m'.jobs[a]? = m.jobs[a]?) ∧
      ((∀ x ∈ A, ∀ j, m.record x = some j → j.jobID ≠ jobID) → m' = m) := by
  obtain ⟨m', hrun, hnodes, h1, h2⟩ := forUp_modify jobID p t c mem tail A [] m hrec
  have hsz : q.size.toNat = A.length := by omega
  have hnode : ∀ x, m'.node x = m.node x := fun x => by simp [Memory.node, hnodes]
  refine ⟨m', ?_, hnodes, ?_, ?_, ?_⟩
  · simp only [List.nil_append, List.length_nil, Option.bind_eq_bind] at hrun
    simp only [modify, hsz, harr, Option.bind_eq_bind, hrun, Option.some_bind,
      Option.pure_def]
  · intro x hx j hj
    obtain ⟨n, hn, hjob⟩ := record_node hj
    obtain ⟨b, hb, hjb⟩ := job_some_iff.1 hjob
    rw [record_eq_jobs (by rw [hnode]; exact hn) hb]
    by_cases hid : j.jobID = jobID
    · rw [if_pos hid]
      exact h1 b j hjb hid ⟨x, hx, n, hn, hb⟩
    · rw [if_neg hid, h2 b (fun ⟨j', hj', hid', _⟩ => by
        rw [hjb] at hj'; cases hj'; exact hid hid'), hjb]
  · intro a ha
    exact h2 a (fun ⟨_, _, _, x, hx, n, hn, hp⟩ => ha x hx n hn hp)
  · intro hno
    have hjobs : m'.jobs = m.jobs := List.ext_getElem? fun a =>
      h2 a (fun ⟨j, hj, hid, x, hx, n, hn, hp⟩ =>
        hno x hx j (by rw [record_eq_jobs hn hp]; exact hj) hid)
    cases m' with
    | mk jobs nodes =>
      cases m with
      | mk jobs₀ nodes₀ =>
        simp only at hjobs hnodes
        rw [hjobs, hnodes]

/-- The theorem `modify_sets_fields` on the queue holding the ids 5 and 3, for
`modify(3, 7, 8, 9, 10)`. -/
theorem modify_sets_fields_witness :
    ∃ m', modify
        (⟨[⟨5, 1, 1, 0, 0⟩, ⟨3, 2, 1, 0, 0⟩],
          [some ⟨some 0, some 1, 0⟩, some ⟨some 1, none, 0⟩]⟩ : Memory)
        (⟨some 0, [some 1, some 0] ++ List.replicate 8 none, 2, 10⟩ : NovelQueue) 3 7 8 9 10 =
        some (m', (⟨some 0, [some 1, some 0] ++ List.replicate 8 none, 2, 10⟩ : NovelQueue)) ∧
      m'.nodes = [some ⟨some 0, some 1, 0⟩, some ⟨some 1, none, 0⟩] ∧
      (∀ x ∈ [some 1, some 0], ∀ j,
        Memory.record (⟨[⟨5, 1, 1, 0, 0⟩, ⟨3, 2, 1, 0, 0⟩],
          [some ⟨some 0, some 1, 0⟩, some ⟨some 1, none, 0⟩]⟩ : Memory) x = some j →
        m'.record x = some (if j.jobID = 3 then ⟨j.jobID, 7, 8, 9, 10⟩ else j)) ∧
      (∀ a, (∀ x ∈ [some 1, some 0], ∀ n,
          Memory.node (⟨[⟨5, 1, 1, 0, 0⟩, ⟨3, 2, 1, 0, 0⟩],
          [some ⟨some 0, some 1, 0⟩, some ⟨some 1, none, 0⟩]⟩ : Memory) x = some n →
          n.JobPointer ≠ some a) →
        m'.jobs[a]? = ([⟨5, 1, 1, 0, 0⟩, ⟨3, 2, 1, 0, 0⟩] : List CPUJob)[a]?) ∧
      ((∀ x ∈ [some 1, some 0], ∀ j,
          Memory.record (⟨[⟨5, 1, 1, 0, 0⟩, ⟨3, 2, 1, 0, 0⟩],
          [some ⟨some 0, some 1, 0⟩, some ⟨some 1, none, 0⟩]⟩ : Memory) x = some j →
          j.jobID ≠ 3) →
        m' = (⟨[⟨5, 1, 1, 0, 0⟩, ⟨3, 2, 1, 0, 0⟩],
          [some ⟨some 0, some 1, 0⟩, some ⟨some 1, none, 0⟩]⟩ : Memory)) :=
  modify_sets_fields
    (⟨[⟨5, 1, 1, 0, 0⟩, ⟨3, 2, 1, 0, 0⟩],
          [some ⟨some 0, some 1, 0⟩, some ⟨some 1, none, 0⟩]⟩ : Memory)
    (⟨some 0, [some 1, some 0] ++ List.replicate 8 none, 2, 10⟩ : NovelQueue) 3 7 8 9 10 [some 1, some 0] (List.replicate 8 none)
    rfl rfl (by decide)

/-! ## `change` -/

theorem record_setJobs_ne_none {m : Memory} (a : Nat) (j' : CPUJob) {y : Option Nat}
    (h : m.record y ≠ none) :
    Memory.record ⟨m.jobs.set a j', m.nodes⟩ y ≠ none := by
  obtain ⟨j, hj⟩ := Option.ne_none_iff_exists'.1 h
  obtain ⟨n, hn, hjob⟩ := record_node hj
  obtain ⟨b, hb, hjb⟩ := job_some_iff.1 hjob
  have hn' : Memory.node ⟨m.jobs.set a j', m.nodes⟩ y = some n := hn
  rw [record_eq_jobs hn' hb]
  have hlt : b < m.jobs.length := by
    rcases Nat.lt_or_ge b m.jobs.length with h | h
    · exact h
    · rw [List.getElem?_eq_none h] at hjb; cases hjb
  show (m.jobs.set a j')[b]? ≠ none
  rw [List.getElem?_eq_getElem (by simpa using hlt)]
  exact fun h => by cases h

theorem display_setJobs {m : Memory} {q : NovelQueue} {L : List (Option Nat)}
    (hc : Chain m q.front L) (hrec : ∀ x ∈ L, m.record x ≠ none) (a : Nat) (j' : CPUJob) :
    ∃ out, display ⟨m.jobs.set a j', m.nodes⟩ q = some out :=
  ⟨_, display_spec (@Chain.congr m ⟨m.jobs.set a j', m.nodes⟩ L q.front (fun _ _ => rfl) hc)
    (fun x hx => record_setJobs_ne_none a j' (hrec x hx))⟩

/-- The loop of `change` (lines 220-254): either no visited entry has the id and the memory
is returned as it is, or the first visited entry with the id gets the result of the
`switch` written, when the `switch` does not take the `default` branch. -/
theorem changeFrom_spec (m : Memory) (q : NovelQueue) (jobID field_index new_value : Int)
    (tail L : List (Option Nat)) (hc : Chain m q.front L)
    (hL : ∀ x ∈ L, m.record x ≠ none) :
    ∀ (seg pre : List (Option Nat)), q.NodePointers = pre ++ seg ++ tail →
      (∀ y ∈ seg, m.record y ≠ none) →
      ∃ m', changeFrom m q jobID field_index new_value pre.length seg.length = some m' ∧
        (((∀ y ∈ seg, ∀ j, m.record y = some j → j.jobID ≠ jobID) ∧ m' = m) ∨
         (∃ s₁ x s₂ j n a, seg = s₁ ++ x :: s₂ ∧
            (∀ y ∈ s₁, ∀ j', m.record y = some j' → j'.jobID ≠ jobID) ∧
            m.node x = some n ∧ n.JobPointer = some a ∧ m.jobs[a]? = some j ∧
            j.jobID = jobID ∧
            m' = (match setField j field_index new_value with
                  | none => m
                  | some j' => ⟨m.jobs.set a j', m.nodes⟩))) := by
  intro seg
  induction seg with
  | nil =>
    intro pre _ _
    exact ⟨m, rfl, Or.inl ⟨(fun y hy => by cases hy), rfl⟩⟩
  | cons y s ih =>
    intro pre harr hrec
    obtain ⟨j, hj⟩ := Option.ne_none_iff_exists'.1 (hrec y (List.mem_cons_self _ _))
    obtain ⟨n, hn, hjob⟩ := record_node hj
    obtain ⟨a, ha, hja⟩ := job_some_iff.1 hjob
    have hget : q.NodePointers[pre.length]? = some y := by
      rw [harr, List.append_assoc]
      exact getElem?_at pre y (s ++ tail)
    by_cases hid : j.jobID = jobID
    · cases hset : setField j field_index new_value with
      | none =>
        refine ⟨m, ?_, Or.inr ⟨[], y, s, j, n, a, rfl, (fun y hy => by cases hy), hn, ha,
          hja, hid, by rw [hset]⟩⟩
        simp only [List.length_cons, changeFrom, hget, hn, hjob, if_pos hid, hset,
          Option.bind_eq_bind, Option.some_bind]
      | some j' =>
        obtain ⟨out, hout⟩ := display_setJobs hc hL a j'
        have hsj : m.setJob n.JobPointer j' = some ⟨m.jobs.set a j', m.nodes⟩ := by
          rw [ha]; exact setJob_eq (by rw [← ha]; exact hjob) j'
        refine ⟨⟨m.jobs.set a j', m.nodes⟩, ?_, Or.inr ⟨[], y, s, j, n, a, rfl,
          (fun y hy => by cases hy), hn, ha, hja, hid, by rw [hset]⟩⟩
        simp only [List.length_cons, changeFrom, hget, hn, hjob, if_pos hid, hset,
          Option.bind_eq_bind, Option.some_bind, hsj, hout, Option.pure_def]
    · have harr' : q.NodePointers = (pre ++ [y]) ++ s ++ tail := by
        rw [harr]; simp
      obtain ⟨m', hrun, hcase⟩ := ih (pre ++ [y]) harr'
        (fun z hz => hrec z (List.mem_cons_of_mem _ hz))
      rw [List.length_append, List.length_singleton] at hrun
      refine ⟨m', ?_, ?_⟩
      · simp only [List.length_cons, changeFrom, hget, hn, hjob, if_neg hid,
          Option.bind_eq_bind, Option.some_bind]
        exact hrun
      · rcases hcase with ⟨hno, hm⟩ | ⟨s₁, x, s₂, j₁, n₁, a₁, hs, hno, h1, h2, h3, h4, h5⟩
        · refine Or.inl ⟨?_, hm⟩
          intro z hz jz hjz
          rcases List.mem_cons.1 hz with rfl | hz
          · rw [hj] at hjz; cases hjz; exact hid
          · exact hno z hz jz hjz
        · refine Or.inr ⟨y :: s₁, x, s₂, j₁, n₁, a₁, by rw [hs]; rfl, ?_, h1, h2, h3, h4, h5⟩
          intro z hz jz hjz
          rcases List.mem_cons.1 hz with rfl | hz
          · rw [hj] at hjz; cases hjz; exact hid
          · exact hno z hz jz hjz

theorem first_match_unique {α : Type} (P : α → Prop) {A₁ s₁ A₂ s₂ : List α} {x x' : α}
    (h : A₁ ++ x :: A₂ = s₁ ++ x' :: s₂) (hA : ∀ y ∈ A₁, ¬ P y) (hs : ∀ y ∈ s₁, ¬ P y)
    (hx : P x) (hx' : P x') : A₁ = s₁ ∧ x = x' := by
  rcases List.append_eq_append_iff.1 h with ⟨a', h1, h2⟩ | ⟨c', h1, h2⟩
  · cases a' with
    | nil =>
      rw [List.append_nil] at h1
      rw [List.nil_append] at h2
      exact ⟨h1.symm, (List.cons_eq_cons.1 h2).1⟩
    | cons z zs =>
      rw [List.cons_append] at h2
      have hz : x = z := (List.cons_eq_cons.1 h2).1
      exact absurd hx (hs x (by rw [h1, hz]; simp))
  · cases c' with
    | nil =>
      rw [List.append_nil] at h1
      rw [List.nil_append] at h2
      exact ⟨h1, ((List.cons_eq_cons.1 h2).1).symm⟩
    | cons z zs =>
      rw [List.cons_append] at h2
      have hz : x' = z := (List.cons_eq_cons.1 h2).1
      exact absurd hx' (hA x' (by rw [h1, hz]; simp))

theorem setField_valid (j : CPUJob) (f v : Int) (hf : f = 1 ∨ f = 2 ∨ f = 3 ∨ f = 4) :
    setField j f v = some
      (if f = 1 then ⟨j.jobID, v, j.job_type, j.cpu_time_consumed, j.memory_consumed⟩
       else if f = 2 then ⟨j.jobID, j.priority, v, j.cpu_time_consumed, j.memory_consumed⟩
       else if f = 3 then ⟨j.jobID, j.priority, j.job_type, v, j.memory_consumed⟩
       else ⟨j.jobID, j.priority, j.job_type, j.cpu_time_consumed, v⟩) := by
  rcases hf with rfl | rfl | rfl | rfl <;> simp [setField]

theorem setField_invalid (j : CPUJob) (f v : Int)
    (hf : f ≠ 1 ∧ f ≠ 2 ∧ f ≠ 3 ∧ f ≠ 4) : setField j f v = none := by
  simp [setField, hf.1, hf.2.1, hf.2.2.1, hf.2.2.2]

/-- Claim C18. For every queue whose array entries reference records and whose linked list
is well formed (the method prints it), and for every id, `field_index` and `new_value`,
`change` returns and leaves the queue (front, array, size, capacity) and every node
unchanged.  If `x` is the first array entry whose record has the id and `field_index` is 1,
2, 3 or 4, the job `a` of that entry gets exactly the selected field (1 = `priority`,
2 = `job_type`, 3 = `cpu_time_consumed`, 4 = `memory_consumed`) set to `new_value`, and
every other job is as before.  If `field_index` is outside 1..4, or no record of the array
has the id, the whole memory is unchanged. -/
theorem change_sets_selected_field (m : Memory) (q : NovelQueue)
    (jobID field_index new_value : Int) (A tail L : List (Option Nat))
    (harr : q.NodePointers = A ++ tail) (hsize : q.size = A.length)
    (hrec : ∀ y ∈ A, m.record y ≠ none) (hc : Chain m q.front L)
    (hL : ∀ y ∈ L, m.record y ≠ none) :
    ∃ m', change m q jobID field_index new_value = some (m', q) ∧ m'.nodes = m.nodes ∧
      (∀ A₁ x A₂ j n a, A = A₁ ++ x :: A₂ →
        (∀ y ∈ A₁, ∀ j', m.record y = some j' → j'.jobID ≠ jobID) →
        m.node x = some n → n.JobPointer = some a → m.jobs[a]? = some j → j.jobID = jobID →
        (field_index = 1 ∨ field_index = 2 ∨ field_index = 3 ∨ field_index = 4) →
        m'.jobs = m.jobs.set a
          (if field_index = 1 then
            ⟨j.jobID, new_value, j.job_type, j.cpu_time_consumed, j.memory_consumed⟩
           else if field_index = 2 then
            ⟨j.jobID, j.priority, new_value, j.cpu_time_consumed, j.memory_consumed⟩
           else if field_index = 3 then
            ⟨j.jobID, j.priority, j.job_type, new_value, j.memory_consumed⟩
           else ⟨j.jobID, j.priority, j.job_type, j.cpu_time_consumed, new_value⟩)) ∧
      ((field_index ≠ 1 ∧ field_index ≠ 2 ∧ field_index ≠ 3 ∧ field_index ≠ 4) → m' = m) ∧
      ((∀ y ∈ A, ∀ j, m.record y = some j → j.jobID ≠ jobID) → m' = m) := by
  have hsz : q.size.toNat = A.length := by omega
  obtain ⟨m', hrun, hcase⟩ := changeFrom_spec m q jobID field_index new_value tail L hc hL
    A [] (by rw [harr]; rfl) hrec
  have hchange : change m q jobID field_index new_value = some (m', q) := by
    simp only [List.length_nil] at hrun
    simp only [change, hsz, hrun, Option.bind_eq_bind, Option.some_bind, Option.pure_def]
  refine ⟨m', hchange, ?_, ?_, ?_, ?_⟩
  · rcases hcase with ⟨_, hm⟩ | ⟨s₁, x, s₂, j, n, a, _, _, _, _, _, _, hm⟩
    · rw [hm]
    · rw [hm]; cases setField j field_index new_value <;> rfl
  · intro A₁ x A₂ j n a hA hno hn ha hj hid hf
    have hrx : m.record x = some j := by rw [record_eq_jobs hn ha]; exact hj
    rcases hcase with ⟨hnone, _⟩ | ⟨s₁, x', s₂, j', n', a', hs, hno', hn', ha', hj', hid', hm⟩
    · exact absurd hid (hnone x (by rw [hA]; simp) j hrx)
    · have hrx' : m.record x' = some j' := by rw [record_eq_jobs hn' ha']; exact hj'
      obtain ⟨_, hxx⟩ := first_match_unique
        (fun y => ∃ j, m.record y = some j ∧ j.jobID = jobID) (hA.symm.trans hs)
        (fun y hy ⟨jy, h1, h2⟩ => hno y hy jy h1 h2)
        (fun y hy ⟨jy, h1, h2⟩ => hno' y hy jy h1 h2) ⟨j, hrx, hid⟩ ⟨j', hrx', hid'⟩
      subst hxx
      rw [hn] at hn'; cases hn'
      rw [ha] at ha'; cases ha'
      rw [hj] at hj'; cases hj'
      rw [hm, setField_valid j field_index new_value hf]
  · intro hf
    rcases hcase with ⟨_, hm⟩ | ⟨s₁, x, s₂, j, n, a, _, _, _, _, _, _, hm⟩
    · exact hm
    · rw [hm, setField_invalid j field_index new_value hf]
  · intro hnone
    rcases hcase with ⟨_, hm⟩ | ⟨s₁, x, s₂, j, n, a, hs, _, hn, ha, hj, hid, _⟩
    · exact hm
    · exact absurd hid (hnone x (by rw [hs]; simp) j (by rw [record_eq_jobs hn ha]; exact hj))

/-- The theorem `change_sets_selected_field` on the queue holding the ids 5 and 3, for
`change(3, 2, 9)`. -/
theorem change_sets_selected_field_witness :
    ∃ m', change
        (⟨[⟨5, 1, 1, 0, 0⟩, ⟨3, 2, 1, 0, 0⟩],
          [some ⟨some 0, some 1, 0⟩, some ⟨some 1, none, 0⟩]⟩ : Memory)
        (⟨some 0, [some 1, some 0] ++ List.replicate 8 none, 2, 10⟩ : NovelQueue) 3 2 9 =
        some (m', (⟨some 0, [some 1, some 0] ++ List.replicate 8 none, 2, 10⟩ : NovelQueue)) ∧
      m'.nodes = [some ⟨some 0, some 1, 0⟩, some ⟨some 1, none, 0⟩] ∧
      (∀ A₁ x A₂ j n a, [some 1, some 0] = A₁ ++ x :: A₂ →
        (∀ y ∈ A₁, ∀ j',
          Memory.record (⟨[⟨5, 1, 1, 0, 0⟩, ⟨3, 2, 1, 0, 0⟩],
            [some ⟨some 0, some 1, 0⟩, some ⟨some 1, none, 0⟩]⟩ : Memory) y = some j' →
          j'.jobID ≠ 3) →
        Memory.node (⟨[⟨5, 1, 1, 0, 0⟩, ⟨3, 2, 1, 0, 0⟩],
          [some ⟨some 0, some 1, 0⟩, some ⟨some 1, none, 0⟩]⟩ : Memory) x = some n →
        n.JobPointer = some a →
        ([⟨5, 1, 1, 0, 0⟩, ⟨3, 2, 1, 0, 0⟩] : List CPUJob)[a]? = some j → j.jobID = 3 →
        ((2 : Int) = 1 ∨ (2 : Int) = 2 ∨ (2 : Int) = 3 ∨ (2 : Int) = 4) →
        m'.jobs = ([⟨5, 1, 1, 0, 0⟩, ⟨3, 2, 1, 0, 0⟩] : List CPUJob).set a
          (if (2 : Int) = 1 then
            ⟨j.jobID, 9, j.job_type, j.cpu_time_consumed, j.memory_consumed⟩
           else if (2 : Int) = 2 then
            ⟨j.jobID, j.priority, 9, j.cpu_time_consumed, j.memory_consumed⟩
           else if (2 : Int) = 3 then
            ⟨j.jobID, j.priority, j.job_type, 9, j.memory_consumed⟩
           else ⟨j.jobID, j.priority, j.job_type, j.cpu_time_consumed, 9⟩)) ∧
      (((2 : Int) ≠ 1 ∧ (2 : Int) ≠ 2 ∧ (2 : Int) ≠ 3 ∧ (2 : Int) ≠ 4) →
        m' = (⟨[⟨5, 1, 1, 0, 0⟩, ⟨3, 2, 1, 0, 0⟩],
          [some ⟨some 0, some 1, 0⟩, some ⟨some 1, none, 0⟩]⟩ : Memory)) ∧
      ((∀ y ∈ [some 1, some 0], ∀ j,
          Memory.record (⟨[⟨5, 1, 1, 0, 0⟩, ⟨3, 2, 1, 0, 0⟩],
            [some ⟨some 0, some 1, 0⟩, some ⟨some 1, none, 0⟩]⟩ : Memory) y = some j →
          j.jobID ≠ 3) →
        m' = (⟨[⟨5, 1, 1, 0, 0⟩, ⟨3, 2, 1, 0, 0⟩],
          [some ⟨some 0, some 1, 0⟩, some ⟨some 1, none, 0⟩]⟩ : Memory)) :=
  change_sets_selected_field
    (⟨[⟨5, 1, 1, 0, 0⟩, ⟨3, 2, 1, 0, 0⟩],
      [some ⟨some 0, some 1, 0⟩, some ⟨some 1, none, 0⟩]⟩ : Memory)
    (⟨some 0, [some 1, some 0] ++ List.replicate 8 none, 2, 10⟩ : NovelQueue) 3 2 9
    [some 1, some 0] (List.replicate 8 none) [some 0, some 1]
    rfl rfl (by decide) ⟨rfl, _, rfl, rfl, _, rfl, rfl⟩ (by decide)

/-! ## Capacity -/

theorem resize_fields {q q₁ : NovelQueue} {c : Int} (h : resize q c = some q₁) :
    q₁.capacity = c ∧ q₁.size = q.size ∧ q₁.front = q.front := by
  unfold resize at h
  split at h
  · cases h
  · simp only [Option.bind_eq_bind, Option.pure_def, Option.bind_eq_some, Option.some.injEq] at h
    obtain ⟨arr, _, rfl⟩ := h
    exact ⟨rfl, rfl, rfl⟩

theorem enqueue_tail_fields {m₁ m' : Memory} {q₁ q' : NovelQueue} {a : Option Nat}
    (he : ((linkAtTail m₁ q₁.front a).bind fun r =>
        (writeAt q₁.NodePointers q₁.size a).bind fun arr =>
          (sortByID r.1 (q₁.size + 1 - 1).toNat arr).bind fun arr =>
            some (r.1, ({ q₁ with front := r.2, NodePointers := arr, size := q₁.size + 1 } :
              NovelQueue))) = some (m', q')) :
    q'.size = q₁.size + 1 ∧ q'.capacity = q₁.capacity := by
  simp only [Option.bind_eq_some, Option.some.injEq, Prod.mk.injEq] at he
  obtain ⟨r, _, arr, _, arr', _, _, rfl⟩ := he
  exact ⟨rfl, rfl⟩

/-- A call of `enqueue` that returns either rejects the job and changes nothing, or adds
one entry, after doubling the capacity when `size = capacity` and only then. -/
theorem enqueue_capacity {m m' : Memory} {q q' : NovelQueue} {newJob : Option Nat}
    (he : enqueue m q newJob = some (m', q')) :
    (m' = m ∧ q' = q) ∨
      (q'.size = q.size + 1 ∧
        q'.capacity = if q.size = q.capacity then q.capacity * 2 else q.capacity) := by
  cases hd : hasDuplicate m q.NodePointers newJob 0 q.size.toNat with
  | none => simp [enqueue, hd] at he
  | some dup =>
    cases dup with
    | true =>
      simp only [enqueue, hd, Option.bind_eq_bind, Option.some_bind, if_true,
        Option.pure_def, Option.some.injEq, Prod.mk.injEq] at he
      exact Or.inl ⟨he.1.symm, he.2.symm⟩
    | false =>
      right
      by_cases hc : q.size = q.capacity
      · cases hr : resize q (q.capacity * 2) with
        | none =>
          simp only [enqueue, hd, Option.bind_eq_bind, Option.some_bind, if_pos hc, hr,
            Bool.false_eq_true, if_false, Option.none_bind] at he
          cases he
        | some q₁ =>
          simp only [enqueue, hd, Option.bind_eq_bind, Option.some_bind, if_pos hc, hr,
            Bool.false_eq_true, if_false, Option.pure_def] at he
          obtain ⟨h1, h2, _⟩ := resize_fields hr
          obtain ⟨h3, h4⟩ := enqueue_tail_fields he
          rw [if_pos hc, h3, h4, h1, h2]
          exact ⟨rfl, rfl⟩
      · simp only [enqueue, hd, Option.bind_eq_bind, Option.some_bind, if_neg hc,
          Bool.false_eq_true, if_false, Option.pure_def] at he
        obtain ⟨h3, h4⟩ := enqueue_tail_fields he
        rw [if_neg hc]
        exact ⟨h3, h4⟩

/-- A call of `dequeue` that returns either finds `front` null and changes nothing, or
removes one entry and then halves the capacity when the new size is positive and at most
half of the capacity, and only then. -/
theorem dequeue_capacity {m m' : Memory} {q q' : NovelQueue} {r : Option Nat}
    (hd : dequeue m q = some (m', q', r)) :
    (q.front = none ∧ m' = m ∧ q' = q ∧ r = none) ∨
      (q.front ≠ none ∧ q'.size = q.size - 1 ∧
        q'.capacity = if 0 < q.size - 1 ∧ q.size - 1 ≤ Int.tdiv q.capacity 2
          then Int.tdiv q.capacity 2 else q.capacity) := by
  by_cases hf : q.front = none
  · simp only [dequeue, if_pos hf, Option.some.injEq, Prod.mk.injEq] at hd
    exact Or.inl ⟨hf, hd.1.symm, hd.2.1.symm, hd.2.2.symm⟩
  · right
    refine ⟨hf, ?_⟩
    by_cases hs : q.size - 1 > 0 ∧ q.size - 1 ≤ Int.tdiv q.capacity 2
    · simp only [dequeue, if_neg hf, if_pos hs, Option.bind_eq_bind, Option.bind_eq_some,
        Option.pure_def, Option.some.injEq, Prod.mk.injEq] at hd
      obtain ⟨temp, _, m₁, _, arr, _, q₁, hq₁, _, rfl, _⟩ := hd
      obtain ⟨h1, h2, _⟩ := resize_fields hq₁
      rw [if_pos ⟨hs.1, hs.2⟩, h1, h2]
      exact ⟨rfl, rfl⟩
    · simp only [dequeue, if_neg hf, if_neg hs, Option.bind_eq_bind, Option.bind_eq_some,
        Option.pure_def, Option.some.injEq, Prod.mk.injEq] at hd
      obtain ⟨temp, _, m₁, _, arr, _, q₁, hq₁, _, rfl, _⟩ := hd
      cases hq₁
      rw [if_neg (fun h => hs ⟨h.1, h.2⟩)]
      exact ⟨rfl, rfl⟩

theorem tdiv_two_lt {c : Int} (h : 1 ≤ c) : Int.tdiv c 2 < c := by
  rw [Int.tdiv_eq_ediv (by omega) (by decide)]
  omega

/-- Claim C19, as stated, fails.  After ten `enqueue` calls with the ids 1 to 10 on a new
queue, `size = capacity = 10`; `enqueue` of a job whose id 1 is already in the queue is
then called with `size = capacity`, returns at the duplicate check before the growth, and
leaves the capacity at 10: it is not doubled. -/
theorem capacity_duplicate_at_full_counterexample :
    ∃ m q m' q',
      run { jobs := [⟨1, 0, 0, 0, 0⟩, ⟨2, 0, 0, 0, 0⟩, ⟨3, 0, 0, 0, 0⟩, ⟨4, 0, 0, 0, 0⟩,
                     ⟨5, 0, 0, 0, 0⟩, ⟨6, 0, 0, 0, 0⟩, ⟨7, 0, 0, 0, 0⟩, ⟨8, 0, 0, 0, 0⟩,
                     ⟨9, 0, 0, 0, 0⟩, ⟨10, 0, 0, 0, 0⟩], nodes := [] } NovelQueue.new
        [Op.enqueue (some 0), Op.enqueue (some 1), Op.enqueue (some 2), Op.enqueue (some 3),
         Op.enqueue (some 4), Op.enqueue (some 5), Op.enqueue (some 6), Op.enqueue (some 7),
         Op.enqueue (some 8), Op.enqueue (some 9)] = some (m, q) ∧
      q.size = 10 ∧ q.capacity = 10 ∧ q.size = q.capacity ∧
      enqueue m q (some 0) = some (m', q') ∧ q'.capacity = 10 ∧
      q'.capacity ≠ 2 * q.capacity :=
  ⟨{ jobs := [⟨1, 0, 0, 0, 0⟩, ⟨2, 0, 0, 0, 0⟩, ⟨3, 0, 0, 0, 0⟩, ⟨4, 0, 0, 0, 0⟩,
              ⟨5, 0, 0, 0, 0⟩, ⟨6, 0, 0, 0, 0⟩, ⟨7, 0, 0, 0, 0⟩, ⟨8, 0, 0, 0, 0⟩,
              ⟨9, 0, 0, 0, 0⟩, ⟨10, 0, 0, 0, 0⟩],
     nodes := [some ⟨some 0, some 1, 0⟩, some ⟨some 1, some 2, 0⟩, some ⟨some 2, some 3, 0⟩,
       some ⟨some 3, some 4, 0⟩, some ⟨some 4, some 5, 0⟩, some ⟨some 5, some 6, 0⟩,
       some ⟨some 6, some 7, 0⟩, some ⟨some 7, some 8, 0⟩, some ⟨some 8, some 9, 0⟩,
       some ⟨some 9, none, 0⟩] },
   { front := some 0,
     NodePointers := [some 0, some 1, some 2, some 3, some 4, some 5, some 6, some 7, some 8,
       some 9],
     size := 10, capacity := 10 },
   { jobs := [⟨1, 0, 0, 0, 0⟩, ⟨2, 0, 0, 0, 0⟩, ⟨3, 0, 0, 0, 0⟩, ⟨4, 0, 0, 0, 0⟩,
              ⟨5, 0, 0, 0, 0⟩, ⟨6, 0, 0, 0, 0⟩, ⟨7, 0, 0, 0, 0⟩, ⟨8, 0, 0, 0, 0⟩,
              ⟨9, 0, 0, 0, 0⟩, ⟨10, 0, 0, 0, 0⟩],
     nodes := [some ⟨some 0, some 1, 0⟩, some ⟨some 1, some 2, 0⟩, some ⟨some 2, some 3, 0⟩,
       some ⟨some 3, some 4, 0⟩, some ⟨some 4, some 5, 0⟩, some ⟨some 5, some 6, 0⟩,
       some ⟨some 6, some 7, 0⟩, some ⟨some 7, some 8, 0⟩, some ⟨some 8, some 9, 0⟩,
       some ⟨some 9, none, 0⟩] },
   { front := some 0,
     NodePointers := [some 0, some 1, some 2, some 3, some 4, some 5, some 6, some 7, some 8,
       some 9],
     size := 10, capacity := 10 },
   by decide, by decide, by decide, by decide, by decide, by decide, by decide⟩

/-- Claim C19, amended.  In every state reached from a new queue (capacity 10) by `enqueue`
and `dequeue` calls (with job pointers that point to jobs, every call having a defined
result): `1 ≤ capacity`, `0 ≤ size ≤ capacity`, and `capacity` is the length of the
allocated array.  A call of `enqueue` that returns either rejects the job and changes
nothing, capacity included, or inserts: then the new size is `size + 1`, the index `size`
written lies inside the array, and the capacity is doubled exactly when the call was made
with `size = capacity`, and is unchanged otherwise.  A call of `dequeue` returns, and the
capacity is halved (division truncating) exactly when the call leaves
`0 < size ≤ capacity / 2`, and is unchanged otherwise. -/
theorem capacity_grows_and_shrinks (m₀ : Memory) (ops : List Op) (m : Memory)
    (q : NovelQueue) (hops : ∀ op ∈ ops, op.isEnqueueOrDequeue = true)
    (hjobs : ∀ p, Op.enqueue p ∈ ops → m₀.job p ≠ none)
    (hrun : run m₀ NovelQueue.new ops = some (m, q)) :
    1 ≤ q.capacity ∧ 0 ≤ q.size ∧ q.size ≤ q.capacity ∧
      q.capacity = q.NodePointers.length ∧
      (∀ p m' q', m.job p ≠ none → enqueue m q p = some (m', q') →
        (m' = m ∧ q' = q) ∨
          (q'.size = q.size + 1 ∧ q.size < q'.NodePointers.length ∧
            q'.capacity = (if q.size = q.capacity then q.capacity * 2 else q.capacity) ∧
            (q'.capacity = q.capacity * 2 ↔ q.size = q.capacity))) ∧
      (∃ m' q' r, dequeue m q = some (m', q', r) ∧
        q'.capacity = (if 0 < q'.size ∧ q'.size ≤ Int.tdiv q.capacity 2
          then Int.tdiv q.capacity 2 else q.capacity) ∧
        (q'.capacity = Int.tdiv q.capacity 2 ↔
          0 < q'.size ∧ q'.size ≤ Int.tdiv q.capacity 2)) := by
  obtain ⟨L, A, h, _, _⟩ :=
    run_queueInv ops m₀ NovelQueue.new [] [] m q (queueInv_new m₀) hops hjobs hrun
  have hpos := h.positive
  have hsize := h.size
  have hcap := h.capacity
  have hle : q.size ≤ q.capacity := by
    obtain ⟨tail, harr⟩ := h.array
    rw [hsize, hcap, harr, List.length_append]
    push_cast
    omega
  have hhalf := tdiv_two_lt hpos
  refine ⟨hpos, by omega, hle, hcap, ?_, ?_⟩
  · intro p m' q' hp he
    obtain ⟨nj, hnj⟩ := Option.ne_none_iff_exists'.1 hp
    rcases enqueue_capacity he with hsame | ⟨hs, hc⟩
    · exact Or.inl hsame
    · right
      have hcap' : q'.capacity = q'.NodePointers.length := by
        rcases QueueInv.enqueue h hnj he with ⟨_, hq, _⟩ | ⟨A', h', _⟩
        · rw [hq] at hs; omega
        · exact h'.capacity
      by_cases hfull : q.size = q.capacity
      · rw [if_pos hfull] at hc
        refine ⟨hs, by omega, by rw [if_pos hfull]; exact hc, ?_⟩
        exact ⟨fun _ => hfull, fun _ => hc⟩
      · rw [if_neg hfull] at hc
        refine ⟨hs, by omega, by rw [if_neg hfull]; exact hc, ?_⟩
        exact ⟨fun e => by omega, fun e => absurd e hfull⟩
  · cases L with
    | nil =>
      have hz : q.size = 0 := by
        have := h.length
        simp only [List.length_nil] at this
        omega
      refine ⟨m, q, none, dequeue_empty m q h.chain, ?_, ?_⟩
      · rw [if_neg (by omega)]
      · exact ⟨fun e => by omega, fun e => by omega⟩
    | cons a L =>
      obtain ⟨m', q', r, A', hdq, _, _, _, hs', _⟩ := QueueInv.dequeue h
      refine ⟨m', q', r, hdq, ?_⟩
      rcases dequeue_capacity hdq with ⟨hf, _⟩ | ⟨_, _, hc⟩
      · exact absurd hf (Chain.head_ne_none h.chain)
      · rw [← hs'] at hc
        refine ⟨hc, ?_⟩
        by_cases hcond : 0 < q'.size ∧ q'.size ≤ Int.tdiv q.capacity 2
        · rw [if_pos hcond] at hc
          exact ⟨fun _ => hcond, fun _ => hc⟩
        · rw [if_neg hcond] at hc
          exact ⟨fun e => by omega, fun e => absurd e hcond⟩

/-- The theorem `capacity_grows_and_shrinks` after enqueueing the jobs with ids 3 and 5 and
one `dequeue`, which halves the capacity to 5. -/
theorem capacity_grows_and_shrinks_witness :
    (1 : Int) ≤ 5 ∧ (0 : Int) ≤ 1 ∧ (1 : Int) ≤ 5 ∧
      (5 : Int) = ([some 1, none, none, none, none] : List (Option Nat)).length ∧
      (∀ p m' q',
        Memory.job { jobs := [⟨3, 2, 1, 0, 0⟩, ⟨5, 1, 1, 0, 0⟩],
                     nodes := [none, some ⟨some 1, none, 0⟩] } p ≠ none →
        enqueue { jobs := [⟨3, 2, 1, 0, 0⟩, ⟨5, 1, 1, 0, 0⟩],
                  nodes := [none, some ⟨some 1, none, 0⟩] }
          { front := some 1, NodePointers := [some 1, none, none, none, none], size := 1,
            capacity := 5 } p = some (m', q') →
        (m' = { jobs := [⟨3, 2, 1, 0, 0⟩, ⟨5, 1, 1, 0, 0⟩],
                nodes := [none, some ⟨some 1, none, 0⟩] } ∧
          q' = { front := some 1, NodePointers := [some 1, none, none, none, none], size := 1,
                 capacity := 5 }) ∨
          (q'.size = 1 + 1 ∧ (1 : Int) < q'.NodePointers.length ∧
            q'.capacity = (if (1 : Int) = 5 then 5 * 2 else 5) ∧
            (q'.capacity = 5 * 2 ↔ (1 : Int) = 5))) ∧
      (∃ m' q' r, dequeue
          { jobs := [⟨3, 2, 1, 0, 0⟩, ⟨5, 1, 1, 0, 0⟩], nodes := [none, some ⟨some 1, none, 0⟩] }
          { front := some 1, NodePointers := [some 1, none, none, none, none], size := 1,
            capacity := 5 } = some (m', q', r) ∧
        q'.capacity = (if 0 < q'.size ∧ q'.size ≤ Int.tdiv 5 2 then Int.tdiv 5 2 else 5) ∧
        (q'.capacity = Int.tdiv 5 2 ↔ 0 < q'.size ∧ q'.size ≤ Int.tdiv 5 2)) :=
  capacity_grows_and_shrinks
    { jobs := [⟨3, 2, 1, 0, 0⟩, ⟨5, 1, 1, 0, 0⟩], nodes := [] }
    [Op.enqueue (some 0), Op.enqueue (some 1), Op.dequeue]
    { jobs := [⟨3, 2, 1, 0, 0⟩, ⟨5, 1, 1, 0, 0⟩], nodes := [none, some ⟨some 1, none, 0⟩] }
    { front := some 1, NodePointers := [some 1, none, none, none, none], size := 1,
      capacity := 5 }
    (by decide)
    (by
      intro p hp
      simp only [List.mem_cons, Op.enqueue.injEq, List.mem_singleton, reduceCtorEq,
        or_false, List.mem_nil_iff] at hp
      rcases hp with rfl | rfl <;> decide)
    (by decide)

/-! ## `promote` with `positions = 0` -/

theorem setNext_same {m : Memory} {p : Option Nat} {n : Queue} (h : m.node p = some n)
    {v : Option Nat} (hv : n.next = v) : m.setNext p v = some m := by
  obtain ⟨a, rfl, hlt⟩ := node_lt h
  rw [setNext_eq h]
  subst hv
  have hget : m.nodes[a]? = some (some n) := by
    have h' := h
    simp only [Memory.node, Option.bind_eq_bind, Option.some_bind] at h'
    rw [List.getElem?_eq_getElem hlt] at h' ⊢
    simp only [Option.join] at h'
    cases hc : m.nodes[a] with
    | none => rw [hc] at h'; cases h'
    | some c => rw [hc] at h'; exact congrArg some h'
  have hset : m.nodes.set a (some n) = m.nodes := by
    apply List.ext_getElem?
    intro i
    rw [List.getElem?_set]
    by_cases hi : a = i
    · subst hi
      rw [if_pos rfl, if_pos hlt, hget]
    · rw [if_neg hi]
  cases m with
  | mk jobs nodes =>
    simp only at hset
    show some (Memory.mk jobs (nodes.set a (some n))) = some (Memory.mk jobs nodes)
    rw [hset]

/-- The relinking loop of `promote` (lines 211-213) changes nothing when the visited
entries are already linked in array order. -/
theorem forUp_relink_same (tail : List (Option Nat)) :
    ∀ (seg pre : List (Option Nat)) (x : Option Nat) (m : Memory) (p : Option Nat),
      Chain m p (seg ++ [x]) →
      forUp (fun i m => do
          let p ← (pre ++ seg ++ x :: tail)[i]?
          let v ← (pre ++ seg ++ x :: tail)[i + 1]?
          m.setNext p v) pre.length seg.length m = some m ∧
        ∃ n, m.node x = some n ∧ n.next = none
  | [], pre, x, m, p, hc => by
    obtain ⟨_, n, hn, hnext⟩ := hc
    exact ⟨rfl, n, hn, hnext⟩
  | y :: seg, pre, x, m, p, hc => by
    obtain ⟨_, n, hn, hc'⟩ := hc
    obtain ⟨v, hv, hnv⟩ : ∃ v, (pre ++ y :: (seg ++ x :: tail))[pre.length + 1]? = some v ∧
        n.next = v := by
      cases seg with
      | nil => exact ⟨x, getElem?_at_succ pre y x tail, hc'.1⟩
      | cons z seg => exact ⟨z, getElem?_at_succ pre y z _, hc'.1⟩
    have hm₁ := setNext_same hn hnv
    obtain ⟨hrun, hlast⟩ := forUp_relink_same tail seg (pre ++ [y]) x m n.next hc'
    refine ⟨?_, hlast⟩
    simp only [List.length_append, List.length_singleton, List.append_assoc,
      List.singleton_append, List.cons_append, Option.bind_eq_bind, List.nil_append]
      at hrun ⊢
    simp only [forUp, List.length_cons, getElem?_at, hv, Option.some_bind, hm₁]
    exact hrun

/-- On a queue whose linked list follows the array order, `promote(id, 0)` for the id of an
array entry returns the memory and the queue it was given. -/
theorem promote_zero_same {m : Memory} {q : NovelQueue} {jobID : Int}
    {pre post tail : List (Option Nat)} {x : Option Nat} {j : CPUJob}
    (harr : q.NodePointers = pre ++ x :: post ++ tail)
    (hsize : q.size = (pre ++ x :: post).length)
    (hc : Chain m q.front (pre ++ x :: post))
    (hfirst : ∀ y ∈ pre, ∃ k, m.record y = some k ∧ k.jobID ≠ jobID)
    (hx : m.record x = some j) (hid : j.jobID = jobID) :
    promote m q jobID 0 = some (m, q) := by
  have hsz : q.size.toNat = pre.length + (post.length + 1) := by
    rw [hsize]; simp; omega
  have hfind : findIndex m q.NodePointers jobID 0 q.size.toNat
      = some ((pre.length : Nat) : Int) := by
    have := findIndex_spec hx hid (post ++ tail) pre [] q.size.toNat hfirst (by omega)
    simpa [harr] using this
  have hread : readAt q.NodePointers ((pre.length : Nat) : Int) = some x := by
    have h0 : ¬ (((pre.length : Nat) : Int) < 0) := by omega
    simp only [readAt, if_neg h0, Int.toNat_ofNat, harr]
    have := getElem?_at pre x (post ++ tail)
    simpa using this
  have hnew : max 0 (((pre.length : Nat) : Int) - 0) = ((pre.length : Nat) : Int) := by
    omega
  have hshift : shiftRight ((pre.length : Nat) : Int).toNat
      (((pre.length : Nat) : Int) - ((pre.length : Nat) : Int)).toNat q.NodePointers
      = some q.NodePointers := by
    simp [shiftRight]
  have hwrite : writeAt q.NodePointers ((pre.length : Nat) : Int) x = some q.NodePointers := by
    have := writeAt_at pre x x (post ++ tail)
    rw [harr]
    simpa using this
  have hfront : (if ((pre.length : Nat) : Int) = 0 then readAt q.NodePointers 0
      else pure q.front) = some q.front := by
    cases pre with
    | nil =>
      have : q.front = x := hc.1
      simp [readAt, harr, this]
    | cons y pre =>
      have h1 : ¬ (((y :: pre).length : Int) = 0) := by simp; omega
      rw [if_neg h1]
      rfl
  obtain ⟨seg, w, hsw⟩ : ∃ seg w, pre ++ x :: post = seg ++ [w] := by
    rcases List.eq_nil_or_concat (pre ++ x :: post) with h | ⟨seg, w, h⟩
    · simp at h
    · exact ⟨seg, w, by rw [h, List.concat_eq_append]⟩
  have hseglen : (q.size - 1).toNat = seg.length := by
    have := congrArg List.length hsw
    simp at this
    rw [hsize]; simp; omega
  rw [hsw] at hc
  obtain ⟨hrel, n, hn, hnext⟩ := forUp_relink_same tail seg [] w m q.front hc
  have harr' : q.NodePointers = seg ++ w :: tail := by
    rw [harr]
    have : pre ++ x :: post ++ tail = (pre ++ x :: post) ++ tail := by simp
    rw [this, hsw]; simp
  have hlast : readAt q.NodePointers (q.size - 1) = some w := by
    have h0 : ¬ (q.size - 1 < 0) := by omega
    simp only [readAt, if_neg h0, hseglen, harr']
    exact getElem?_at _ _ _
  have hm₂ := setNext_same hn hnext
  simp only [List.nil_append, List.length_nil, Option.bind_eq_bind, List.append_assoc,
    List.singleton_append] at hrel
  rw [← harr'] at hrel
  by_cases hpre : ((pre.length : Nat) : Int) = 0
  · rw [if_pos hpre] at hfront
    have hpre' : max 0 (((pre.length : Nat) : Int) - 0) = 0 := by omega
    simp only [promote, hfind, Option.bind_eq_bind, Option.some_bind, hread, hnew, hshift,
      hwrite, if_pos hpre, hfront, hseglen, hlast, hrel, hm₂, Option.pure_def]
  · rw [if_neg hpre] at hfront
    simp only [promote, hfind, Option.bind_eq_bind, Option.some_bind, hread, hnew, hshift,
      hwrite, if_neg hpre, Option.pure_def, hseglen, hlast, hrel, hm₂]

theorem ids_append (m : Memory) (l₁ l₂ : List (Option Nat)) :
    m.ids (l₁ ++ l₂) = m.ids l₁ ++ m.ids l₂ := by
  simp [Memory.ids, records_append]

/-- Two arrangements of the same nodes with pairwise distinct ids are equal when they show
the same records in the same order. -/
theorem eq_of_records_eq {m : Memory} : ∀ {A L : List (Option Nat)}, A.Perm L →
    (∀ x ∈ A, m.record x ≠ none) → (m.ids A).Nodup → m.records A = m.records L → A = L
  | [], L, hp, _, _, _ => hp.nil_eq
  | a :: A, [], hp, _, _, _ => by
    have := hp.length_eq
    simp at this
  | a :: A, l :: L, hp, hrec, hnd, heq => by
    obtain ⟨ja, hja⟩ := Option.ne_none_iff_exists'.1 (hrec a (List.mem_cons_self _ _))
    have hl : l ∈ a :: A := hp.mem_iff.2 (List.mem_cons_self _ _)
    obtain ⟨jl, hjl⟩ := Option.ne_none_iff_exists'.1 (hrec l hl)
    rw [records_cons hja, records_cons hjl, List.cons.injEq] at heq
    obtain ⟨hj, hrest⟩ := heq
    rw [ids_cons hja, List.nodup_cons] at hnd
    have hal : a = l := by
      by_contra hne
      rcases List.mem_cons.1 hl with h | h
      · exact hne h.symm
      · exact hnd.1 (mem_ids.2 ⟨l, h, jl, hjl, by rw [hj]⟩)
    subst hal
    rw [eq_of_records_eq hp.cons_inv (fun x hx => hrec x (List.mem_cons_of_mem _ hx)) hnd.2
      hrest]

/-- Claim C14, as stated, fails.  After `enqueue` of the ids 2 and 1 the logical order is
`[2, 1]` with `front` at the node of id 2, and the array order is `[1, 2]`.  `promote(1, 0)`
leaves the array as it is but relinks the nodes in array order and moves `front` to the
node of id 1: the logical order becomes `[1, 2]`. -/
theorem promote_zero_relinks_counterexample :
    ∃ m q m' q',
      enqueueAll { jobs := [⟨2, 1, 1, 0, 0⟩, ⟨1, 2, 1, 0, 0⟩], nodes := [] } NovelQueue.new
        [some 0, some 1] = some (m, q) ∧
      promote m q 1 0 = some (m', q') ∧
      q'.NodePointers = q.NodePointers ∧
      display m q = some [⟨2, 1, 1, 0, 0⟩, ⟨1, 2, 1, 0, 0⟩] ∧
      display m' q' = some [⟨1, 2, 1, 0, 0⟩, ⟨2, 1, 1, 0, 0⟩] ∧
      q.front = some 0 ∧ q'.front = some 1 ∧ display m' q' ≠ display m q :=
  ⟨{ jobs := [⟨2, 1, 1, 0, 0⟩, ⟨1, 2, 1, 0, 0⟩],
     nodes := [some ⟨some 0, some 1, 0⟩, some ⟨some 1, none, 0⟩] },
   { front := some 0,
     NodePointers := [some 1, some 0, none, none, none, none, none, none, none, none],
     size := 2, capacity := 10 },
   { jobs := [⟨2, 1, 1, 0, 0⟩, ⟨1, 2, 1, 0, 0⟩],
     nodes := [some ⟨some 0, none, 0⟩, some ⟨some 1, some 0, 0⟩] },
   { front := some 1,
     NodePointers := [some 1, some 0, none, none, none, none, none, none, none, none],
     size := 2, capacity := 10 },
   by decide, by decide, by decide, by decide, by decide, by decide, by decide, by decide⟩

/-- Claim C14, amended.  For every queue built from a new empty queue by `enqueue` calls
with pairwise distinct ids, and every id present in it, `promote(id, 0)` returns and leaves
the array, what `listJobs` prints, the size, the capacity and the jobs unchanged.  When the
ids were enqueued in ascending order, that is, when the logical order `display` shows is
the array order, the call changes nothing at all: memory and queue, hence the links and
`front`, are the same after the call as before it.  Otherwise the logical order can
change, since the nodes are relinked in array order. -/
theorem promote_zero_after_enqueues (m₀ : Memory) (ps : List (Option Nat))
    (js : List CPUJob) (jobID : Int)
    (hjobs : List.Forall₂ (fun p j => m₀.job p = some j) ps js)
    (hids : (js.map CPUJob.jobID).Nodup) (hmem : jobID ∈ js.map CPUJob.jobID) :
    ∃ m q m' q' ds, enqueueAll m₀ NovelQueue.new ps = some (m, q) ∧
      promote m q jobID 0 = some (m', q') ∧
      q'.NodePointers = q.NodePointers ∧ q'.size = q.size ∧ q'.capacity = q.capacity ∧
      m'.jobs = m.jobs ∧ listJobs m q = some ds ∧ listJobs m' q' = some ds ∧
      display m q = some js ∧
      ((js.map CPUJob.jobID).Pairwise (· < ·) → m' = m ∧ q' = q) := by
  obtain ⟨m, q, A, N, hall, hR, _, _, hs, hrecL, hperm, _, _, _⟩ :=
    enqueueAll_spec ps js m₀ NovelQueue.new [] [] (represents_new m₀) rfl
      (by decide) List.Pairwise.nil hjobs hids
      (fun _ _ h => by simp [Memory.ids, Memory.records] at h)
  simp only [List.nil_append, Memory.records, List.filterMap_nil] at hrecL hperm
  have hRchain : Chain m q.front N := by simpa using hR.chain
  have hRperm : A.Perm N := by simpa using hR.perm
  obtain ⟨tail, harr⟩ := hR.array
  -- the entry with the id
  obtain ⟨j, hj, hid⟩ := List.mem_map.1 hmem
  obtain ⟨x, hxA, hx⟩ := mem_records.1 (hperm.mem_iff.2 hj)
  obtain ⟨pre, post, hA⟩ := List.append_of_mem hxA
  have hrecA : ∀ y ∈ pre ++ x :: post, m.record y ≠ none := by
    rw [← hA]; exact hR.records
  have hfirst : ∀ y ∈ pre, ∃ k, m.record y = some k ∧ k.jobID ≠ jobID := by
    intro y hy
    obtain ⟨k, hk⟩ := Option.ne_none_iff_exists'.1 (hrecA y (List.mem_append_left _ hy))
    refine ⟨k, hk, ?_⟩
    rw [hA, ids_append, ids_cons hx, List.pairwise_append] at hs
    have := hs.2.2 k.jobID (mem_ids.2 ⟨y, hy, k, hk, rfl⟩) j.jobID (List.mem_cons_self _ _)
    omega
  have hlive : ∀ y ∈ pre ++ [] ++ x :: post, m.node y ≠ none := fun y hy h => by
    obtain ⟨k, hk⟩ := Option.ne_none_iff_exists'.1 (hrecA y (by simpa using hy))
    obtain ⟨n, hn, _⟩ := record_node hk
    rw [h] at hn; cases hn
  obtain ⟨m', hpro, hjobs', _, hframe⟩ := @promote_spec m q jobID 0 pre [] post tail x j
    (by rw [harr, hA]; simp) (by rw [hR.size, hA]; simp) hlive
    (by simpa using hfirst) hx hid (by simp)
  have harr' : pre ++ x :: [] ++ post ++ tail = q.NodePointers := by
    rw [harr, hA]; simp
  have hrec' : ∀ y ∈ A, m'.record y = m.record y := fun y _ =>
    record_congr hjobs' (hframe y)
  have hds : display m q = some js := by
    have := display_spec hRchain (fun y hy => hR.records y (hRperm.mem_iff.2 hy))
    rw [this]
    exact congrArg some hrecL
  refine ⟨m, q, m', _, m.records A, hall, hpro, harr', rfl, rfl, hjobs',
    listJobs_spec harr hR.size hR.records, ?_, hds, ?_⟩
  · rw [← records_congr hrec']
    exact @listJobs_spec m' _ A tail (by rw [harr']; exact harr) hR.size
      (fun y hy => by rw [hrec' y hy]; exact hR.records y hy)
  · intro hsorted
    have hsA : (m.records A).Pairwise (fun a b => a.jobID < b.jobID) := by
      simpa [Memory.ids, List.pairwise_map] using hs
    have hsN : (m.records N).Pairwise (fun a b => a.jobID < b.jobID) := by
      have : m.records N = js := hrecL
      rw [this]
      simpa [List.pairwise_map] using hsorted
    have hpermAN : (m.records A).Perm (m.records N) := by
      have : m.records N = js := hrecL
      rw [this]; exact hperm
    haveI : IsAntisymm CPUJob (fun a b => a.jobID < b.jobID) :=
      ⟨fun a b h1 h2 => absurd h1 (by omega)⟩
    have hrecs : m.records A = m.records N := List.eq_of_perm_of_sorted hpermAN hsA hsN
    have hAN : A = N := eq_of_records_eq hRperm hR.records
      (hs.imp (fun h => ne_of_lt h)) hrecs
    have hsame := @promote_zero_same m q jobID pre post tail x j
      (by simp [harr, hA]) (by rw [hR.size, hA]) (by rw [← hA, hAN]; exact hRchain)
      hfirst hx hid
    rw [hsame] at hpro
    simp only [Option.some.injEq, Prod.mk.injEq] at hpro
    exact ⟨hpro.1.symm, hpro.2.symm⟩

/-- The theorem `promote_zero_after_enqueues` at the jobs with ids 3 and 5, for
`promote(5, 0)`. -/
theorem promote_zero_after_enqueues_witness :
    ∃ m q m' q' ds, enqueueAll
        { jobs := [⟨3, 2, 1, 0, 0⟩, ⟨5, 1, 1, 0, 0⟩], nodes := [] } NovelQueue.new
        [some 0, some 1] = some (m, q) ∧
      promote m q 5 0 = some (m', q') ∧
      q'.NodePointers = q.NodePointers ∧ q'.size = q.size ∧ q'.capacity = q.capacity ∧
      m'.jobs = m.jobs ∧ listJobs m q = some ds ∧ listJobs m' q' = some ds ∧
      display m q = some [⟨3, 2, 1, 0, 0⟩, ⟨5, 1, 1, 0, 0⟩] ∧
      ((([⟨3, 2, 1, 0, 0⟩, ⟨5, 1, 1, 0, 0⟩] : List CPUJob).map CPUJob.jobID).Pairwise
        (· < ·) → m' = m ∧ q' = q) :=
  promote_zero_after_enqueues
    { jobs := [⟨3, 2, 1, 0, 0⟩, ⟨5, 1, 1, 0, 0⟩], nodes := [] }
    [some 0, some 1] [⟨3, 2, 1, 0, 0⟩, ⟨5, 1, 1, 0, 0⟩] 5
    (List.Forall₂.cons rfl (List.Forall₂.cons rfl List.Forall₂.nil))
    (by decide) (by decide)

end JobScheduler
